import Mathlib

/-!
# Dithering pipeline (`src/script.js`): tone pipeline, dither engine, colour parsing,
pattern renderers

Shallow embedding of the core functions of `script.js`.

Modelling conventions.
* JavaScript numbers are modelled as exact rationals (`ℚ`): IEEE-754 rounding of doubles is
  not modelled.  The rounding of a store into a `Float32Array` is left out of the definitions
  that keep the source's names and is kept in the `F32` definitions of the two error-diffusion
  loops (`ditherFloydF32`, `ditherAtkinsonF32`), where it decides the range of the output.
* `Math.round x` is the nearest integer with ties towards `+∞`, i.e. `⌊x + 1/2⌋`.
* A typed array is a `List`; a read `a[i]` is `a.getD i 0`, a write `a[i] = v` is `a.set i v`
  (a write outside the array is ignored, as in JavaScript).  Reads outside the array
  (`undefined` in JavaScript) only happen when a buffer is shorter than `width * height`,
  which the statements exclude.
* `for (let k = 0; k < n; k += 1) body` is `forLoop n body`, a left fold over `0, 1, …, n-1`.
* The canvas is an external service: a renderer is modelled by the surface size it sets and
  the list of drawing primitives it issues, in order.
* `Math.sin` is a parameter of `hashNoise` and of the stipple renderer.
-/

namespace Dithering

/-! ## Numeric primitives -/

/-- Model of `Math.round`: nearest integer, ties towards `+∞`. -/
def jsRound (x : ℚ) : ℤ := ⌊x + 1 / 2⌋

/-- A `for (let k = 0; k < n; k += 1)` loop threading the state `s` through `body`. -/
def forLoop {σ : Type} (n : ℕ) (body : σ → ℕ → σ) (s : σ) : σ :=
  (List.range n).foldl body s

/-- Source `luminance` (lines 48-50). -/
def luminance (r g b : ℚ) : ℚ := 0.299 * r + 0.587 * g + 0.114 * b

/-- Source `quantize` (lines 52-55). -/
def quantize (value : ℚ) (levels : ℤ) : ℚ :=
  let step : ℚ := 255 / ((levels : ℚ) - 1)
  (jsRound (value / step) : ℚ) * step

/-- Source `adjustContrast` (lines 57-60). -/
def adjustContrast (value contrastPercent : ℚ) : ℚ :=
  let c := contrastPercent / 100
  max 0 (min 255 ((value - 128) * c + 128))

/-- An `ImageData` object: interleaved RGBA bytes and the dimensions. -/
structure ImageData where
  data : List ℕ
  width : ℕ
  height : ℕ

/-- Source `toGrayArray` (lines 62-71). -/
def toGrayArray (imgData : ImageData) (contrast : ℚ) (levels : ℤ) : List ℚ :=
  let data := imgData.data
  let width := imgData.width
  let height := imgData.height
  let arr : List ℚ := List.replicate (width * height) 0
  forLoop (width * height) (fun arr i =>
    let p := i * 4
    let gray := luminance (data.getD p 0) (data.getD (p + 1) 0) (data.getD (p + 2) 0)
    arr.set i (quantize (adjustContrast gray contrast) levels)) arr

/-- The compound assignment `out[j] += e` on a typed array. -/
def addAt (out : List ℚ) (j : ℕ) (e : ℚ) : List ℚ :=
  out.set j (out.getD j 0 + e)

/-- Performs a sequence of compound assignments `out[j] += e`, in order. -/
def applyWrites (out : List ℚ) (writes : List (ℕ × ℚ)) : List ℚ :=
  writes.foldl (fun o t => addAt o t.1 t.2) out

/-- The guarded neighbour updates of `ditherFloyd` (lines 82-85) at pixel `(x, y)`, in source
order: each entry `(j, e)` is one executed statement `out[j] += e`. -/
def floydWrites (width height x y : ℕ) (err : ℚ) : List (ℕ × ℚ) :=
  let i := y * width + x
  (if x + 1 < width then [(i + 1, err * 7 / 16)] else []) ++
  (if (x : ℤ) - 1 ≥ 0 ∧ y + 1 < height then [(i + width - 1, err * 3 / 16)] else []) ++
  (if y + 1 < height then [(i + width, err * 5 / 16)] else []) ++
  (if x + 1 < width ∧ y + 1 < height then [(i + width + 1, err / 16)] else [])

/-- The body of the inner loop of `ditherFloyd` (lines 77-85). -/
def floydStep (width height : ℕ) (levels : ℤ) (out : List ℚ) (x y : ℕ) : List ℚ :=
  let i := y * width + x
  let oldVal := out.getD i 0
  let newVal := quantize oldVal levels
  let err := oldVal - newVal
  let out := out.set i newVal
  applyWrites out (floydWrites width height x y err)

/-- Source `ditherFloyd` (lines 73-89) in exact arithmetic; `out` starts as a copy of `gray`.
The rounding of the stores into the `Float32Array` is kept in `ditherFloydF32`. -/
def ditherFloyd (gray : List ℚ) (width height : ℕ) (levels : ℤ) : List ℚ :=
  let out := gray
  forLoop height (fun out y =>
    forLoop width (fun out x => floydStep width height levels out x y) out) out

/-- The guarded neighbour updates of `ditherAtkinson` (lines 100-105) at pixel `(x, y)`, in
source order; `err` is already the residual divided by 8. -/
def atkinsonWrites (width height x y : ℕ) (err : ℚ) : List (ℕ × ℚ) :=
  let i := y * width + x
  (if x + 1 < width then [(i + 1, err)] else []) ++
  (if x + 2 < width then [(i + 2, err)] else []) ++
  (if (x : ℤ) - 1 ≥ 0 ∧ y + 1 < height then [(i + width - 1, err)] else []) ++
  (if y + 1 < height then [(i + width, err)] else []) ++
  (if x + 1 < width ∧ y + 1 < height then [(i + width + 1, err)] else []) ++
  (if y + 2 < height then [(i + width * 2, err)] else [])

/-- The body of the inner loop of `ditherAtkinson` (lines 95-105). -/
def atkinsonStep (width height : ℕ) (levels : ℤ) (out : List ℚ) (x y : ℕ) : List ℚ :=
  let i := y * width + x
  let oldVal := out.getD i 0
  let newVal := quantize oldVal levels
  let err := (oldVal - newVal) / 8
  let out := out.set i newVal
  applyWrites out (atkinsonWrites width height x y err)

/-- Source `ditherAtkinson` (lines 91-109) in exact arithmetic; `out` starts as a copy of
`gray`.  The rounding of the stores into the `Float32Array` is kept in `ditherAtkinsonF32`. -/
def ditherAtkinson (gray : List ℚ) (width height : ℕ) (levels : ℤ) : List ℚ :=
  let out := gray
  forLoop height (fun out y =>
    forLoop width (fun out x => atkinsonStep width height levels out x y) out) out

/-- Every index accessed by `ditherFloyd`, in order: at each pixel the read and the write of
`out[i]`, then the neighbour updates. -/
def floydAccesses (width height : ℕ) : List ℕ :=
  (List.range height).flatMap (fun y => (List.range width).flatMap (fun x =>
    (y * width + x) :: (y * width + x) :: (floydWrites width height x y 0).map Prod.fst))

/-- Every index accessed by `ditherAtkinson`, in order. -/
def atkinsonAccesses (width height : ℕ) : List ℕ :=
  (List.range height).flatMap (fun y => (List.range width).flatMap (fun x =>
    (y * width + x) :: (y * width + x) :: (atkinsonWrites width height x y 0).map Prod.fst))

/-- Source `bayer4` (lines 111-116). -/
def bayer4 : List (List ℚ) :=
  [[0, 8, 2, 10],
   [12, 4, 14, 6],
   [3, 11, 1, 9],
   [15, 7, 13, 5]]

/-- The threshold of `ditherBayer` (line 123) at `(x, y)`. -/
def bayerThreshold (x y : ℕ) : ℚ :=
  (((bayer4.getD (y % 4) []).getD (x % 4) 0 + 0.5) / 16 - 0.5) * 32

/-- Source `ditherBayer` (lines 118-128). -/
def ditherBayer (gray : List ℚ) (width height : ℕ) (levels : ℤ) : List ℚ :=
  let out : List ℚ := List.replicate (width * height) 0
  forLoop height (fun out y =>
    forLoop width (fun out x =>
      let i := y * width + x
      let threshold := bayerThreshold x y
      out.set i (quantize (gray.getD i 0 + threshold) levels)) out) out

/-- Source `ditherThreshold` (lines 130-136). -/
def ditherThreshold (gray : List ℚ) (levels : ℤ) : List ℚ :=
  let out : List ℚ := List.replicate gray.length 0
  forLoop gray.length (fun out i => out.set i (quantize (gray.getD i 0) levels)) out

/-- Source `quantize` (lines 52-55) on an arbitrary level count, with the one non-finite case of
IEEE-754 arithmetic made explicit: when `levels - 1` is `0` the step is `255 / 0 = +Infinity`,
`value / step` is `0`, `Math.round` gives `0`, and `0 * Infinity` is `NaN`, written `none`.
No exception is raised. -/
def quantizeNum (value : ℚ) (levels : ℤ) : Option ℚ :=
  if levels - 1 = 0 then none else some (quantize value levels)

/-- Source `toGrayArray` (lines 62-71) on an arbitrary level count; `none` is a `NaN` entry. -/
def toGrayArrayNum (imgData : ImageData) (contrast : ℚ) (levels : ℤ) : List (Option ℚ) :=
  let data := imgData.data
  let width := imgData.width
  let height := imgData.height
  let arr : List (Option ℚ) := List.replicate (width * height) (some 0)
  forLoop (width * height) (fun arr i =>
    let p := i * 4
    let gray := luminance (data.getD p 0) (data.getD (p + 1) 0) (data.getD (p + 2) 0)
    arr.set i (quantizeNum (adjustContrast gray contrast) levels)) arr

/-- The tone stage of source `processImage` (lines 397-420): the guard on the missing source
image, which reports through `setStatus` and returns, and otherwise the call of `toGrayArray`
on the pixels read back from the downsampled canvas (`imgData`, produced by the canvas
service) with the level count and contrast read from the controls. -/
def processImageTone (sourceImage : Option ImageData) (contrast : ℚ) (levels : ℤ) :
    Except String (List (Option ℚ)) :=
  match sourceImage with
  | none => Except.error "Select an input image first."
  | some imgData => Except.ok (toGrayArrayNum imgData contrast levels)

/-! ## Colour parsing -/

/-- The `length` of a JavaScript string: the number of UTF-16 code units. -/
def utf16Length (s : List Char) : ℕ :=
  (s.map (fun c => if c.toNat < 65536 then 1 else 2)).sum

/-- Model of `hex.replace("#", "")`: removes the first occurrence of `#`, wherever it is. -/
def removeFirstHash : List Char → List Char
  | [] => []
  | c :: cs => if c = '#' then cs else c :: removeFirstHash cs

/-- The characters that `parseInt` skips at the start of its input (ECMAScript
`StrWhiteSpaceChar`: white space and line terminators). -/
def isStrWhiteSpaceChar (c : Char) : Bool :=
  decide (c.toNat ∈ [9, 10, 11, 12, 13, 32, 160, 5760, 8192, 8193, 8194, 8195, 8196, 8197, 8198,
    8199, 8200, 8201, 8202, 8232, 8233, 8239, 8287, 12288, 65279])

/-- A radix-16 digit: `0-9`, `a-f` or `A-F`. -/
def isHexDigit (c : Char) : Bool :=
  (decide (48 ≤ c.toNat) && decide (c.toNat ≤ 57)) ||
  (decide (97 ≤ c.toNat) && decide (c.toNat ≤ 102)) ||
  (decide (65 ≤ c.toNat) && decide (c.toNat ≤ 70))

/-- The value of a radix-16 digit. -/
def hexVal (c : Char) : ℕ :=
  if c.toNat ≤ 57 then c.toNat - 48 else if 97 ≤ c.toNat then c.toNat - 87 else c.toNat - 55

/-- The Number value of a natural number: round to nearest, ties to even, at 53 significant
bits (an overflow to `Infinity` is not modelled; such values and `Infinity` both convert to 0
under `ToInt32`). -/
def toDouble (n : ℕ) : ℕ :=
  if n < 2 ^ 53 then n else
    let shift := Nat.log2 n - 52
    let q := n / 2 ^ shift
    let r := n % 2 ^ shift
    let half := 2 ^ (shift - 1)
    (if r > half ∨ (r = half ∧ q % 2 = 1) then q + 1 else q) * 2 ^ shift

/-- Model of `Number.parseInt(s, 16)`: skips leading white space, an optional sign and an
optional `0x`/`0X` prefix, then reads the longest run of radix-16 digits; `none` is `NaN`
(no digit). -/
def parseInt16 (s : List Char) : Option ℤ :=
  let s := s.dropWhile isStrWhiteSpaceChar
  let sign : ℤ := match s with
    | c :: _ => if c = '-' then -1 else 1
    | [] => 1
  let s := match s with
    | c :: r => if c = '-' ∨ c = '+' then r else c :: r
    | [] => []
  let s := match s with
    | a :: b :: r => if a = '0' ∧ (b = 'x' ∨ b = 'X') then r else a :: b :: r
    | r => r
  let z := s.takeWhile isHexDigit
  if z.isEmpty then none else some (sign * toDouble (z.foldl (fun n c => n * 16 + hexVal c) 0))

/-- The ECMAScript conversion `ToInt32` applied by `>>` and `&`: `NaN` becomes 0, an integer is
reduced modulo `2^32` into the signed 32-bit range. -/
def toInt32 (num : Option ℤ) : ℤ :=
  match num with
  | none => 0
  | some n =>
    let m := n % 4294967296
    if m ≥ 2147483648 then m - 4294967296 else m

/-- Source `hexToRgb` (lines 150-161).  On 32-bit integers `v >> k` is the floor of
`v / 2^k` and `v & 255` is `v mod 256`. -/
def hexToRgb (hex : String) : List ℤ :=
  let cleaned := removeFirstHash hex.toList
  let full := if utf16Length cleaned = 3
    then cleaned.flatMap (fun n => [n, n])
    else cleaned
  let num := parseInt16 full
  [(toInt32 num / 65536) % 256,
   (toInt32 num / 256) % 256,
   toInt32 num % 256]

/-! ## Orchestrator helpers -/

/-- Source `fitToPixels` (lines 138-144); the result is the pair `(width, height)`. -/
def fitToPixels (imgWidth imgHeight targetMax : ℚ) : ℤ × ℤ :=
  let ratio := min (min (targetMax / imgWidth) (targetMax / imgHeight)) 1
  (max 1 (jsRound (imgWidth * ratio)), max 1 (jsRound (imgHeight * ratio)))

/-- The choice of the dithering algorithm in source `processImage` (lines 422-426). -/
def selectDither (mode : String) (gray : List ℚ) (width height : ℕ) (levels : ℤ) : List ℚ :=
  if mode = "floyd" then ditherFloyd gray width height levels
  else if mode = "atkinson" then ditherAtkinson gray width height levels
  else if mode = "bayer" then ditherBayer gray width height levels
  else ditherThreshold gray levels

/-! ## Pattern renderers -/

/-- A drawing primitive issued on the canvas context, with the context state it is drawn
under: a filled rectangle, a filled full circle (`arc` over `0 .. 2π`), a stroked line. -/
inductive DrawOp where
  | fillRect (x y w h : ℚ) (fillStyle : List ℤ) (globalAlpha : ℚ)
  | fillArc (cx cy radius : ℚ) (fillStyle : List ℤ)
  | line (x1 y1 x2 y2 : ℚ) (strokeStyle : List ℤ) (globalAlpha lineWidth : ℚ)
deriving DecidableEq

/-- The output surface: the canvas size and the drawing primitives issued on it, in order. -/
structure Surface where
  width : ℚ
  height : ℚ
  ops : List DrawOp
deriving DecidableEq

/-- The colour `#ffffff` of the background fill. -/
def white : List ℤ := [255, 255, 255]

/-- The colour of source pixel `idx`: `[sourceRgba[p], sourceRgba[p + 1], sourceRgba[p + 2]]`
with `p = idx * 4`. -/
def sourceColor (sourceRgba : List ℕ) (idx : ℕ) : List ℤ :=
  let p := idx * 4
  [(sourceRgba.getD p 0 : ℤ), (sourceRgba.getD (p + 1) 0 : ℤ), (sourceRgba.getD (p + 2) 0 : ℤ)]

/-- Source `getInkColor` (lines 189-194). -/
def getInkColor (idx : ℕ) (colorMode : String) (sourceRgba : List ℕ) (themeRgb : List ℤ) :
    List ℤ :=
  if colorMode = "mono" then [20, 20, 20]
  else if colorMode = "theme" then themeRgb
  else sourceColor sourceRgba idx

/-- The darkness of pixel `i`, as every renderer computes it (e.g. lines 205-206):
`v = Math.max(0, Math.min(255, values[i]))`, `darkness = 1 - v / 255`. -/
def darknessAt (values : List ℚ) (i : ℕ) : ℚ :=
  let v := max 0 (min 255 (values.getD i 0))
  1 - v / 255

/-- The dot radius of `renderRoundDot` (lines 207-208). -/
def dotRadius (darkness scale : ℚ) (levels : ℤ) (textureIntensity : ℚ) : ℚ :=
  let textureBoost := 0.6 + textureIntensity * 0.9
  (darkness * scale * 0.45 * levels * textureBoost) / max ((levels : ℚ) - 1) 1

/-- The body of the inner loop of `renderRoundDot` (lines 204-222): the primitives drawn for
pixel `(x, y)`. -/
def roundDotCell (values : List ℚ) (width : ℕ) (scale : ℚ) (levels : ℤ) (colorMode : String)
    (sourceRgba : List ℕ) (themeRgb : List ℤ) (textureIntensity : ℚ) (x y : ℕ) : List DrawOp :=
  let i := y * width + x
  let darkness := darknessAt values i
  let radius := dotRadius darkness scale levels textureIntensity
  if radius ≤ 0.2 then []
  else
    let color := if colorMode = "mono" then [17, 17, 17]
      else if colorMode = "theme" then themeRgb
      else sourceColor sourceRgba i
    [DrawOp.fillArc (x * scale + scale / 2) (y * scale + scale / 2) radius color]

/-- A renderer: sizes the canvas, fills it white and draws every cell in raster order. -/
def renderCells (width height : ℕ) (scale : ℚ) (cell : ℕ → ℕ → List DrawOp) : Surface :=
  { width := width * scale
    height := height * scale
    ops := forLoop height (fun ops y => forLoop width (fun ops x => ops ++ cell x y) ops)
      [DrawOp.fillRect 0 0 (width * scale) (height * scale) white 1] }

/-- Source `renderRoundDot` (lines 196-225). -/
def renderRoundDot (values : List ℚ) (width height : ℕ) (scale : ℚ) (levels : ℤ)
    (colorMode : String) (sourceRgba : List ℕ) (themeRgb : List ℤ) (textureIntensity : ℚ) :
    Surface :=
  renderCells width height scale
    (roundDotCell values width scale levels colorMode sourceRgba themeRgb textureIntensity)

/-- Source `drawLine` (lines 241-250). -/
def drawLine (x1 y1 x2 y2 : ℚ) (color : List ℤ) (alpha thickness : ℚ) : DrawOp :=
  DrawOp.line x1 y1 x2 y2 color alpha thickness

/-- The number of strokes per cell of the hatch renderers (lines 268 and 294). -/
def hatchLineCount (darkness textureIntensity : ℚ) : ℤ :=
  1 + ⌊darkness * (1.4 + textureIntensity * 3.8)⌋

/-- The body of the inner loop of `renderHorizontalHatch` (lines 261-273); the loop
`for (let n = 1; n <= lineCount; n += 1)` runs over `n = k + 1`, `k = 0 .. lineCount - 1`. -/
def horizontalHatchCell (values : List ℚ) (width : ℕ) (scale : ℚ) (colorMode : String)
    (sourceRgba : List ℕ) (themeRgb : List ℤ) (textureIntensity thickness : ℚ) (x y : ℕ) :
    List DrawOp :=
  let i := y * width + x
  let darkness := darknessAt values i
  if darkness < 0.06 then []
  else
    let color := getInkColor i colorMode sourceRgba themeRgb
    let x0 := x * scale
    let y0 := y * scale
    let lineCount := hatchLineCount darkness textureIntensity
    let step := scale / (lineCount + 1)
    forLoop lineCount.toNat (fun ops k =>
      let n : ℚ := k + 1
      let yy := y0 + n * step
      ops ++ [drawLine (x0 + scale * 0.1) yy (x0 + scale * 0.9) yy color darkness thickness]) []

/-- Source `renderHorizontalHatch` (lines 252-276). -/
def renderHorizontalHatch (values : List ℚ) (width height : ℕ) (scale : ℚ)
    (colorMode : String) (sourceRgba : List ℕ) (themeRgb : List ℤ) (textureIntensity : ℚ) :
    Surface :=
  let thickness := max 1 (scale * (0.1 + textureIntensity * 0.12))
  renderCells width height scale
    (horizontalHatchCell values width scale colorMode sourceRgba themeRgb textureIntensity
      thickness)

/-- The body of the inner loop of `renderVerticalHatch` (lines 287-299). -/
def verticalHatchCell (values : List ℚ) (width : ℕ) (scale : ℚ) (colorMode : String)
    (sourceRgba : List ℕ) (themeRgb : List ℤ) (textureIntensity thickness : ℚ) (x y : ℕ) :
    List DrawOp :=
  let i := y * width + x
  let darkness := darknessAt values i
  if darkness < 0.06 then []
  else
    let color := getInkColor i colorMode sourceRgba themeRgb
    let x0 := x * scale
    let y0 := y * scale
    let lineCount := hatchLineCount darkness textureIntensity
    let step := scale / (lineCount + 1)
    forLoop lineCount.toNat (fun ops k =>
      let n : ℚ := k + 1
      let xx := x0 + n * step
      ops ++ [drawLine xx (y0 + scale * 0.1) xx (y0 + scale * 0.9) color darkness thickness]) []

/-- Source `renderVerticalHatch` (lines 278-302). -/
def renderVerticalHatch (values : List ℚ) (width height : ℕ) (scale : ℚ)
    (colorMode : String) (sourceRgba : List ℕ) (themeRgb : List ℤ) (textureIntensity : ℚ) :
    Surface :=
  let thickness := max 1 (scale * (0.1 + textureIntensity * 0.12))
  renderCells width height scale
    (verticalHatchCell values width scale colorMode sourceRgba themeRgb textureIntensity
      thickness)

/-- The body of the inner loop of `renderCrossHatch` (lines 313-326). -/
def crossHatchCell (values : List ℚ) (width : ℕ) (scale : ℚ) (colorMode : String)
    (sourceRgba : List ℕ) (themeRgb : List ℤ) (textureIntensity thickness : ℚ) (x y : ℕ) :
    List DrawOp :=
  let i := y * width + x
  let darkness := darknessAt values i
  if darkness < 0.06 then []
  else
    let color := getInkColor i colorMode sourceRgba themeRgb
    let x0 := x * scale
    let y0 := y * scale
    [drawLine (x0 + scale * 0.12) (y0 + scale * 0.88) (x0 + scale * 0.88) (y0 + scale * 0.12)
      color darkness thickness] ++
    (if darkness > 0.3 - textureIntensity * 0.12 then
      [drawLine (x0 + scale * 0.12) (y0 + scale * 0.12) (x0 + scale * 0.88) (y0 + scale * 0.88)
        color (darkness * 0.9) thickness] else []) ++
    (if darkness > 0.62 - textureIntensity * 0.15 then
      [drawLine (x0 + scale * 0.5) (y0 + scale * 0.08) (x0 + scale * 0.5) (y0 + scale * 0.92)
        color (darkness * 0.8) thickness] else [])

/-- Source `renderCrossHatch` (lines 304-329). -/
def renderCrossHatch (values : List ℚ) (width height : ℕ) (scale : ℚ)
    (colorMode : String) (sourceRgba : List ℕ) (themeRgb : List ℤ) (textureIntensity : ℚ) :
    Surface :=
  let thickness := max 1 (scale * (0.08 + textureIntensity * 0.11))
  renderCells width height scale
    (crossHatchCell values width scale colorMode sourceRgba themeRgb textureIntensity thickness)

/-- Source `hashNoise` (lines 331-334).  `Math.sin` is a parameter: the platform's sine on
numbers, not a function of this repository. -/
def hashNoise (mathSin : ℚ → ℚ) (x y s : ℚ) : ℚ :=
  let t := mathSin ((x * 127.1 + y * 311.7 + s * 17.3) * 0.0174533) * 43758.5453
  t - ⌊t⌋

/-- The number of marks per cell of `renderGrainStipple` (line 351). -/
def stippleCount (darkness textureIntensity : ℚ) : ℤ :=
  1 + ⌊darkness * (2.5 + textureIntensity * 6.5)⌋

/-- The side of a stipple mark (line 352). -/
def stippleDotSize (scale textureIntensity : ℚ) : ℚ :=
  max 1 (scale * (0.14 + textureIntensity * 0.2))

/-- The body of the inner loop of `renderGrainStipple` (lines 344-362). -/
def grainStippleCell (mathSin : ℚ → ℚ) (values : List ℚ) (width : ℕ) (scale : ℚ)
    (colorMode : String) (sourceRgba : List ℕ) (themeRgb : List ℤ) (textureIntensity : ℚ)
    (x y : ℕ) : List DrawOp :=
  let i := y * width + x
  let darkness := darknessAt values i
  if darkness < 0.05 then []
  else
    let color := getInkColor i colorMode sourceRgba themeRgb
    let x0 := x * scale
    let y0 := y * scale
    let count := stippleCount darkness textureIntensity
    let dotSize := stippleDotSize scale textureIntensity
    forLoop count.toNat (fun ops n =>
      let rx := hashNoise mathSin x y (n + 1)
      let ry := hashNoise mathSin y x (n + 11)
      let px := x0 + rx * (scale - dotSize)
      let py := y0 + ry * (scale - dotSize)
      ops ++ [DrawOp.fillRect px py dotSize dotSize color (0.35 + darkness * 0.65)]) []

/-- Source `renderGrainStipple` (lines 336-365). -/
def renderGrainStipple (mathSin : ℚ → ℚ) (values : List ℚ) (width height : ℕ) (scale : ℚ)
    (colorMode : String) (sourceRgba : List ℕ) (themeRgb : List ℤ) (textureIntensity : ℚ) :
    Surface :=
  renderCells width height scale
    (grainStippleCell mathSin values width scale colorMode sourceRgba themeRgb textureIntensity)

/-! ## Error diffusion with `Float32Array` stores -/

/-- Rounds a rational to the nearest integer, ties to the even one. -/
def roundHalfEven (y : ℚ) : ℤ :=
  let f := ⌊y⌋
  let r := y - f
  if r < 1 / 2 then f
  else if r > 1 / 2 then f + 1
  else if f % 2 = 0 then f else f + 1

/-- The number that an element assignment of a `Float32Array` stores: `x` rounded to the
nearest binary32 number, ties to even.  With `e = ⌊log₂ |x|⌋` (at least `-126`, the subnormal
range) the binary32 numbers around `x` are the multiples of `2 ^ (e - 23)`.  The overflow to
`±Infinity` for `|x| ≥ 2^128 - 2^103` is not modelled. -/
def fround (x : ℚ) : ℚ :=
  if x = 0 then 0
  else
    let e := max (Int.log 2 |x|) (-126)
    (roundHalfEven (x / (2 : ℚ) ^ (e - 23)) : ℚ) * (2 : ℚ) ^ (e - 23)

/-- The compound assignment `out[j] += e` on a `Float32Array`: the sum is rounded by the
store. -/
def addAtF32 (out : List ℚ) (j : ℕ) (e : ℚ) : List ℚ :=
  out.set j (fround (out.getD j 0 + e))

/-- Performs a sequence of compound assignments on a `Float32Array`, in order. -/
def applyWritesF32 (out : List ℚ) (writes : List (ℕ × ℚ)) : List ℚ :=
  writes.foldl (fun o t => addAtF32 o t.1 t.2) out

/-- The body of the inner loop of `ditherFloyd` (lines 77-85) with the rounding of every store
into the `Float32Array` `out`; the arithmetic between two stores is exact. -/
def floydStepF32 (width height : ℕ) (levels : ℤ) (out : List ℚ) (x y : ℕ) : List ℚ :=
  let i := y * width + x
  let oldVal := out.getD i 0
  let newVal := quantize oldVal levels
  let err := oldVal - newVal
  let out := out.set i (fround newVal)
  applyWritesF32 out (floydWrites width height x y err)

/-- Source `ditherFloyd` (lines 73-89) with the rounding of every store into the
`Float32Array` `out`, the initial copy `new Float32Array(gray)` included. -/
def ditherFloydF32 (gray : List ℚ) (width height : ℕ) (levels : ℤ) : List ℚ :=
  let out := gray.map fround
  forLoop height (fun out y =>
    forLoop width (fun out x => floydStepF32 width height levels out x y) out) out

/-- The body of the inner loop of `ditherAtkinson` (lines 95-105) with the rounding of every
store into the `Float32Array` `out`. -/
def atkinsonStepF32 (width height : ℕ) (levels : ℤ) (out : List ℚ) (x y : ℕ) : List ℚ :=
  let i := y * width + x
  let oldVal := out.getD i 0
  let newVal := quantize oldVal levels
  let err := (oldVal - newVal) / 8
  let out := out.set i (fround newVal)
  applyWritesF32 out (atkinsonWrites width height x y err)

/-- Source `ditherAtkinson` (lines 91-109) with the rounding of every store into the
`Float32Array` `out`, the initial copy included. -/
def ditherAtkinsonF32 (gray : List ℚ) (width height : ℕ) (levels : ℤ) : List ℚ :=
  let out := gray.map fround
  forLoop height (fun out y =>
    forLoop width (fun out x => atkinsonStepF32 width height levels out x y) out) out

/-! ## Specification vocabulary -/

/-- The room that a sequence of rounded compound assignments takes at index `j`: for each
executed write to `j`, the size of its amount plus `2⁻¹⁶` for the rounding of the store. -/
def wabs (writes : List (ℕ × ℚ)) (j : ℕ) : ℚ :=
  ((writes.filter (fun t => t.1 = j)).map (fun t => |t.2| + 1 / 65536)).sum

/-- The total amount that a sequence of compound assignments adds at index `j`. -/
def wsum (writes : List (ℕ × ℚ)) (j : ℕ) : ℚ :=
  ((writes.filter (fun t => t.1 = j)).map Prod.snd).sum

/-- The neighbour updates as the specification words them: for each offset `(dx, dy)` with
its amount, in the given order, the update of the grid position `(x + dx, y + dy)` when that
position lies inside the `width × height` grid, and nothing otherwise. -/
def specWrites (width height x y : ℕ) (offsets : List (ℤ × ℤ × ℚ)) : List (ℕ × ℚ) :=
  (offsets.filter (fun o =>
      decide (0 ≤ (x : ℤ) + o.1 ∧ (x : ℤ) + o.1 < width ∧
        0 ≤ (y : ℤ) + o.2.1 ∧ (y : ℤ) + o.2.1 < height))).map
    (fun o => ((((y : ℤ) + o.2.1) * width + ((x : ℤ) + o.1)).toNat, o.2.2))



/-- The value `q` is one of the `N` quantization steps `k * 255 / (N - 1)`, `0 ≤ k ≤ N - 1`. -/
def IsStep (N : ℤ) (q : ℚ) : Prop :=
  ∃ k : ℤ, 0 ≤ k ∧ k ≤ N - 1 ∧ q = (k : ℚ) * 255 / ((N : ℚ) - 1)

/-- Invariant of the error-diffusion loops when `p` pixels have been processed: processed
pixels hold a quantization step, and an unprocessed pixel `j` differs from its input tone by
at most the share `B j` of half a step (strictly less on the upper side unless untouched). -/
def DiffusionInv (N : ℤ) (gray out : List ℚ) (p : ℕ) (B : ℕ → ℚ) : Prop :=
  out.length = gray.length ∧
  (∀ j, j < p → j < gray.length → IsStep N (out.getD j 0)) ∧
  (∀ j, p ≤ j → j < gray.length →
    gray.getD j 0 - B j * (255 / ((N : ℚ) - 1) / 2) ≤ out.getD j 0 ∧
    (out.getD j 0 < gray.getD j 0 + B j * (255 / ((N : ℚ) - 1) / 2) ∨
      out.getD j 0 = gray.getD j 0))

/-- Sixteenths of the residual that pixel `(x, y)` of `ditherFloyd` adds at index `j`. -/
def floydWeight (width height x y j : ℕ) : ℕ :=
  (if x + 1 < width ∧ y * width + x + 1 = j then 7 else 0) +
  (if ((x : ℤ) - 1 ≥ 0 ∧ y + 1 < height) ∧ y * width + x + width - 1 = j then 3 else 0) +
  (if y + 1 < height ∧ y * width + x + width = j then 5 else 0) +
  (if (x + 1 < width ∧ y + 1 < height) ∧ y * width + x + width + 1 = j then 1 else 0)

/-- Sixteenths of a residual that index `j` has received in `ditherFloyd` from the first `p`
pixels of the raster scan. -/
def floydIncoming (width height p j : ℕ) : ℕ :=
  Finset.sum (Finset.range p) (fun q => floydWeight width height (q % width) (q / width) j)

/-- Eighths of the residual that pixel `(x, y)` of `ditherAtkinson` adds at index `j`. -/
def atkinsonWeight (width height x y j : ℕ) : ℕ :=
  (if x + 1 < width ∧ y * width + x + 1 = j then 1 else 0) +
  (if x + 2 < width ∧ y * width + x + 2 = j then 1 else 0) +
  (if ((x : ℤ) - 1 ≥ 0 ∧ y + 1 < height) ∧ y * width + x + width - 1 = j then 1 else 0) +
  (if y + 1 < height ∧ y * width + x + width = j then 1 else 0) +
  (if (x + 1 < width ∧ y + 1 < height) ∧ y * width + x + width + 1 = j then 1 else 0) +
  (if y + 2 < height ∧ y * width + x + width * 2 = j then 1 else 0)

/-- Eighths of a residual that index `j` has received in `ditherAtkinson` from the first `p`
pixels of the raster scan. -/
def atkinsonIncoming (width height p j : ℕ) : ℕ :=
  Finset.sum (Finset.range p) (fun q => atkinsonWeight width height (q % width) (q / width) j)

/-- Exchanges the two cell-relative axes of a stroke, for the cell with origin `(x0, y0)`. -/
def transposeInCell (x0 y0 : ℚ) : DrawOp → DrawOp
  | DrawOp.line x1 y1 x2 y2 c a w =>
    DrawOp.line (x0 + (y1 - y0)) (y0 + (x1 - x0)) (x0 + (y2 - y0)) (y0 + (x2 - x0)) c a w
  | op => op

/-! ## Helper lemmas -/

theorem jsRound_intCast (k : ℤ) : jsRound (k : ℚ) = k := by
  unfold jsRound
  rw [Int.floor_eq_iff]
  constructor
  · linarith
  · linarith

theorem step_pos {N : ℤ} (hN : 2 ≤ N) : (0 : ℚ) < 255 / ((N : ℚ) - 1) := by
  have h : (2 : ℚ) ≤ (N : ℚ) := by exact_mod_cast hN
  apply div_pos
  · norm_num
  · linarith

theorem quantize_eq_mul (v : ℚ) (N : ℤ) :
    quantize v N = (jsRound (v / (255 / ((N : ℚ) - 1))) : ℚ) * 255 / ((N : ℚ) - 1) := by
  unfold quantize
  simp only
  ring

/-- On an input between `-step/2` (inclusive) and `255 + step/2` (exclusive) the rounded
index lies in `0 .. N - 1`. -/
theorem jsRound_index_range {v : ℚ} {N : ℤ} (hN : 2 ≤ N)
    (hlo : -(255 / ((N : ℚ) - 1)) / 2 ≤ v) (hhi : v < 255 + 255 / ((N : ℚ) - 1) / 2) :
    0 ≤ jsRound (v / (255 / ((N : ℚ) - 1))) ∧ jsRound (v / (255 / ((N : ℚ) - 1))) ≤ N - 1 := by
  have hs := step_pos hN
  have hN1 : (0 : ℚ) < (N : ℚ) - 1 := by
    have h : (2 : ℚ) ≤ (N : ℚ) := by exact_mod_cast hN
    linarith
  have hne : (255 : ℚ) / ((N : ℚ) - 1) ≠ 0 := ne_of_gt hs
  have hmul : ((N : ℚ) - 1) * (255 / ((N : ℚ) - 1)) = 255 := by
    field_simp
  unfold jsRound
  constructor
  · apply Int.floor_nonneg.mpr
    have : -(1 / 2 : ℚ) ≤ v / (255 / ((N : ℚ) - 1)) := by
      rw [le_div_iff₀ hs]
      linarith
    linarith
  · have hlt : v / (255 / ((N : ℚ) - 1)) + 1 / 2 < ((N : ℤ) : ℚ) := by
      have : v / (255 / ((N : ℚ) - 1)) < (N : ℚ) - 1 + 1 / 2 := by
        rw [div_lt_iff₀ hs]
        have : ((N : ℚ) - 1 + 1 / 2) * (255 / ((N : ℚ) - 1)) = 255 + 255 / ((N : ℚ) - 1) / 2 := by
          calc ((N : ℚ) - 1 + 1 / 2) * (255 / ((N : ℚ) - 1))
              = ((N : ℚ) - 1) * (255 / ((N : ℚ) - 1)) + 255 / ((N : ℚ) - 1) / 2 := by ring
            _ = 255 + 255 / ((N : ℚ) - 1) / 2 := by rw [hmul]
        linarith
      linarith
    have := Int.floor_lt.mpr hlt
    omega

theorem quantize_isStep_of_range {v : ℚ} {N : ℤ} (hN : 2 ≤ N)
    (hlo : -(255 / ((N : ℚ) - 1)) / 2 ≤ v) (hhi : v < 255 + 255 / ((N : ℚ) - 1) / 2) :
    IsStep N (quantize v N) := by
  obtain ⟨h0, h1⟩ := jsRound_index_range hN hlo hhi
  exact ⟨_, h0, h1, quantize_eq_mul v N⟩

theorem quantize_isStep_of_mem {v : ℚ} {N : ℤ} (hN : 2 ≤ N) (h0 : 0 ≤ v) (h255 : v ≤ 255) :
    IsStep N (quantize v N) := by
  have hs := step_pos hN
  apply quantize_isStep_of_range hN
  · linarith
  · linarith

theorem isStep_bounds {N : ℤ} (hN : 2 ≤ N) {q : ℚ} (h : IsStep N q) : 0 ≤ q ∧ q ≤ 255 := by
  obtain ⟨k, hk0, hk1, rfl⟩ := h
  have hN1 : (0 : ℚ) < (N : ℚ) - 1 := by
    have h : (2 : ℚ) ≤ (N : ℚ) := by exact_mod_cast hN
    linarith
  have hk0q : (0 : ℚ) ≤ (k : ℚ) := by exact_mod_cast hk0
  have hk1q : (k : ℚ) ≤ (N : ℚ) - 1 := by exact_mod_cast hk1
  constructor
  · positivity
  · rw [div_le_iff₀ hN1]
    nlinarith

theorem adjustContrast_range (v c : ℚ) : 0 ≤ adjustContrast v c ∧ adjustContrast v c ≤ 255 := by
  unfold adjustContrast
  simp only
  constructor
  · exact le_max_left _ _
  · apply max_le
    · norm_num
    · exact min_le_left _ _

/-! ## Loops and buffers -/

theorem forLoop_succ {σ : Type} (n : ℕ) (body : σ → ℕ → σ) (s : σ) :
    forLoop (n + 1) body s = body (forLoop n body s) n := by
  unfold forLoop
  rw [List.range_succ, List.foldl_append]
  rfl

/-- Loop invariant rule for `forLoop`. -/
theorem forLoop_inv {σ : Type} (n : ℕ) (body : σ → ℕ → σ) (P : ℕ → σ → Prop) (s : σ)
    (h0 : P 0 s) (hstep : ∀ k t, k < n → P k t → P (k + 1) (body t k)) :
    P n (forLoop n body s) := by
  induction n with
  | zero => exact h0
  | succ m ih =>
    rw [forLoop_succ]
    apply hstep m _ (Nat.lt_succ_self m)
    apply ih
    intro k t hk hP
    exact hstep k t (Nat.lt_succ_of_lt hk) hP

/-- Loop invariant rule for a raster scan: `P p` holds when `p` pixels have been processed. -/
theorem raster_inv {σ : Type} (width height : ℕ) (step : σ → ℕ → ℕ → σ) (P : ℕ → σ → Prop)
    (s : σ) (h0 : P 0 s)
    (hstep : ∀ x y t, x < width → y < height → P (y * width + x) t →
      P (y * width + x + 1) (step t x y)) :
    P (height * width)
      (forLoop height (fun t y => forLoop width (fun t x => step t x y) t) s) := by
  apply forLoop_inv height _ (fun y t => P (y * width) t)
  · simpa using h0
  · intro y t hy hP
    have h := forLoop_inv width (fun t x => step t x y) (fun x t => P (y * width + x) t) t
      (by simpa using hP) (fun x t hx hPx => hstep x y t hx hy hPx)
    have e : (y + 1) * width = y * width + width := by ring
    rw [e]
    exact h

theorem getD_set_eq {α : Type} (l : List α) (i j : ℕ) (a : α) {d : α} :
    (l.set i a).getD j d = if j = i ∧ i < l.length then a else l.getD j d := by
  simp only [List.getD_eq_getElem?_getD, List.getElem?_set]
  by_cases h : i = j
  · subst h
    by_cases hl : i < l.length
    · simp [hl]
    · simp [hl, List.getElem?_eq_none (Nat.le_of_not_lt hl)]
  · have h2 : ¬ j = i := fun e => h e.symm
    simp [h, h2]

theorem raster_index (width x y : ℕ) (hx : x < width) :
    (y * width + x) % width = x ∧ (y * width + x) / width = y := by
  constructor
  · rw [Nat.add_comm, Nat.add_mul_mod_self_right]
    exact Nat.mod_eq_of_lt hx
  · have hw : 0 < width := Nat.lt_of_le_of_lt (Nat.zero_le _) hx
    rw [Nat.add_comm, Nat.add_mul_div_right _ _ hw, Nat.div_eq_of_lt hx]
    simp

theorem raster_lt (width height x y : ℕ) (hx : x < width) (hy : y < height) :
    y * width + x < width * height := by
  have h1 : (y + 1) * width ≤ height * width := Nat.mul_le_mul_right _ hy
  have h2 : (y + 1) * width = y * width + width := by ring
  have h3 : height * width = width * height := Nat.mul_comm _ _
  omega

/-- A loop that assigns `f i` to every index `i` of a zero-filled buffer of length `n`. -/
theorem fill_loop {α : Type} (n : ℕ) (f : ℕ → α) (d : α) :
    (forLoop n (fun out i => out.set i (f i)) (List.replicate n d)).length = n ∧
    ∀ i, i < n →
      (forLoop n (fun out i => out.set i (f i)) (List.replicate n d)).getD i d = f i := by
  have h := forLoop_inv n (fun out i => out.set i (f i))
    (fun k (out : List α) => out.length = n ∧ ∀ i, i < k → out.getD i d = f i)
    (List.replicate n d) (by simp) (by
      rintro k t hk ⟨hlen, hval⟩
      refine ⟨by simp [hlen], ?_⟩
      intro i hi
      rw [getD_set_eq]
      by_cases e : i = k
      · simp [e, hlen, hk]
      · have : i < k := by omega
        rw [if_neg (fun h => e h.1)]
        exact hval i this)
  exact h

/-- A raster scan that assigns `f x y` to index `y * width + x` of a zero-filled buffer. -/
theorem fill_raster (width height : ℕ) (f : ℕ → ℕ → ℚ) :
    (forLoop height (fun out y => forLoop width (fun out x =>
        out.set (y * width + x) (f x y)) out) (List.replicate (width * height) 0)).length
      = width * height ∧
    ∀ x y, x < width → y < height →
      (forLoop height (fun out y => forLoop width (fun out x =>
        out.set (y * width + x) (f x y)) out) (List.replicate (width * height) 0)).getD
          (y * width + x) 0 = f x y := by
  have h := raster_inv width height (fun (out : List ℚ) x y => out.set (y * width + x) (f x y))
    (fun p (out : List ℚ) => out.length = width * height ∧
      ∀ j, j < p → out.getD j 0 = f (j % width) (j / width))
    (List.replicate (width * height) 0) (by simp) (by
      rintro x y t hx hy ⟨hlen, hval⟩
      refine ⟨by simp [hlen], ?_⟩
      intro j hj
      rw [getD_set_eq]
      by_cases e : j = y * width + x
      · have hb := raster_lt width height x y hx hy
        obtain ⟨h1, h2⟩ := raster_index width x y hx
        simp [e, hlen, hb, h1, h2]
      · have : j < y * width + x := by omega
        rw [if_neg (fun h => e h.1)]
        exact hval j this)
  refine ⟨h.1, ?_⟩
  intro x y hx hy
  obtain ⟨h1, h2⟩ := raster_index width x y hx
  have hb := raster_lt width height x y hx hy
  have := h.2 (y * width + x) (by rw [Nat.mul_comm height width]; exact hb)
  rw [h1, h2] at this
  exact this

/-! ## Compound assignments -/

theorem length_addAt (o : List ℚ) (k : ℕ) (e : ℚ) : (addAt o k e).length = o.length := by
  simp [addAt]

theorem length_applyWrites (ws : List (ℕ × ℚ)) (o : List ℚ) :
    (applyWrites o ws).length = o.length := by
  induction ws generalizing o with
  | nil => rfl
  | cons t ws ih =>
    have : applyWrites o (t :: ws) = applyWrites (addAt o t.1 t.2) ws := rfl
    rw [this, ih, length_addAt]

theorem getD_addAt (o : List ℚ) (j k : ℕ) (e : ℚ) :
    (addAt o k e).getD j 0 = if j = k ∧ k < o.length then o.getD j 0 + e else o.getD j 0 := by
  unfold addAt
  rw [getD_set_eq]
  by_cases h : j = k ∧ k < o.length
  · rw [if_pos h, if_pos h, h.1]
  · rw [if_neg h, if_neg h]

theorem wsum_nil (j : ℕ) : wsum [] j = 0 := rfl

theorem wsum_cons (t : ℕ × ℚ) (ws : List (ℕ × ℚ)) (j : ℕ) :
    wsum (t :: ws) j = (if t.1 = j then t.2 else 0) + wsum ws j := by
  unfold wsum
  by_cases h : t.1 = j
  · simp [List.filter_cons, h]
  · simp [List.filter_cons, h]

theorem wsum_append (ws₁ ws₂ : List (ℕ × ℚ)) (j : ℕ) :
    wsum (ws₁ ++ ws₂) j = wsum ws₁ j + wsum ws₂ j := by
  unfold wsum
  simp [List.filter_append]

theorem getD_applyWrites (ws : List (ℕ × ℚ)) (o : List ℚ) (j : ℕ)
    (h : ∀ t ∈ ws, t.1 < o.length) :
    (applyWrites o ws).getD j 0 = o.getD j 0 + wsum ws j := by
  induction ws generalizing o with
  | nil => simp [applyWrites, wsum_nil]
  | cons t ws ih =>
    have e : applyWrites o (t :: ws) = applyWrites (addAt o t.1 t.2) ws := rfl
    have ht : t.1 < o.length := h t (List.mem_cons_self _ _)
    rw [e, ih, getD_addAt, wsum_cons]
    · by_cases hj : t.1 = j
      · have hj2 : j = t.1 := hj.symm
        rw [if_pos ⟨hj2, ht⟩, if_pos hj]
        ring
      · have hj2 : ¬ (j = t.1 ∧ t.1 < o.length) := fun c => hj c.1.symm
        rw [if_neg hj2, if_neg hj]
        ring
    · intro u hu
      rw [length_addAt]
      exact h u (List.mem_cons_of_mem _ hu)

theorem sum_set (l : List ℚ) (i : ℕ) (a : ℚ) (h : i < l.length) :
    (l.set i a).sum = l.sum - l.getD i 0 + a := by
  induction l generalizing i with
  | nil => simp at h
  | cons b l ih =>
    cases i with
    | zero =>
      simp only [List.set_cons_zero, List.sum_cons, List.getD_cons_zero]
      ring
    | succ i =>
      have hi : i < l.length := by simpa using h
      simp only [List.set_cons_succ, List.sum_cons, List.getD_cons_succ, ih i hi]
      ring

theorem sum_addAt (o : List ℚ) (k : ℕ) (e : ℚ) (h : k < o.length) :
    (addAt o k e).sum = o.sum + e := by
  unfold addAt
  rw [sum_set _ _ _ h]
  ring

theorem sum_applyWrites (ws : List (ℕ × ℚ)) (o : List ℚ) (h : ∀ t ∈ ws, t.1 < o.length) :
    (applyWrites o ws).sum = o.sum + (ws.map Prod.snd).sum := by
  induction ws generalizing o with
  | nil => simp [applyWrites]
  | cons t ws ih =>
    have e : applyWrites o (t :: ws) = applyWrites (addAt o t.1 t.2) ws := rfl
    have ht : t.1 < o.length := h t (List.mem_cons_self _ _)
    rw [e, ih, sum_addAt _ _ _ ht]
    · simp only [List.map_cons, List.sum_cons]
      ring
    · intro u hu
      rw [length_addAt]
      exact h u (List.mem_cons_of_mem _ hu)

/-- Row `y + k` starts inside the buffer when `y + k ≤ height`. -/
theorem row_le (width height y k : ℕ) (hk : y + k ≤ height) :
    y * width + k * width ≤ width * height := by
  have h1 : (y + k) * width ≤ height * width := Nat.mul_le_mul_right _ hk
  have h2 : (y + k) * width = y * width + k * width := by ring
  have h3 : height * width = width * height := Nat.mul_comm _ _
  omega

theorem floydWrites_interior (width height x y : ℕ) (err : ℚ)
    (hx1 : 1 ≤ x) (hx2 : x + 2 ≤ width) (hy : y + 2 ≤ height) :
    floydWrites width height x y err =
      [(y * width + x + 1, err * 7 / 16), (y * width + x + width - 1, err * 3 / 16),
       (y * width + x + width, err * 5 / 16), (y * width + x + width + 1, err / 16)] := by
  have c1 : x + 1 < width := by omega
  have c2 : (x : ℤ) - 1 ≥ 0 ∧ y + 1 < height := ⟨by omega, by omega⟩
  have c3 : y + 1 < height := by omega
  unfold floydWrites
  simp only [if_pos c1, if_pos c2, if_pos c3, if_pos (And.intro c1 c3)]
  rfl

theorem atkinsonWrites_interior (width height x y : ℕ) (err : ℚ)
    (hx1 : 1 ≤ x) (hx2 : x + 2 < width) (hy : y + 2 < height) :
    atkinsonWrites width height x y err =
      [(y * width + x + 1, err), (y * width + x + 2, err),
       (y * width + x + width - 1, err), (y * width + x + width, err),
       (y * width + x + width + 1, err), (y * width + x + width * 2, err)] := by
  have c1 : x + 1 < width := by omega
  have c2 : (x : ℤ) - 1 ≥ 0 ∧ y + 1 < height := ⟨by omega, by omega⟩
  have c3 : y + 1 < height := by omega
  unfold atkinsonWrites
  simp only [if_pos c1, if_pos hx2, if_pos c2, if_pos c3, if_pos (And.intro c1 c3), if_pos hy]
  rfl

/-- The step of `ditherFloyd` at an interior pixel, with the index, the residual and the new
buffer named. -/
theorem floydStep_interior (out : List ℚ) (width height : ℕ) (N : ℤ) (x y : ℕ)
    (hlen : out.length = width * height)
    (hx1 : 1 ≤ x) (hx2 : x + 2 ≤ width) (hy : y + 2 ≤ height) :
    let i := y * width + x
    let residual := out.getD i 0 - quantize (out.getD i 0) N
    let out' := floydStep width height N out x y
    out'.getD i 0 = quantize (out.getD i 0) N ∧
    out'.getD (i + 1) 0 = out.getD (i + 1) 0 + 7 / 16 * residual ∧
    out'.getD (i + width - 1) 0 = out.getD (i + width - 1) 0 + 3 / 16 * residual ∧
    out'.getD (i + width) 0 = out.getD (i + width) 0 + 5 / 16 * residual ∧
    out'.getD (i + width + 1) 0 = out.getD (i + width + 1) 0 + 1 / 16 * residual ∧
    (∀ j, j ≠ i → j ≠ i + 1 → j ≠ i + width - 1 → j ≠ i + width → j ≠ i + width + 1 →
      out'.getD j 0 = out.getD j 0) ∧
    7 / 16 * residual + 3 / 16 * residual + 5 / 16 * residual + 1 / 16 * residual = residual ∧
    out'.sum = out.sum := by
  intro i residual out'
  have hrow := row_le width height y 2 hy
  have hi : i < out.length := by
    show y * width + x < out.length
    omega
  have hws := floydWrites_interior width height x y residual hx1 hx2 hy
  have hout : out' = applyWrites (out.set i (quantize (out.getD i 0) N))
      [(i + 1, residual * 7 / 16), (i + width - 1, residual * 3 / 16),
       (i + width, residual * 5 / 16), (i + width + 1, residual / 16)] := by
    show applyWrites _ (floydWrites width height x y residual) = _
    rw [hws]
  have hb : ∀ t ∈ [(i + 1, residual * 7 / 16), (i + width - 1, residual * 3 / 16),
       (i + width, residual * 5 / 16), (i + width + 1, residual / 16)],
       t.1 < (out.set i (quantize (out.getD i 0) N)).length := by
    intro t ht
    simp only [List.mem_cons, List.mem_singleton, List.not_mem_nil, or_false] at ht
    rw [List.length_set]
    show t.1 < out.length
    rcases ht with h | h | h | h <;> (rw [h]; show _ < out.length; simp only [i]; omega)
  have key : ∀ j, out'.getD j 0 = (if j = i ∧ i < out.length then quantize (out.getD i 0) N
      else out.getD j 0) + ((if i + 1 = j then residual * 7 / 16 else 0) +
      ((if i + width - 1 = j then residual * 3 / 16 else 0) +
      ((if i + width = j then residual * 5 / 16 else 0) +
      ((if i + width + 1 = j then residual / 16 else 0) + 0)))) := by
    intro j
    rw [hout, getD_applyWrites _ _ _ hb, getD_set_eq]
    simp only [wsum_cons, wsum_nil]
  refine ⟨?_, ?_, ?_, ?_, ?_, ?_, ?_, ?_⟩
  · rw [key]
    repeat' first | omega | split
    all_goals ring
  · rw [key]
    repeat' first | omega | split
    all_goals ring
  · rw [key]
    repeat' first | omega | split
    all_goals ring
  · rw [key]
    repeat' first | omega | split
    all_goals ring
  · rw [key]
    repeat' first | omega | split
    all_goals ring
  · intro j h0 h1 h2 h3 h4
    rw [key]
    repeat' first | omega | split
    all_goals ring
  · ring
  · rw [hout, sum_applyWrites _ _ hb, sum_set _ _ _ hi]
    simp only [List.map_cons, List.map_nil, List.sum_cons, List.sum_nil]
    show out.sum - out.getD i 0 + quantize (out.getD i 0) N +
      ((out.getD i 0 - quantize (out.getD i 0) N) * 7 / 16 +
       ((out.getD i 0 - quantize (out.getD i 0) N) * 3 / 16 +
        ((out.getD i 0 - quantize (out.getD i 0) N) * 5 / 16 +
         ((out.getD i 0 - quantize (out.getD i 0) N) / 16 + 0)))) = out.sum
    ring

/-- The step of `ditherAtkinson` at an interior pixel, with the index, the residual and the
new buffer named. -/
theorem atkinsonStep_interior (out : List ℚ) (width height : ℕ) (N : ℤ) (x y : ℕ)
    (hlen : out.length = width * height)
    (hx1 : 1 ≤ x) (hx2 : x + 2 < width) (hy : y + 2 < height) :
    let i := y * width + x
    let residual := out.getD i 0 - quantize (out.getD i 0) N
    let out' := atkinsonStep width height N out x y
    out'.getD i 0 = quantize (out.getD i 0) N ∧
    out'.getD (i + 1) 0 = out.getD (i + 1) 0 + residual / 8 ∧
    out'.getD (i + 2) 0 = out.getD (i + 2) 0 + residual / 8 ∧
    out'.getD (i + width - 1) 0 = out.getD (i + width - 1) 0 + residual / 8 ∧
    out'.getD (i + width) 0 = out.getD (i + width) 0 + residual / 8 ∧
    out'.getD (i + width + 1) 0 = out.getD (i + width + 1) 0 + residual / 8 ∧
    out'.getD (i + width * 2) 0 = out.getD (i + width * 2) 0 + residual / 8 ∧
    (∀ j, j ≠ i → j ≠ i + 1 → j ≠ i + 2 → j ≠ i + width - 1 → j ≠ i + width →
      j ≠ i + width + 1 → j ≠ i + width * 2 → out'.getD j 0 = out.getD j 0) ∧
    6 * (residual / 8) = 0.75 * residual ∧
    out'.sum = out.sum - residual / 4 := by
  intro i residual out'
  have hrow := row_le width height y 3 (by omega)
  have hi : i < out.length := by
    show y * width + x < out.length
    omega
  have hws := atkinsonWrites_interior width height x y (residual / 8) hx1 hx2 hy
  have hout : out' = applyWrites (out.set i (quantize (out.getD i 0) N))
      [(i + 1, residual / 8), (i + 2, residual / 8), (i + width - 1, residual / 8),
       (i + width, residual / 8), (i + width + 1, residual / 8),
       (i + width * 2, residual / 8)] := by
    show applyWrites _ (atkinsonWrites width height x y (residual / 8)) = _
    rw [hws]
  have hb : ∀ t ∈ [(i + 1, residual / 8), (i + 2, residual / 8), (i + width - 1, residual / 8),
       (i + width, residual / 8), (i + width + 1, residual / 8),
       (i + width * 2, residual / 8)],
       t.1 < (out.set i (quantize (out.getD i 0) N)).length := by
    intro t ht
    simp only [List.mem_cons, List.mem_singleton, List.not_mem_nil, or_false] at ht
    rw [List.length_set]
    show t.1 < out.length
    rcases ht with h | h | h | h | h | h <;>
      (rw [h]; show _ < out.length; simp only [i]; omega)
  have key : ∀ j, out'.getD j 0 = (if j = i ∧ i < out.length then quantize (out.getD i 0) N
      else out.getD j 0) + ((if i + 1 = j then residual / 8 else 0) +
      ((if i + 2 = j then residual / 8 else 0) +
      ((if i + width - 1 = j then residual / 8 else 0) +
      ((if i + width = j then residual / 8 else 0) +
      ((if i + width + 1 = j then residual / 8 else 0) +
      ((if i + width * 2 = j then residual / 8 else 0) + 0)))))) := by
    intro j
    rw [hout, getD_applyWrites _ _ _ hb, getD_set_eq]
    simp only [wsum_cons, wsum_nil]
  refine ⟨?_, ?_, ?_, ?_, ?_, ?_, ?_, ?_, ?_, ?_⟩
  · rw [key]
    repeat' first | omega | split
    all_goals ring
  · rw [key]
    repeat' first | omega | split
    all_goals ring
  · rw [key]
    repeat' first | omega | split
    all_goals ring
  · rw [key]
    repeat' first | omega | split
    all_goals ring
  · rw [key]
    repeat' first | omega | split
    all_goals ring
  · rw [key]
    repeat' first | omega | split
    all_goals ring
  · rw [key]
    repeat' first | omega | split
    all_goals ring
  · intro j h0 h1 h2 h3 h4 h5 h6
    rw [key]
    repeat' first | omega | split
    all_goals ring
  · norm_num
    ring
  · rw [hout, sum_applyWrites _ _ hb, sum_set _ _ _ hi]
    simp only [List.map_cons, List.map_nil, List.sum_cons, List.sum_nil]
    show out.sum - out.getD i 0 + quantize (out.getD i 0) N +
      ((out.getD i 0 - quantize (out.getD i 0) N) / 8 +
       ((out.getD i 0 - quantize (out.getD i 0) N) / 8 +
        ((out.getD i 0 - quantize (out.getD i 0) N) / 8 +
         ((out.getD i 0 - quantize (out.getD i 0) N) / 8 +
          ((out.getD i 0 - quantize (out.getD i 0) N) / 8 +
           ((out.getD i 0 - quantize (out.getD i 0) N) / 8 + 0)))))) =
      out.sum - (out.getD i 0 - quantize (out.getD i 0) N) / 4
    ring

/-! ## Neighbour writes stay in the grid -/

theorem specIndex (width x y : ℕ) (dx dy : ℤ) (hx : 0 ≤ (x : ℤ) + dx) (hy : 0 ≤ (y : ℤ) + dy) :
    ((((y : ℤ) + dy) * width + ((x : ℤ) + dx)).toNat : ℤ)
      = (y : ℤ) * width + dy * width + x + dx := by
  rw [Int.toNat_of_nonneg]
  · ring
  · have := mul_nonneg hy (Int.natCast_nonneg width)
    omega

theorem specWrites_nil (width height x y : ℕ) : specWrites width height x y [] = [] := rfl

theorem specWrites_cons (width height x y : ℕ) (o : ℤ × ℤ × ℚ) (os : List (ℤ × ℤ × ℚ)) :
    specWrites width height x y (o :: os) =
      (if 0 ≤ (x : ℤ) + o.1 ∧ (x : ℤ) + o.1 < width ∧
          0 ≤ (y : ℤ) + o.2.1 ∧ (y : ℤ) + o.2.1 < height
        then [((((y : ℤ) + o.2.1) * width + ((x : ℤ) + o.1)).toNat, o.2.2)] else []) ++
      specWrites width height x y os := by
  unfold specWrites
  by_cases h : 0 ≤ (x : ℤ) + o.1 ∧ (x : ℤ) + o.1 < width ∧
      0 ≤ (y : ℤ) + o.2.1 ∧ (y : ℤ) + o.2.1 < height
  · rw [if_pos h, List.filter_cons_of_pos (by simpa using h)]
    rfl
  · rw [if_neg h, List.filter_cons_of_neg (by simpa using h)]
    rfl

/-- A guarded write of the source agrees with the in-grid write of the specification when the
guards are equivalent and the indices agree under the guard. -/
theorem guarded_write_eq (c d : Prop) [Decidable c] [Decidable d] (hcd : d ↔ c)
    (j j' : ℕ) (a : ℚ) (hj : c → j' = j) :
    (if c then [(j, a)] else []) = (if d then [(j', a)] else []) := by
  by_cases h : c
  · rw [if_pos h, if_pos (hcd.mpr h), hj h]
  · rw [if_neg h, if_neg (fun hd => h (hcd.mp hd))]

theorem write_at_offset (width height x y : ℕ) (dx dy : ℤ) (c : Prop) [Decidable c] (j : ℕ)
    (a : ℚ)
    (hc : (0 ≤ (x : ℤ) + dx ∧ (x : ℤ) + dx < width ∧ 0 ≤ (y : ℤ) + dy ∧ (y : ℤ) + dy < height)
      ↔ c)
    (hj : c → (j : ℤ) = (y : ℤ) * width + dy * width + x + dx) :
    (if c then [(j, a)] else []) =
      (if 0 ≤ (x : ℤ) + dx ∧ (x : ℤ) + dx < width ∧ 0 ≤ (y : ℤ) + dy ∧ (y : ℤ) + dy < height
        then [((((y : ℤ) + dy) * width + ((x : ℤ) + dx)).toNat, a)] else []) := by
  apply guarded_write_eq c _ hc
  intro h
  have hg := hc.mpr h
  have := specIndex width x y dx dy hg.1 hg.2.2.1
  have := hj h
  omega

theorem floydWrites_eq_spec (width height x y : ℕ) (err : ℚ)
    (hx : x < width) (hy : y < height) :
    floydWrites width height x y err = specWrites width height x y
      [(1, 0, err * 7 / 16), (-1, 1, err * 3 / 16), (0, 1, err * 5 / 16), (1, 1, err / 16)] := by
  have p1 := write_at_offset width height x y 1 0 (x + 1 < width) (y * width + x + 1)
    (err * 7 / 16) (by constructor <;> intro h <;> omega) (by intro h; push_cast; ring)
  have p2 := write_at_offset width height x y (-1) 1 ((x : ℤ) - 1 ≥ 0 ∧ y + 1 < height)
    (y * width + x + width - 1) (err * 3 / 16) (by constructor <;> intro h <;> omega)
    (by intro h; omega)
  have p3 := write_at_offset width height x y 0 1 (y + 1 < height) (y * width + x + width)
    (err * 5 / 16) (by constructor <;> intro h <;> omega) (by intro h; push_cast; ring)
  have p4 := write_at_offset width height x y 1 1 (x + 1 < width ∧ y + 1 < height)
    (y * width + x + width + 1) (err / 16) (by constructor <;> intro h <;> omega)
    (by intro h; push_cast; ring)
  unfold floydWrites
  simp only [specWrites_cons, specWrites_nil, List.append_assoc, List.append_nil]
  rw [p1, p2, p3, p4]

theorem atkinsonWrites_eq_spec (width height x y : ℕ) (err : ℚ)
    (hx : x < width) (hy : y < height) :
    atkinsonWrites width height x y err = specWrites width height x y
      [(1, 0, err), (2, 0, err), (-1, 1, err), (0, 1, err), (1, 1, err), (0, 2, err)] := by
  have p1 := write_at_offset width height x y 1 0 (x + 1 < width) (y * width + x + 1)
    err (by constructor <;> intro h <;> omega) (by intro h; push_cast; ring)
  have p2 := write_at_offset width height x y 2 0 (x + 2 < width) (y * width + x + 2)
    err (by constructor <;> intro h <;> omega) (by intro h; push_cast; ring)
  have p3 := write_at_offset width height x y (-1) 1 ((x : ℤ) - 1 ≥ 0 ∧ y + 1 < height)
    (y * width + x + width - 1) err (by constructor <;> intro h <;> omega)
    (by intro h; omega)
  have p4 := write_at_offset width height x y 0 1 (y + 1 < height) (y * width + x + width)
    err (by constructor <;> intro h <;> omega) (by intro h; push_cast; ring)
  have p5 := write_at_offset width height x y 1 1 (x + 1 < width ∧ y + 1 < height)
    (y * width + x + width + 1) err (by constructor <;> intro h <;> omega)
    (by intro h; push_cast; ring)
  have p6 := write_at_offset width height x y 0 2 (y + 2 < height) (y * width + x + width * 2)
    err (by constructor <;> intro h <;> omega) (by intro h; push_cast; ring)
  unfold atkinsonWrites
  simp only [specWrites_cons, specWrites_nil, List.append_assoc, List.append_nil]
  rw [p1, p2, p3, p4, p5, p6]

theorem floydWrites_lt (width height x y : ℕ) (err : ℚ) (hx : x < width) (hy : y < height)
    (t : ℕ × ℚ) (ht : t ∈ floydWrites width height x y err) :
    y * width + x < t.1 ∧ t.1 < width * height := by
  have r1 := row_le width height y 1 (by omega)
  have r2 : y + 1 < height → y * width + 2 * width ≤ width * height :=
    fun h => row_le width height y 2 (by omega)
  unfold floydWrites at ht
  simp only [List.mem_append] at ht
  rcases ht with ((h | h) | h) | h <;> split at h <;>
    simp only [List.mem_singleton, List.not_mem_nil] at h <;>
    (subst h; simp only; omega)

theorem atkinsonWrites_lt (width height x y : ℕ) (err : ℚ) (hx : x < width) (hy : y < height)
    (t : ℕ × ℚ) (ht : t ∈ atkinsonWrites width height x y err) :
    y * width + x < t.1 ∧ t.1 < width * height := by
  have r1 := row_le width height y 1 (by omega)
  have r2 : y + 1 < height → y * width + 2 * width ≤ width * height :=
    fun h => row_le width height y 2 (by omega)
  have r3 : y + 2 < height → y * width + 3 * width ≤ width * height :=
    fun h => row_le width height y 3 (by omega)
  unfold atkinsonWrites at ht
  simp only [List.mem_append] at ht
  rcases ht with ((((h | h) | h) | h) | h) | h <;> split at h <;>
    simp only [List.mem_singleton, List.not_mem_nil] at h <;>
    (subst h; simp only; omega)

theorem floydAccesses_lt (width height j : ℕ) (hj : j ∈ floydAccesses width height) :
    j < width * height := by
  unfold floydAccesses at hj
  simp only [List.mem_flatMap, List.mem_range, List.mem_cons, List.mem_map] at hj
  obtain ⟨y, hy, x, hx, h⟩ := hj
  have hb := raster_lt width height x y hx hy
  rcases h with h | h | ⟨t, ht, h⟩
  · omega
  · omega
  · have := (floydWrites_lt width height x y 0 hx hy t ht).2
    omega

theorem atkinsonAccesses_lt (width height j : ℕ) (hj : j ∈ atkinsonAccesses width height) :
    j < width * height := by
  unfold atkinsonAccesses at hj
  simp only [List.mem_flatMap, List.mem_range, List.mem_cons, List.mem_map] at hj
  obtain ⟨y, hy, x, hx, h⟩ := hj
  have hb := raster_lt width height x y hx hy
  rcases h with h | h | ⟨t, ht, h⟩
  · omega
  · omega
  · have := (atkinsonWrites_lt width height x y 0 hx hy t ht).2
    omega

/-! ## The error-diffusion invariant -/

theorem quantize_err_range (v : ℚ) (N : ℤ) (hN : 2 ≤ N) :
    -(255 / ((N : ℚ) - 1) / 2) ≤ v - quantize v N ∧
    v - quantize v N < 255 / ((N : ℚ) - 1) / 2 := by
  have hs := step_pos hN
  have hne : (255 : ℚ) / ((N : ℚ) - 1) ≠ 0 := ne_of_gt hs
  have h1 := Int.floor_le (v / (255 / ((N : ℚ) - 1)) + 1 / 2)
  have h2 := Int.lt_floor_add_one (v / (255 / ((N : ℚ) - 1)) + 1 / 2)
  have e : v / (255 / ((N : ℚ) - 1)) * (255 / ((N : ℚ) - 1)) = v := div_mul_cancel₀ v hne
  unfold quantize jsRound
  simp only
  constructor
  · have := mul_le_mul_of_nonneg_right h1 (le_of_lt hs)
    rw [add_mul, e] at this
    linarith
  · have := mul_lt_mul_of_pos_right h2 hs
    rw [add_mul, e, add_mul] at this
    linarith

theorem bound_step (g v e s b b' wgt : ℚ) (hs : 0 < s) (hw : 0 ≤ wgt)
    (hbb : b + wgt ≤ b') (he1 : -s ≤ e) (he2 : e < s)
    (hl : g - b * s ≤ v) (hu : v < g + b * s ∨ v = g) (hb : 0 ≤ b) :
    g - b' * s ≤ v + e * wgt ∧ (v + e * wgt < g + b' * s ∨ v + e * wgt = g) := by
  have h1 : -(s * wgt) ≤ e * wgt := by nlinarith
  have h3 : (b + wgt) * s ≤ b' * s := mul_le_mul_of_nonneg_right hbb (le_of_lt hs)
  constructor
  · nlinarith
  · rcases eq_or_lt_of_le hw with h0 | hpos
    · rw [← h0]
      rcases hu with hu | hu
      · left
        nlinarith
      · right
        rw [hu]
        ring
    · left
      have h2 : e * wgt < s * wgt := mul_lt_mul_of_pos_right he2 hpos
      have h4 : 0 ≤ b * s := mul_nonneg hb (le_of_lt hs)
      rcases hu with hu | hu
      · nlinarith
      · nlinarith

theorem wsum_eq_zero (ws : List (ℕ × ℚ)) (j : ℕ) (h : ∀ t ∈ ws, t.1 ≠ j) : wsum ws j = 0 := by
  induction ws with
  | nil => rfl
  | cons t ws ih =>
    rw [wsum_cons, if_neg (h t (List.mem_cons_self _ _)),
      ih (fun u hu => h u (List.mem_cons_of_mem _ hu))]
    ring

/-- One step of an error-diffusion loop preserves the invariant: the current pixel is
quantized to a step, and each later pixel receives the share `c j` of the residual. -/
theorem diffusion_step (N : ℤ) (hN : 2 ≤ N) (gray out : List ℚ)
    (hg : ∀ j, j < gray.length → 0 ≤ gray.getD j 0 ∧ gray.getD j 0 ≤ 255)
    (p : ℕ) (hp : p < gray.length) (B B' c : ℕ → ℚ) (ws : List (ℕ × ℚ))
    (hinv : DiffusionInv N gray out p B)
    (hws : ∀ t ∈ ws, p < t.1 ∧ t.1 < gray.length)
    (hc : ∀ j, wsum ws j = (out.getD p 0 - quantize (out.getD p 0) N) * c j)
    (hc0 : ∀ j, 0 ≤ c j) (hB0 : ∀ j, 0 ≤ B j) (hBp : B p ≤ 1)
    (hB : ∀ j, p < j → j < gray.length → B j + c j ≤ B' j) :
    DiffusionInv N gray (applyWrites (out.set p (quantize (out.getD p 0) N)) ws) (p + 1) B' := by
  obtain ⟨hlen, hdone, hrest⟩ := hinv
  have hs := step_pos hN
  have hs2 : (0 : ℚ) < 255 / ((N : ℚ) - 1) / 2 := by linarith
  have hb : ∀ t ∈ ws, t.1 < (out.set p (quantize (out.getD p 0) N)).length := by
    intro t ht
    rw [List.length_set, hlen]
    exact (hws t ht).2
  have key : ∀ j, (applyWrites (out.set p (quantize (out.getD p 0) N)) ws).getD j 0 =
      (if j = p ∧ p < out.length then quantize (out.getD p 0) N else out.getD j 0)
        + wsum ws j := by
    intro j
    rw [getD_applyWrites _ _ _ hb, getD_set_eq]
  have hz : ∀ j, j ≤ p → wsum ws j = 0 := by
    intro j hj
    apply wsum_eq_zero
    intro t ht
    have := (hws t ht).1
    omega
  refine ⟨?_, ?_, ?_⟩
  · rw [length_applyWrites, List.length_set, hlen]
  · intro j hj hjl
    rw [key, hz j (by omega), add_zero]
    by_cases e : j = p
    · rw [if_pos ⟨e, by rw [hlen]; exact hp⟩]
      obtain ⟨h1, h2⟩ := hrest p (le_refl p) hp
      obtain ⟨g0, g255⟩ := hg p hp
      have hBs : B p * (255 / ((N : ℚ) - 1) / 2) ≤ 255 / ((N : ℚ) - 1) / 2 := by
        have := mul_le_mul_of_nonneg_right hBp (le_of_lt hs2)
        linarith
      apply quantize_isStep_of_range hN
      · linarith
      · rcases h2 with h2 | h2
        · linarith
        · rw [h2]
          linarith
    · rw [if_neg (fun h => e h.1)]
      exact hdone j (by omega) hjl
  · intro j hj hjl
    rw [key, if_neg (fun h => by omega), hc]
    obtain ⟨h1, h2⟩ := hrest j (by omega) hjl
    obtain ⟨e1, e2⟩ := quantize_err_range (out.getD p 0) N hN
    exact bound_step _ _ _ _ (B j) (B' j) (c j) hs2 (hc0 j) (hB j (by omega) hjl) e1 e2 h1 h2
      (hB0 j)

theorem wsum_guard (c : Prop) [Decidable c] (k j : ℕ) (a : ℚ) :
    wsum (if c then [(k, a)] else []) j = if c ∧ k = j then a else 0 := by
  by_cases h : c
  · rw [if_pos h, wsum_cons, wsum_nil]
    by_cases e : k = j
    · rw [if_pos e, if_pos ⟨h, e⟩, add_zero]
    · rw [if_neg e, if_neg (fun hh => e hh.2), add_zero]
  · rw [if_neg h, if_neg (fun hh => h hh.1), wsum_nil]

theorem scale_guard (c : Prop) [Decidable c] (a n d : ℚ) :
    (if c then a * n / d else 0) = a * ((if c then n else 0) / d) := by
  by_cases h : c
  · rw [if_pos h, if_pos h]
    ring
  · rw [if_neg h, if_neg h]
    ring

theorem wsum_floydWrites (width height x y j : ℕ) (err : ℚ) :
    wsum (floydWrites width height x y err) j
      = err * ((floydWeight width height x y j : ℚ) / 16) := by
  unfold floydWrites floydWeight
  simp only [wsum_append, wsum_guard]
  have e : err / 16 = err * 1 / 16 := by ring
  rw [e]
  simp only [scale_guard]
  push_cast
  ring

theorem one_guard (c : Prop) [Decidable c] (err : ℚ) :
    (if c then err else 0) = err * 8 * (((if c then 1 else 0 : ℕ) : ℚ) / 8) := by
  by_cases h : c
  · rw [if_pos h, if_pos h]
    push_cast
    ring
  · rw [if_neg h, if_neg h]
    push_cast
    ring

theorem wsum_atkinsonWrites (width height x y j : ℕ) (err : ℚ) :
    wsum (atkinsonWrites width height x y err) j
      = err * 8 * ((atkinsonWeight width height x y j : ℚ) / 8) := by
  unfold atkinsonWrites atkinsonWeight
  simp only [wsum_append, wsum_guard]
  rw [one_guard (x + 1 < width ∧ y * width + x + 1 = j),
    one_guard (x + 2 < width ∧ y * width + x + 2 = j),
    one_guard (((x : ℤ) - 1 ≥ 0 ∧ y + 1 < height) ∧ y * width + x + width - 1 = j),
    one_guard (y + 1 < height ∧ y * width + x + width = j),
    one_guard ((x + 1 < width ∧ y + 1 < height) ∧ y * width + x + width + 1 = j),
    one_guard (y + 2 < height ∧ y * width + x + width * 2 = j)]
  push_cast
  ring

/-- At most one index of a range satisfies a predicate that determines the index. -/
theorem sum_indicator_le_one (A : ℕ → Prop) [DecidablePred A]
    (hA : ∀ q q', A q → A q' → q = q') (n : ℕ) :
    Finset.sum (Finset.range n) (fun q => if A q then 1 else 0) ≤ 1 := by
  induction n with
  | zero => simp
  | succ n ih =>
    rw [Finset.sum_range_succ]
    by_cases h : A n
    · have hz : Finset.sum (Finset.range n) (fun q => if A q then 1 else 0) = 0 := by
        apply Finset.sum_eq_zero
        intro q hq
        have hlt : q < n := Finset.mem_range.mp hq
        have hne : ¬ A q := fun hq' => by
          have := hA q n hq' h
          omega
        rw [if_neg hne]
      rw [hz, if_pos h]
    · rw [if_neg h]
      exact ih

theorem guard_le (c d : Prop) [Decidable c] [Decidable d] (hcd : c → d) (n : ℕ) :
    (if c then n else 0) ≤ n * (if d then 1 else 0) := by
  by_cases h : c
  · rw [if_pos h, if_pos (hcd h)]
    omega
  · rw [if_neg h]
    exact Nat.zero_le _

theorem floydWeight_le (width height q j : ℕ) :
    floydWeight width height (q % width) (q / width) j ≤
      7 * (if q + 1 = j then 1 else 0) + 3 * (if 1 ≤ q ∧ q + width - 1 = j then 1 else 0) +
      5 * (if q + width = j then 1 else 0) + 1 * (if q + width + 1 = j then 1 else 0) := by
  have e : q / width * width + q % width = q := Nat.div_add_mod' q width
  have hq : q % width ≤ q := Nat.mod_le q width
  unfold floydWeight
  rw [e]
  apply Nat.add_le_add
  · apply Nat.add_le_add
    · apply Nat.add_le_add
      · exact guard_le _ _ (fun h => h.2) 7
      · exact guard_le _ _ (fun h => ⟨by omega, h.2⟩) 3
    · exact guard_le _ _ (fun h => h.2) 5
  · exact guard_le _ _ (fun h => h.2) 1

/-- The total weight that a pixel receives in `ditherFloyd` never exceeds 16/16. -/
theorem floydIncoming_le (width height p j : ℕ) : floydIncoming width height p j ≤ 16 := by
  unfold floydIncoming
  have h1 := sum_indicator_le_one (fun q => q + 1 = j) (fun q q' h h' => by omega) p
  have h2 := sum_indicator_le_one (fun q => 1 ≤ q ∧ q + width - 1 = j)
    (fun q q' h h' => by omega) p
  have h3 := sum_indicator_le_one (fun q => q + width = j) (fun q q' h h' => by omega) p
  have h4 := sum_indicator_le_one (fun q => q + width + 1 = j) (fun q q' h h' => by omega) p
  have hle := Finset.sum_le_sum (fun q (_ : q ∈ Finset.range p) =>
    floydWeight_le width height q j)
  rw [Finset.sum_add_distrib, Finset.sum_add_distrib, Finset.sum_add_distrib,
    ← Finset.mul_sum, ← Finset.mul_sum, ← Finset.mul_sum, ← Finset.mul_sum] at hle
  omega

theorem atkinsonWeight_le (width height q j : ℕ) :
    atkinsonWeight width height (q % width) (q / width) j ≤
      1 * (if q + 1 = j then 1 else 0) + 1 * (if q + 2 = j then 1 else 0) +
      1 * (if 1 ≤ q ∧ q + width - 1 = j then 1 else 0) +
      1 * (if q + width = j then 1 else 0) + 1 * (if q + width + 1 = j then 1 else 0) +
      1 * (if q + width * 2 = j then 1 else 0) := by
  have e : q / width * width + q % width = q := Nat.div_add_mod' q width
  have hq : q % width ≤ q := Nat.mod_le q width
  unfold atkinsonWeight
  rw [e]
  apply Nat.add_le_add
  · apply Nat.add_le_add
    · apply Nat.add_le_add
      · apply Nat.add_le_add
        · apply Nat.add_le_add
          · exact guard_le _ _ (fun h => h.2) 1
          · exact guard_le _ _ (fun h => h.2) 1
        · exact guard_le _ _ (fun h => ⟨by omega, h.2⟩) 1
      · exact guard_le _ _ (fun h => h.2) 1
    · exact guard_le _ _ (fun h => h.2) 1
  · exact guard_le _ _ (fun h => h.2) 1

/-- The total weight that a pixel receives in `ditherAtkinson` never exceeds 6/8. -/
theorem atkinsonIncoming_le (width height p j : ℕ) : atkinsonIncoming width height p j ≤ 6 := by
  unfold atkinsonIncoming
  have h1 := sum_indicator_le_one (fun q => q + 1 = j) (fun q q' h h' => by omega) p
  have h2 := sum_indicator_le_one (fun q => q + 2 = j) (fun q q' h h' => by omega) p
  have h3 := sum_indicator_le_one (fun q => 1 ≤ q ∧ q + width - 1 = j)
    (fun q q' h h' => by omega) p
  have h4 := sum_indicator_le_one (fun q => q + width = j) (fun q q' h h' => by omega) p
  have h5 := sum_indicator_le_one (fun q => q + width + 1 = j) (fun q q' h h' => by omega) p
  have h6 := sum_indicator_le_one (fun q => q + width * 2 = j) (fun q q' h h' => by omega) p
  have hle := Finset.sum_le_sum (fun q (_ : q ∈ Finset.range p) =>
    atkinsonWeight_le width height q j)
  simp only [Finset.sum_add_distrib, ← Finset.mul_sum] at hle
  omega

theorem diffusionInv_init (N : ℤ) (hN : 2 ≤ N) (gray : List ℚ) (B : ℕ → ℚ)
    (hB0 : ∀ j, 0 ≤ B j) : DiffusionInv N gray gray 0 B := by
  have hs := step_pos hN
  refine ⟨rfl, ?_, ?_⟩
  · intro j hj
    omega
  · intro j _ _
    refine ⟨?_, Or.inr rfl⟩
    have : 0 ≤ B j * (255 / ((N : ℚ) - 1) / 2) := mul_nonneg (hB0 j) (by linarith)
    linarith

theorem ditherFloyd_inv (gray : List ℚ) (width height : ℕ) (N : ℤ) (hN : 2 ≤ N)
    (hlen : gray.length = width * height)
    (hg : ∀ j, j < gray.length → 0 ≤ gray.getD j 0 ∧ gray.getD j 0 ≤ 255) :
    DiffusionInv N gray (ditherFloyd gray width height N) (height * width)
      (fun j => (floydIncoming width height (height * width) j : ℚ) / 16) := by
  unfold ditherFloyd
  apply raster_inv width height (fun out x y => floydStep width height N out x y)
    (fun p out => DiffusionInv N gray out p
      (fun j => (floydIncoming width height p j : ℚ) / 16)) gray
  · exact diffusionInv_init N hN gray _ (fun j => by positivity)
  · intro x y t hx hy hP
    have hp : y * width + x < gray.length := by
      rw [hlen]
      exact raster_lt width height x y hx hy
    obtain ⟨h1, h2⟩ := raster_index width x y hx
    apply diffusion_step N hN gray t hg (y * width + x) hp
      (fun j => (floydIncoming width height (y * width + x) j : ℚ) / 16)
      (fun j => (floydIncoming width height (y * width + x + 1) j : ℚ) / 16)
      (fun j => (floydWeight width height x y j : ℚ) / 16)
      (floydWrites width height x y
        (t.getD (y * width + x) 0 - quantize (t.getD (y * width + x) 0) N)) hP
    · intro u hu
      have := floydWrites_lt width height x y _ hx hy u hu
      rw [hlen]
      exact this
    · intro j
      exact wsum_floydWrites width height x y j _
    · intro j
      positivity
    · intro j
      positivity
    · have := floydIncoming_le width height (y * width + x) (y * width + x)
      have h16 : ((floydIncoming width height (y * width + x) (y * width + x) : ℕ) : ℚ)
          ≤ 16 := by exact_mod_cast this
      show (floydIncoming width height (y * width + x) (y * width + x) : ℚ) / 16 ≤ 1
      linarith
    · intro j _ _
      show (floydIncoming width height (y * width + x) j : ℚ) / 16
        + (floydWeight width height x y j : ℚ) / 16
        ≤ (floydIncoming width height (y * width + x + 1) j : ℚ) / 16
      have e : floydIncoming width height (y * width + x + 1) j
          = floydIncoming width height (y * width + x) j + floydWeight width height x y j := by
        unfold floydIncoming
        rw [Finset.sum_range_succ, h1, h2]
      rw [e]
      push_cast
      apply le_of_eq
      ring

theorem ditherAtkinson_inv (gray : List ℚ) (width height : ℕ) (N : ℤ) (hN : 2 ≤ N)
    (hlen : gray.length = width * height)
    (hg : ∀ j, j < gray.length → 0 ≤ gray.getD j 0 ∧ gray.getD j 0 ≤ 255) :
    DiffusionInv N gray (ditherAtkinson gray width height N) (height * width)
      (fun j => (atkinsonIncoming width height (height * width) j : ℚ) / 8) := by
  unfold ditherAtkinson
  apply raster_inv width height (fun out x y => atkinsonStep width height N out x y)
    (fun p out => DiffusionInv N gray out p
      (fun j => (atkinsonIncoming width height p j : ℚ) / 8)) gray
  · exact diffusionInv_init N hN gray _ (fun j => by positivity)
  · intro x y t hx hy hP
    have hp : y * width + x < gray.length := by
      rw [hlen]
      exact raster_lt width height x y hx hy
    obtain ⟨h1, h2⟩ := raster_index width x y hx
    apply diffusion_step N hN gray t hg (y * width + x) hp
      (fun j => (atkinsonIncoming width height (y * width + x) j : ℚ) / 8)
      (fun j => (atkinsonIncoming width height (y * width + x + 1) j : ℚ) / 8)
      (fun j => (atkinsonWeight width height x y j : ℚ) / 8)
      (atkinsonWrites width height x y
        ((t.getD (y * width + x) 0 - quantize (t.getD (y * width + x) 0) N) / 8)) hP
    · intro u hu
      have := atkinsonWrites_lt width height x y _ hx hy u hu
      rw [hlen]
      exact this
    · intro j
      rw [wsum_atkinsonWrites]
      ring
    · intro j
      positivity
    · intro j
      positivity
    · have := atkinsonIncoming_le width height (y * width + x) (y * width + x)
      have h6 : ((atkinsonIncoming width height (y * width + x) (y * width + x) : ℕ) : ℚ)
          ≤ 6 := by exact_mod_cast this
      show (atkinsonIncoming width height (y * width + x) (y * width + x) : ℚ) / 8 ≤ 1
      linarith
    · intro j _ _
      show (atkinsonIncoming width height (y * width + x) j : ℚ) / 8
        + (atkinsonWeight width height x y j : ℚ) / 8
        ≤ (atkinsonIncoming width height (y * width + x + 1) j : ℚ) / 8
      have e : atkinsonIncoming width height (y * width + x + 1) j
          = atkinsonIncoming width height (y * width + x) j
            + atkinsonWeight width height x y j := by
        unfold atkinsonIncoming
        rw [Finset.sum_range_succ, h1, h2]
      rw [e]
      push_cast
      apply le_of_eq
      ring

theorem mem_of_forall_getD (l : List ℚ) (P : ℚ → Prop)
    (h : ∀ j, j < l.length → P (l.getD j 0)) : ∀ v ∈ l, P v := by
  intro v hv
  obtain ⟨n, hn, rfl⟩ := List.getElem_of_mem hv
  have := h n hn
  rw [List.getD_eq_getElem _ _ hn] at this
  exact this

theorem forall_getD_of_mem (l : List ℚ) (P : ℚ → Prop) (h : ∀ v ∈ l, P v) :
    ∀ j, j < l.length → P (l.getD j 0) := by
  intro j hj
  rw [List.getD_eq_getElem _ _ hj]
  exact h _ (List.getElem_mem hj)

/-! ## Ordered dithering -/

theorem bayerThreshold_range (x y : ℕ) : -15 ≤ bayerThreshold x y ∧ bayerThreshold x y ≤ 15 := by
  unfold bayerThreshold bayer4
  have hx : x % 4 < 4 := Nat.mod_lt _ (by decide)
  have hy : y % 4 < 4 := Nat.mod_lt _ (by decide)
  generalize x % 4 = a at hx
  generalize y % 4 = b at hy
  interval_cases a <;> interval_cases b <;> norm_num

theorem ditherBayer_getD (gray : List ℚ) (width height : ℕ) (N : ℤ) :
    (ditherBayer gray width height N).length = width * height ∧
    ∀ x y, x < width → y < height →
      (ditherBayer gray width height N).getD (y * width + x) 0
        = quantize (gray.getD (y * width + x) 0 + bayerThreshold x y) N :=
  fill_raster width height
    (fun x y => quantize (gray.getD (y * width + x) 0 + bayerThreshold x y) N)

/-! ## The tone stage of the orchestrator -/

theorem toGrayArrayNum_getD (img : ImageData) (C : ℚ) (N : ℤ) :
    (toGrayArrayNum img C N).length = img.width * img.height ∧
    ∀ i, i < img.width * img.height →
      (toGrayArrayNum img C N)[i]? = some (quantizeNum (adjustContrast
        (luminance (img.data.getD (i * 4) 0) (img.data.getD (i * 4 + 1) 0)
          (img.data.getD (i * 4 + 2) 0)) C) N) := by
  obtain ⟨hl, hv⟩ := fill_loop (img.width * img.height) (fun i =>
    quantizeNum (adjustContrast (luminance (img.data.getD (i * 4) 0)
      (img.data.getD (i * 4 + 1) 0) (img.data.getD (i * 4 + 2) 0)) C) N) (some 0)
  have hdef : toGrayArrayNum img C N = forLoop (img.width * img.height) (fun out i => out.set i
      (quantizeNum (adjustContrast (luminance (img.data.getD (i * 4) 0)
        (img.data.getD (i * 4 + 1) 0) (img.data.getD (i * 4 + 2) 0)) C) N))
      (List.replicate (img.width * img.height) (some 0)) := rfl
  rw [hdef]
  refine ⟨hl, ?_⟩
  intro i hi
  have hvi := hv i hi
  have hlt : i < (forLoop (img.width * img.height) (fun out i => out.set i
      (quantizeNum (adjustContrast (luminance (img.data.getD (i * 4) 0)
        (img.data.getD (i * 4 + 1) 0) (img.data.getD (i * 4 + 2) 0)) C) N))
      (List.replicate (img.width * img.height) (some 0))).length := by rw [hl]; exact hi
  rw [List.getD_eq_getElem _ _ hlt] at hvi
  rw [List.getElem?_eq_getElem hlt, hvi]

/-! ## Hex colour strings -/

theorem hexDigit_bounds (c : Char) (h : isHexDigit c = true) :
    (48 ≤ c.toNat ∧ c.toNat ≤ 57) ∨ (97 ≤ c.toNat ∧ c.toNat ≤ 102) ∨
      (65 ≤ c.toNat ∧ c.toNat ≤ 70) := by
  unfold isHexDigit at h
  simp only [Bool.or_eq_true, Bool.and_eq_true, decide_eq_true_eq] at h
  omega

theorem hexDigit_ne (c k : Char) (h : isHexDigit c = true) (hk : isHexDigit k = false) :
    ¬ c = k := by
  rintro rfl
  rw [hk] at h
  cases h

theorem hexDigit_not_space (c : Char) (h : isHexDigit c = true) :
    isStrWhiteSpaceChar c = false := by
  have hb := hexDigit_bounds c h
  unfold isStrWhiteSpaceChar
  simp only [List.mem_cons, List.mem_singleton, List.not_mem_nil, or_false,
    decide_eq_false_iff_not]
  omega

theorem hexVal_lt (c : Char) (h : isHexDigit c = true) : hexVal c < 16 := by
  have hb := hexDigit_bounds c h
  unfold hexVal
  split_ifs <;> omega

theorem hexDigit_unit (c : Char) (h : isHexDigit c = true) :
    (if c.toNat < 65536 then 1 else 2) = 1 := by
  have hb := hexDigit_bounds c h
  rw [if_pos (by omega)]

theorem toDouble_small (n : ℕ) (h : n < 2 ^ 53) : toDouble n = n := by
  unfold toDouble
  rw [if_pos h]

/-- Parsing six radix-16 digits yields their base-16 value. -/
theorem parseInt16_six (d1 d2 d3 d4 d5 d6 : Char)
    (h1 : isHexDigit d1 = true) (h2 : isHexDigit d2 = true) (h3 : isHexDigit d3 = true)
    (h4 : isHexDigit d4 = true) (h5 : isHexDigit d5 = true) (h6 : isHexDigit d6 = true) :
    parseInt16 [d1, d2, d3, d4, d5, d6] = some (((((((hexVal d1 * 16 + hexVal d2) * 16
      + hexVal d3) * 16 + hexVal d4) * 16 + hexVal d5) * 16 + hexVal d6 : ℕ) : ℤ)) := by
  have w1 := hexDigit_not_space d1 h1
  have m1 : ¬ d1 = '-' := hexDigit_ne d1 '-' h1 (by decide)
  have p1 : ¬ d1 = '+' := hexDigit_ne d1 '+' h1 (by decide)
  have x2 : ¬ d2 = 'x' := hexDigit_ne d2 'x' h2 (by decide)
  have X2 : ¬ d2 = 'X' := hexDigit_ne d2 'X' h2 (by decide)
  have v1 := hexVal_lt d1 h1
  have v2 := hexVal_lt d2 h2
  have v3 := hexVal_lt d3 h3
  have v4 := hexVal_lt d4 h4
  have v5 := hexVal_lt d5 h5
  have v6 := hexVal_lt d6 h6
  have hsmall : (((((hexVal d1 * 16 + hexVal d2) * 16 + hexVal d3) * 16 + hexVal d4) * 16
      + hexVal d5) * 16 + hexVal d6) < 2 ^ 53 := by
    norm_num
    omega
  unfold parseInt16
  simp only [List.dropWhile_cons, w1, m1, p1, x2, X2, List.takeWhile_cons, h1, h2, h3, h4, h5,
    h6, List.takeWhile_nil, List.foldl_cons, List.foldl_nil, or_self, and_false, if_false,
    List.isEmpty_cons, Bool.false_eq_true, ite_true, ite_false, Nat.zero_mul, Nat.zero_add]
  rw [toDouble_small _ hsmall]
  simp

theorem rgb_of_value (v1 v2 v3 v4 v5 v6 : ℕ) (h1 : v1 < 16) (h2 : v2 < 16) (h3 : v3 < 16)
    (h4 : v4 < 16) (h5 : v5 < 16) (h6 : v6 < 16) :
    [(toInt32 (some (((((((v1 * 16 + v2) * 16 + v3) * 16 + v4) * 16 + v5) * 16 + v6 : ℕ) : ℤ)))
        / 65536) % 256,
     (toInt32 (some (((((((v1 * 16 + v2) * 16 + v3) * 16 + v4) * 16 + v5) * 16 + v6 : ℕ) : ℤ)))
        / 256) % 256,
     toInt32 (some (((((((v1 * 16 + v2) * 16 + v3) * 16 + v4) * 16 + v5) * 16 + v6 : ℕ) : ℤ)))
        % 256]
      = [((v1 * 16 + v2 : ℕ) : ℤ), ((v3 * 16 + v4 : ℕ) : ℤ), ((v5 * 16 + v6 : ℕ) : ℤ)] := by
  have e : toInt32 (some (((((((v1 * 16 + v2) * 16 + v3) * 16 + v4) * 16 + v5) * 16 + v6 : ℕ)
      : ℤ))) = (((((((v1 * 16 + v2) * 16 + v3) * 16 + v4) * 16 + v5) * 16 + v6 : ℕ) : ℤ)) := by
    unfold toInt32
    simp only
    split_ifs <;> omega
  rw [e]
  have c1 : (((((((v1 * 16 + v2) * 16 + v3) * 16 + v4) * 16 + v5) * 16 + v6 : ℕ) : ℤ))
      / 65536 % 256 = ((v1 * 16 + v2 : ℕ) : ℤ) := by omega
  have c2 : (((((((v1 * 16 + v2) * 16 + v3) * 16 + v4) * 16 + v5) * 16 + v6 : ℕ) : ℤ))
      / 256 % 256 = ((v3 * 16 + v4 : ℕ) : ℤ) := by omega
  have c3 : (((((((v1 * 16 + v2) * 16 + v3) * 16 + v4) * 16 + v5) * 16 + v6 : ℕ) : ℤ))
      % 256 = ((v5 * 16 + v6 : ℕ) : ℤ) := by omega
  rw [c1, c2, c3]

theorem removeFirstHash_six (d1 d2 d3 d4 d5 d6 : Char)
    (h1 : isHexDigit d1 = true) (h2 : isHexDigit d2 = true) (h3 : isHexDigit d3 = true)
    (h4 : isHexDigit d4 = true) (h5 : isHexDigit d5 = true) (h6 : isHexDigit d6 = true) :
    removeFirstHash [d1, d2, d3, d4, d5, d6] = [d1, d2, d3, d4, d5, d6] := by
  have n1 : ¬ d1 = '#' := hexDigit_ne d1 '#' h1 (by decide)
  have n2 : ¬ d2 = '#' := hexDigit_ne d2 '#' h2 (by decide)
  have n3 : ¬ d3 = '#' := hexDigit_ne d3 '#' h3 (by decide)
  have n4 : ¬ d4 = '#' := hexDigit_ne d4 '#' h4 (by decide)
  have n5 : ¬ d5 = '#' := hexDigit_ne d5 '#' h5 (by decide)
  have n6 : ¬ d6 = '#' := hexDigit_ne d6 '#' h6 (by decide)
  simp only [removeFirstHash, n1, n2, n3, n4, n5, n6, if_false]

theorem removeFirstHash_three (a b c : Char)
    (ha : isHexDigit a = true) (hb : isHexDigit b = true) (hc : isHexDigit c = true) :
    removeFirstHash [a, b, c] = [a, b, c] := by
  have n1 : ¬ a = '#' := hexDigit_ne a '#' ha (by decide)
  have n2 : ¬ b = '#' := hexDigit_ne b '#' hb (by decide)
  have n3 : ¬ c = '#' := hexDigit_ne c '#' hc (by decide)
  simp only [removeFirstHash, n1, n2, n3, if_false]

theorem removeFirstHash_hash (l : List Char) : removeFirstHash ('#' :: l) = l := by
  simp only [removeFirstHash, if_true]

/-- The result of `hexToRgb` once the `#` is removed, for six digits. -/
theorem hexToRgb_six (l : List Char) (d1 d2 d3 d4 d5 d6 : Char)
    (hl : removeFirstHash l = [d1, d2, d3, d4, d5, d6])
    (h1 : isHexDigit d1 = true) (h2 : isHexDigit d2 = true) (h3 : isHexDigit d3 = true)
    (h4 : isHexDigit d4 = true) (h5 : isHexDigit d5 = true) (h6 : isHexDigit d6 = true) :
    hexToRgb (String.mk l) = [((hexVal d1 * 16 + hexVal d2 : ℕ) : ℤ),
      ((hexVal d3 * 16 + hexVal d4 : ℕ) : ℤ), ((hexVal d5 * 16 + hexVal d6 : ℕ) : ℤ)] := by
  have hlen : utf16Length [d1, d2, d3, d4, d5, d6] = 6 := by
    simp only [utf16Length, List.map_cons, List.map_nil, hexDigit_unit _ h1, hexDigit_unit _ h2,
      hexDigit_unit _ h3, hexDigit_unit _ h4, hexDigit_unit _ h5, hexDigit_unit _ h6,
      List.sum_cons, List.sum_nil]
    rfl
  have ht : (String.mk l).toList = l := rfl
  have h63 : ¬ ((6 : ℕ) = 3) := by decide
  unfold hexToRgb
  simp only [ht, hl, hlen, h63, if_false]
  rw [parseInt16_six d1 d2 d3 d4 d5 d6 h1 h2 h3 h4 h5 h6]
  exact rgb_of_value _ _ _ _ _ _ (hexVal_lt _ h1) (hexVal_lt _ h2) (hexVal_lt _ h3)
    (hexVal_lt _ h4) (hexVal_lt _ h5) (hexVal_lt _ h6)

/-- The result of `hexToRgb` once the `#` is removed, for three digits: each is doubled. -/
theorem hexToRgb_three (l : List Char) (a b c : Char)
    (hl : removeFirstHash l = [a, b, c])
    (ha : isHexDigit a = true) (hb : isHexDigit b = true) (hc : isHexDigit c = true) :
    hexToRgb (String.mk l) = [((17 * hexVal a : ℕ) : ℤ), ((17 * hexVal b : ℕ) : ℤ),
      ((17 * hexVal c : ℕ) : ℤ)] := by
  have hlen : utf16Length [a, b, c] = 3 := by
    simp only [utf16Length, List.map_cons, List.map_nil, hexDigit_unit _ ha, hexDigit_unit _ hb,
      hexDigit_unit _ hc, List.sum_cons, List.sum_nil]
    rfl
  have hd : List.flatMap [a, b, c] (fun n => [n, n]) = [a, a, b, b, c, c] := rfl
  have ht : (String.mk l).toList = l := rfl
  unfold hexToRgb
  simp only [ht, hl, hlen, if_true]
  rw [hd, parseInt16_six a a b b c c ha ha hb hb hc hc,
    rgb_of_value _ _ _ _ _ _ (hexVal_lt _ ha) (hexVal_lt _ ha) (hexVal_lt _ hb)
      (hexVal_lt _ hb) (hexVal_lt _ hc) (hexVal_lt _ hc)]
  have e1 : hexVal a * 16 + hexVal a = 17 * hexVal a := by ring
  have e2 : hexVal b * 16 + hexVal b = 17 * hexVal b := by ring
  have e3 : hexVal c * 16 + hexVal c = 17 * hexVal c := by ring
  rw [e1, e2, e3]

/-! ## Contrast and downsampling -/

theorem jsRound_le_of_le (x : ℚ) (m : ℤ) (h : x ≤ (m : ℚ)) : jsRound x ≤ m := by
  unfold jsRound
  have h1 : x + 1 / 2 < ((m + 1 : ℤ) : ℚ) := by
    push_cast
    linarith
  have := Int.floor_lt.mpr h1
  omega

theorem jsRound_natCast (n : ℕ) : jsRound (n : ℚ) = (n : ℤ) := by
  have := jsRound_intCast (n : ℤ)
  simpa using this

theorem hexToRgb_bytes (hex : String) :
    ∃ r g b : ℤ, hexToRgb hex = [r, g, b] ∧
      0 ≤ r ∧ r ≤ 255 ∧ 0 ≤ g ∧ g ≤ 255 ∧ 0 ≤ b ∧ b ≤ 255 := by
  refine ⟨_, _, _, rfl, ?_, ?_, ?_, ?_, ?_, ?_⟩ <;> omega

/-! ## Rendering loops -/

theorem forLoop_zero {σ : Type} (body : σ → ℕ → σ) (s : σ) : forLoop 0 body s = s := rfl

theorem forLoop_one {σ : Type} (body : σ → ℕ → σ) (s : σ) : forLoop 1 body s = body s 0 := by
  rw [forLoop_succ, forLoop_zero]

/-- A loop that appends `f k` at step `k` builds the concatenation of `f 0, …, f (n - 1)`. -/
theorem forLoop_append {α : Type} (n : ℕ) (f : ℕ → List α) (init : List α) :
    forLoop n (fun ops k => ops ++ f k) init = init ++ (List.range n).flatMap f := by
  induction n with
  | zero => simp [forLoop_zero]
  | succ m ih =>
    rw [forLoop_succ, ih, List.range_succ, List.flatMap_append]
    simp

theorem forLoop_append_single {α : Type} (n : ℕ) (g : ℕ → α) (init : List α) :
    forLoop n (fun ops k => ops ++ [g k]) init = init ++ (List.range n).map g := by
  rw [forLoop_append n (fun k => [g k]) init]
  congr 1
  induction n with
  | zero => rfl
  | succ m ih =>
    rw [List.range_succ, List.flatMap_append, List.map_append, ih]
    rfl

theorem getD_replicate_lt {α : Type} (n i : ℕ) (a d : α) (h : i < n) :
    (List.replicate n a).getD i d = a := by
  have hl : i < (List.replicate n a).length := by simpa using h
  rw [List.getD_eq_getElem _ _ hl, List.getElem_replicate]

theorem eq_replicate_of_getD (l : List ℚ) (n : ℕ) (c : ℚ) (hl : l.length = n)
    (h : ∀ i, i < n → l.getD i 0 = c) : l = List.replicate n c := by
  rw [List.eq_replicate_iff]
  refine ⟨hl, ?_⟩
  apply mem_of_forall_getD l (fun b => b = c)
  intro j hj
  exact h j (by omega)

theorem quantize_255 (N : ℤ) (hN : 2 ≤ N) : quantize 255 N = 255 := by
  have hN1 : (N : ℚ) - 1 ≠ 0 := by
    have h : (2 : ℚ) ≤ (N : ℚ) := by exact_mod_cast hN
    intro e
    linarith
  have e : (255 : ℚ) / (255 / ((N : ℚ) - 1)) = ((N - 1 : ℤ) : ℚ) := by
    push_cast
    field_simp
  unfold quantize
  simp only
  rw [e, jsRound_intCast]
  push_cast
  field_simp

theorem ditherThreshold_getD (gray : List ℚ) (N : ℤ) :
    (ditherThreshold gray N).length = gray.length ∧
    ∀ i, i < gray.length → (ditherThreshold gray N).getD i 0 = quantize (gray.getD i 0) N :=
  fill_loop gray.length (fun i => quantize (gray.getD i 0) N) 0

theorem darknessAt_of_255 (values : List ℚ) (i : ℕ) (h : values.getD i 0 = 255) :
    darknessAt values i = 0 := by
  unfold darknessAt
  rw [h]
  norm_num

theorem dotRadius_zero (scale : ℚ) (N : ℤ) (t : ℚ) : dotRadius 0 scale N t = 0 := by
  unfold dotRadius
  simp

/-- A renderer whose cells are all empty issues only the white background fill. -/
theorem renderCells_empty (width height : ℕ) (scale : ℚ) (cell : ℕ → ℕ → List DrawOp)
    (h : ∀ x y, x < width → y < height → cell x y = []) :
    renderCells width height scale cell =
      { width := width * scale
        height := height * scale
        ops := [DrawOp.fillRect 0 0 (width * scale) (height * scale) white 1] } := by
  unfold renderCells
  congr 1
  apply raster_inv width height (fun ops x y => ops ++ cell x y)
    (fun _ ops => ops = [DrawOp.fillRect 0 0 (width * scale) (height * scale) white 1])
  · rfl
  · intro x y t hx hy ht
    rw [ht, h x y hx hy, List.append_nil]

/-! ## Error diffusion on quantized input -/

theorem set_getD_self (l : List ℚ) (i : ℕ) : l.set i (l.getD i 0) = l := by
  apply List.ext_getElem
  · simp
  · intro n h1 h2
    rw [List.getElem_set]
    split
    · rename_i e
      subst e
      rw [List.getD_eq_getElem _ _ h2]
    · rfl

theorem applyWrites_zero (ws : List (ℕ × ℚ)) (o : List ℚ) (h : ∀ t ∈ ws, t.2 = 0) :
    applyWrites o ws = o := by
  induction ws generalizing o with
  | nil => rfl
  | cons t ws ih =>
    have e : applyWrites o (t :: ws) = applyWrites (addAt o t.1 t.2) ws := rfl
    have h0 : addAt o t.1 t.2 = o := by
      unfold addAt
      rw [h t (List.mem_cons_self _ _), add_zero, set_getD_self]
    rw [e, h0]
    exact ih o (fun u hu => h u (List.mem_cons_of_mem _ hu))

theorem floydWrites_zero (width height x y : ℕ) :
    ∀ t ∈ floydWrites width height x y 0, t.2 = 0 := by
  intro t ht
  unfold floydWrites at ht
  simp only [List.mem_append] at ht
  rcases ht with ((h | h) | h) | h <;> split at h <;>
    simp only [List.mem_singleton, List.not_mem_nil] at h <;>
    (subst h; norm_num)

theorem atkinsonWrites_zero (width height x y : ℕ) :
    ∀ t ∈ atkinsonWrites width height x y 0, t.2 = 0 := by
  intro t ht
  unfold atkinsonWrites at ht
  simp only [List.mem_append] at ht
  rcases ht with ((((h | h) | h) | h) | h) | h <;> split at h <;>
    simp only [List.mem_singleton, List.not_mem_nil] at h <;>
    (subst h; rfl)

/-- A multiple of the step is a fixed point of `quantize`. -/
theorem quantize_multiple (N : ℤ) (hN : 2 ≤ N) (k : ℤ) :
    quantize ((k : ℚ) * 255 / ((N : ℚ) - 1)) N = (k : ℚ) * 255 / ((N : ℚ) - 1) := by
  have hne : (255 : ℚ) / ((N : ℚ) - 1) ≠ 0 := ne_of_gt (step_pos hN)
  have e : (k : ℚ) * 255 / ((N : ℚ) - 1) = (k : ℚ) * (255 / ((N : ℚ) - 1)) := by ring
  rw [e]
  unfold quantize
  simp only
  rw [mul_div_cancel_right₀ _ hne, jsRound_intCast]

theorem floydStep_fixed (gray : List ℚ) (width height : ℕ) (N : ℤ) (x y : ℕ)
    (h : quantize (gray.getD (y * width + x) 0) N = gray.getD (y * width + x) 0) :
    floydStep width height N gray x y = gray := by
  unfold floydStep
  simp only [h, sub_self, set_getD_self]
  exact applyWrites_zero _ _ (floydWrites_zero width height x y)

theorem atkinsonStep_fixed (gray : List ℚ) (width height : ℕ) (N : ℤ) (x y : ℕ)
    (h : quantize (gray.getD (y * width + x) 0) N = gray.getD (y * width + x) 0) :
    atkinsonStep width height N gray x y = gray := by
  unfold atkinsonStep
  simp only [h, sub_self, zero_div, set_getD_self]
  exact applyWrites_zero _ _ (atkinsonWrites_zero width height x y)

/-- On a buffer of fixed points of `quantize` the three algorithms return the buffer. -/
theorem dither_fixed (gray : List ℚ) (width height : ℕ) (N : ℤ)
    (hlen : gray.length = width * height)
    (hq : ∀ i, i < gray.length → quantize (gray.getD i 0) N = gray.getD i 0) :
    ditherFloyd gray width height N = gray ∧ ditherAtkinson gray width height N = gray ∧
    ditherThreshold gray N = gray := by
  refine ⟨?_, ?_, ?_⟩
  · unfold ditherFloyd
    apply raster_inv width height (fun out x y => floydStep width height N out x y)
      (fun _ out => out = gray) gray rfl
    intro x y t hx hy ht
    rw [ht]
    exact floydStep_fixed gray width height N x y
      (hq _ (by rw [hlen]; exact raster_lt width height x y hx hy))
  · unfold ditherAtkinson
    apply raster_inv width height (fun out x y => atkinsonStep width height N out x y)
      (fun _ out => out = gray) gray rfl
    intro x y t hx hy ht
    rw [ht]
    exact atkinsonStep_fixed gray width height N x y
      (hq _ (by rw [hlen]; exact raster_lt width height x y hx hy))
  · obtain ⟨hl, hv⟩ := ditherThreshold_getD gray N
    apply List.ext_getElem hl
    intro n h1 h2
    have := hv n h2
    rw [List.getD_eq_getElem _ _ h1, hq n h2, List.getD_eq_getElem _ _ h2] at this
    exact this

theorem toGrayArray_getD (img : ImageData) (C : ℚ) (N : ℤ) :
    (toGrayArray img C N).length = img.width * img.height ∧
    ∀ i, i < img.width * img.height →
      (toGrayArray img C N).getD i 0 = quantize (adjustContrast
        (luminance (img.data.getD (i * 4) 0) (img.data.getD (i * 4 + 1) 0)
          (img.data.getD (i * 4 + 2) 0)) C) N :=
  fill_loop (img.width * img.height) (fun i =>
    quantize (adjustContrast (luminance (img.data.getD (i * 4) 0) (img.data.getD (i * 4 + 1) 0)
      (img.data.getD (i * 4 + 2) 0)) C) N) 0

/-! ## Evaluation of the float32 stores on one buffer -/

theorem roundHalfEven_of_near (y : ℚ) (m : ℤ) (hlo : (m : ℚ) - 1 / 2 < y)
    (hhi : y < (m : ℚ) + 1 / 2) : roundHalfEven y = m := by
  unfold roundHalfEven
  simp only
  rcases lt_or_le y (m : ℚ) with h | h
  · have hf : ⌊y⌋ = m - 1 := by
      rw [Int.floor_eq_iff]
      push_cast
      constructor <;> linarith
    rw [hf]
    push_cast
    rw [if_neg (by linarith), if_pos (by linarith)]
    ring
  · have hf : ⌊y⌋ = m := by
      rw [Int.floor_eq_iff]
      constructor <;> linarith
    rw [hf, if_pos (by linarith)]

theorem fround_zero : fround 0 = 0 := by
  unfold fround
  rw [if_pos rfl]

/-- Evaluation of `fround` at a number of the binade `[2^e, 2^(e+1))`, away from a tie. -/
theorem fround_of_binade (x u : ℚ) (e m : ℤ) (he : -126 ≤ e) (hu : u = (2 : ℚ) ^ (e - 23))
    (h1 : (2 : ℚ) ^ e ≤ |x|) (h2 : |x| < (2 : ℚ) ^ (e + 1))
    (hlo : (m : ℚ) - 1 / 2 < x / u) (hhi : x / u < (m : ℚ) + 1 / 2) :
    fround x = (m : ℚ) * u := by
  have hpos : (0 : ℚ) < |x| := lt_of_lt_of_le (zpow_pos (by norm_num) e) h1
  have hx : x ≠ 0 := abs_pos.mp hpos
  have hlog : Int.log 2 |x| = e := by
    apply le_antisymm
    · have := (Int.lt_zpow_iff_log_lt (b := 2) (by norm_num) (x := e + 1) hpos).mp
        (by exact_mod_cast h2)
      omega
    · exact (Int.zpow_le_iff_le_log (b := 2) (by norm_num) hpos).mp (by exact_mod_cast h1)
  unfold fround
  rw [if_neg hx]
  simp only
  rw [hlog, max_eq_left he, ← hu, roundHalfEven_of_near _ m hlo hhi]

theorem fround_trace_0 : fround (16711679 / 131072) = (16711679 / 131072) := by
  have h := fround_of_binade (16711679 / 131072) (1 / 131072) 6 (16711679) (by norm_num) (by norm_num)
    (by norm_num [abs_of_nonneg, abs_of_neg]) (by norm_num [abs_of_nonneg, abs_of_neg])
    (by norm_num) (by norm_num)
  rw [h]
  norm_num

theorem fround_trace_1 : fround (9400319 / 131072) = (9400319 / 131072) := by
  have h := fround_of_binade (9400319 / 131072) (1 / 131072) 6 (9400319) (by norm_num) (by norm_num)
    (by norm_num [abs_of_nonneg, abs_of_neg]) (by norm_num [abs_of_nonneg, abs_of_neg])
    (by norm_num) (by norm_num)
  rw [h]
  norm_num

theorem fround_trace_2 : fround (16711679 / 262144) = (16711679 / 262144) := by
  have h := fround_of_binade (16711679 / 262144) (1 / 262144) 5 (16711679) (by norm_num) (by norm_num)
    (by norm_num [abs_of_nonneg, abs_of_neg]) (by norm_num [abs_of_nonneg, abs_of_neg])
    (by norm_num) (by norm_num)
  rw [h]
  norm_num

theorem fround_trace_3 : fround 255 = 255 := by
  have h := fround_of_binade 255 (1 / 65536) 7 (16711680) (by norm_num) (by norm_num)
    (by norm_num [abs_of_nonneg, abs_of_neg]) (by norm_num [abs_of_nonneg, abs_of_neg])
    (by norm_num) (by norm_num)
  rw [h]
  norm_num

theorem fround_trace_4 : fround (267386857 / 2097152) = (16711679 / 131072) := by
  have h := fround_of_binade (267386857 / 2097152) (1 / 131072) 6 (16711679) (by norm_num) (by norm_num)
    (by norm_num [abs_of_nonneg, abs_of_neg]) (by norm_num [abs_of_nonneg, abs_of_neg])
    (by norm_num) (by norm_num)
  rw [h]
  norm_num

theorem fround_trace_5 : fround (217251827 / 2097152) = (13578239 / 131072) := by
  have h := fround_of_binade (217251827 / 2097152) (1 / 131072) 6 (13578239) (by norm_num) (by norm_num)
    (by norm_num [abs_of_nonneg, abs_of_neg]) (by norm_num [abs_of_nonneg, abs_of_neg])
    (by norm_num) (by norm_num)
  rw [h]
  norm_num

theorem fround_trace_6 : fround (551485439 / 2097152) = (8415 / 32) := by
  have h := fround_of_binade (551485439 / 2097152) (1 / 32768) 8 (8616960) (by norm_num) (by norm_num)
    (by norm_num [abs_of_nonneg, abs_of_neg]) (by norm_num [abs_of_nonneg, abs_of_neg])
    (by norm_num) (by norm_num)
  rw [h]
  norm_num

theorem fround_trace_7 : fround (267386861 / 2097152) = (16711679 / 131072) := by
  have h := fround_of_binade (267386861 / 2097152) (1 / 131072) 6 (16711679) (by norm_num) (by norm_num)
    (by norm_num [abs_of_nonneg, abs_of_neg]) (by norm_num [abs_of_nonneg, abs_of_neg])
    (by norm_num) (by norm_num)
  rw [h]
  norm_num

theorem fround_trace_8 : fround (635043835 / 2097152) = (4845 / 16) := by
  have h := fround_of_binade (635043835 / 2097152) (1 / 32768) 8 (9922560) (by norm_num) (by norm_num)
    (by norm_num [abs_of_nonneg, abs_of_neg]) (by norm_num [abs_of_nonneg, abs_of_neg])
    (by norm_num) (by norm_num)
  rw [h]
  norm_num

theorem fround_trace_9 : fround (16711679 / 2097152) = (16711679 / 2097152) := by
  have h := fround_of_binade (16711679 / 2097152) (1 / 2097152) 2 (16711679) (by norm_num) (by norm_num)
    (by norm_num [abs_of_nonneg, abs_of_neg]) (by norm_num [abs_of_nonneg, abs_of_neg])
    (by norm_num) (by norm_num)
  rw [h]
  norm_num

theorem fround_trace_10 : fround (685178877 / 2097152) = (10455 / 32) := by
  have h := fround_of_binade (685178877 / 2097152) (1 / 32768) 8 (10705920) (by norm_num) (by norm_num)
    (by norm_num [abs_of_nonneg, abs_of_neg]) (by norm_num [abs_of_nonneg, abs_of_neg])
    (by norm_num) (by norm_num)
  rw [h]
  norm_num

theorem fround_trace_11 : fround (50135037 / 1048576) = (12533759 / 262144) := by
  have h := fround_of_binade (50135037 / 1048576) (1 / 262144) 5 (12533759) (by norm_num) (by norm_num)
    (by norm_num [abs_of_nonneg, abs_of_neg]) (by norm_num [abs_of_nonneg, abs_of_neg])
    (by norm_num) (by norm_num)
  rw [h]
  norm_num

theorem fround_trace_12 : fround (802160633 / 2097152) = (765 / 2) := by
  have h := fround_of_binade (802160633 / 2097152) (1 / 32768) 8 (12533760) (by norm_num) (by norm_num)
    (by norm_num [abs_of_nonneg, abs_of_neg]) (by norm_num [abs_of_nonneg, abs_of_neg])
    (by norm_num) (by norm_num)
  rw [h]
  norm_num

theorem fround_trace_13 : fround 510 = 510 := by
  have h := fround_of_binade 510 (1 / 32768) 8 (16711680) (by norm_num) (by norm_num)
    (by norm_num [abs_of_nonneg, abs_of_neg]) (by norm_num [abs_of_nonneg, abs_of_neg])
    (by norm_num) (by norm_num)
  rw [h]
  norm_num

theorem fround_trace_14 : fround (-(2088961 / 262144)) = (-(2088961 / 262144)) := by
  have h := fround_of_binade (-(2088961 / 262144)) (1 / 2097152) 2 (-16711688) (by norm_num) (by norm_num)
    (by norm_num [abs_of_nonneg, abs_of_neg]) (by norm_num [abs_of_nonneg, abs_of_neg])
    (by norm_num) (by norm_num)
  rw [h]
  norm_num

theorem quantize_trace_0 : quantize (16711679 / 131072) 2 = 0 := by
  unfold quantize jsRound
  have : ⌊((16711679 / 131072) : ℚ) / (255 / (((2 : ℤ) : ℚ) - 1)) + 1 / 2⌋ = 0 := by
    rw [Int.floor_eq_iff]
    norm_num
  simp only [this]
  norm_num

theorem quantize_trace_1 : quantize (765 / 2) 2 = 510 := by
  unfold quantize jsRound
  have : ⌊((765 / 2) : ℚ) / (255 / (((2 : ℤ) : ℚ) - 1)) + 1 / 2⌋ = 2 := by
    rw [Int.floor_eq_iff]
    norm_num
  simp only [this]
  norm_num

theorem quantize_trace_2 : quantize (-(2088961 / 262144)) 2 = 0 := by
  unfold quantize jsRound
  have : ⌊((-(2088961 / 262144)) : ℚ) / (255 / (((2 : ℤ) : ℚ) - 1)) + 1 / 2⌋ = 0 := by
    rw [Int.floor_eq_iff]
    norm_num
  simp only [this]
  norm_num

theorem floyd_trace_step_0 :
    floydStepF32 3 2 2 [(16711679 / 131072), (9400319 / 131072), (9400319 / 131072), (16711679 / 262144), 255, 0] 0 0
      = [0, (16711679 / 131072), (9400319 / 131072), (13578239 / 131072), (8415 / 32), 0] := by
  norm_num [floydStepF32, applyWritesF32, addAtF32, floydWrites, quantize_trace_0,
    quantize_trace_1, quantize_trace_2, fround_zero, fround_trace_0, fround_trace_1,
    fround_trace_2, fround_trace_3, fround_trace_4, fround_trace_5,
    fround_trace_6, fround_trace_7, fround_trace_8, fround_trace_9, fround_trace_10,
    fround_trace_11,
    fround_trace_12, fround_trace_13, fround_trace_14]

theorem floyd_trace_step_1 :
    floydStepF32 3 2 2 [0, (16711679 / 131072), (9400319 / 131072), (13578239 / 131072), (8415 / 32), 0] 1 0
      = [0, 0, (16711679 / 131072), (16711679 / 131072), (4845 / 16), (16711679 / 2097152)] := by
  norm_num [floydStepF32, applyWritesF32, addAtF32, floydWrites, quantize_trace_0,
    quantize_trace_1, quantize_trace_2, fround_zero, fround_trace_0, fround_trace_1,
    fround_trace_2, fround_trace_3, fround_trace_4, fround_trace_5,
    fround_trace_6, fround_trace_7, fround_trace_8, fround_trace_9, fround_trace_10,
    fround_trace_11,
    fround_trace_12, fround_trace_13, fround_trace_14]

theorem floyd_trace_step_2 :
    floydStepF32 3 2 2 [0, 0, (16711679 / 131072), (16711679 / 131072), (4845 / 16), (16711679 / 2097152)] 2 0
      = [0, 0, 0, (16711679 / 131072), (10455 / 32), (12533759 / 262144)] := by
  norm_num [floydStepF32, applyWritesF32, addAtF32, floydWrites, quantize_trace_0,
    quantize_trace_1, quantize_trace_2, fround_zero, fround_trace_0, fround_trace_1,
    fround_trace_2, fround_trace_3, fround_trace_4, fround_trace_5,
    fround_trace_6, fround_trace_7, fround_trace_8, fround_trace_9, fround_trace_10,
    fround_trace_11,
    fround_trace_12, fround_trace_13, fround_trace_14]

theorem floyd_trace_step_3 :
    floydStepF32 3 2 2 [0, 0, 0, (16711679 / 131072), (10455 / 32), (12533759 / 262144)] 0 1
      = [0, 0, 0, 0, (765 / 2), (12533759 / 262144)] := by
  norm_num [floydStepF32, applyWritesF32, addAtF32, floydWrites, quantize_trace_0,
    quantize_trace_1, quantize_trace_2, fround_zero, fround_trace_0, fround_trace_1,
    fround_trace_2, fround_trace_3, fround_trace_4, fround_trace_5,
    fround_trace_6, fround_trace_7, fround_trace_8, fround_trace_9, fround_trace_10,
    fround_trace_11,
    fround_trace_12, fround_trace_13, fround_trace_14]

theorem floyd_trace_step_4 :
    floydStepF32 3 2 2 [0, 0, 0, 0, (765 / 2), (12533759 / 262144)] 1 1
      = [0, 0, 0, 0, 510, (-(2088961 / 262144))] := by
  norm_num [floydStepF32, applyWritesF32, addAtF32, floydWrites, quantize_trace_0,
    quantize_trace_1, quantize_trace_2, fround_zero, fround_trace_0, fround_trace_1,
    fround_trace_2, fround_trace_3, fround_trace_4, fround_trace_5,
    fround_trace_6, fround_trace_7, fround_trace_8, fround_trace_9, fround_trace_10,
    fround_trace_11,
    fround_trace_12, fround_trace_13, fround_trace_14]

theorem floyd_trace_step_5 :
    floydStepF32 3 2 2 [0, 0, 0, 0, 510, (-(2088961 / 262144))] 2 1
      = [0, 0, 0, 0, 510, 0] := by
  norm_num [floydStepF32, applyWritesF32, addAtF32, floydWrites, quantize_trace_0,
    quantize_trace_1, quantize_trace_2, fround_zero, fround_trace_0, fround_trace_1,
    fround_trace_2, fround_trace_3, fround_trace_4, fround_trace_5,
    fround_trace_6, fround_trace_7, fround_trace_8, fround_trace_9, fround_trace_10,
    fround_trace_11,
    fround_trace_12, fround_trace_13, fround_trace_14]

theorem forLoop_two {σ : Type} (body : σ → ℕ → σ) (s : σ) :
    forLoop 2 body s = body (body s 0) 1 := by
  rw [show (2 : ℕ) = 1 + 1 from rfl, forLoop_succ, forLoop_one]

theorem forLoop_three {σ : Type} (body : σ → ℕ → σ) (s : σ) :
    forLoop 3 body s = body (body (body s 0) 1) 2 := by
  rw [show (3 : ℕ) = 2 + 1 from rfl, forLoop_succ, forLoop_two]

theorem floyd_trace_run :
    ditherFloydF32 [(16711679 / 131072), (9400319 / 131072), (9400319 / 131072),
      (16711679 / 262144), 255, 0] 3 2 2 = [0, 0, 0, 0, 510, 0] := by
  unfold ditherFloydF32
  simp only [List.map_cons, List.map_nil, fround_trace_0, fround_trace_1, fround_trace_2,
    fround_trace_3, fround_zero, forLoop_two, forLoop_three]
  rw [floyd_trace_step_0, floyd_trace_step_1, floyd_trace_step_2, floyd_trace_step_3,
    floyd_trace_step_4, floyd_trace_step_5]

/-! ## A run of the float32 stores that ends below zero -/

theorem fround_low_0 : fround (255 / 2) = (255 / 2) := by
  have h := fround_of_binade (255 / 2) (1 / 131072) 6 (16711680) (by norm_num) (by norm_num)
    (by norm_num [abs_of_nonneg, abs_of_neg]) (by norm_num [abs_of_nonneg, abs_of_neg])
    (by norm_num) (by norm_num)
  rw [h]
  norm_num

theorem fround_low_1 : fround (14332587 / 65536) = (14332587 / 65536) := by
  have h := fround_of_binade (14332587 / 65536) (1 / 65536) 7 (14332587) (by norm_num) (by norm_num)
    (by norm_num [abs_of_nonneg, abs_of_neg]) (by norm_num [abs_of_nonneg, abs_of_neg])
    (by norm_num) (by norm_num)
  rw [h]
  norm_num

theorem fround_low_2 : fround (8820053 / 65536) = (8820053 / 65536) := by
  have h := fround_of_binade (8820053 / 65536) (1 / 65536) 7 (8820053) (by norm_num) (by norm_num)
    (by norm_num [abs_of_nonneg, abs_of_neg]) (by norm_num [abs_of_nonneg, abs_of_neg])
    (by norm_num) (by norm_num)
  rw [h]
  norm_num

theorem fround_low_3 : fround (425 / 3) = (9284267 / 65536) := by
  have h := fround_of_binade (425 / 3) (1 / 65536) 7 (9284267) (by norm_num) (by norm_num)
    (by norm_num [abs_of_nonneg, abs_of_neg]) (by norm_num [abs_of_nonneg, abs_of_neg])
    (by norm_num) (by norm_num)
  rw [h]
  norm_num

theorem fround_low_4 : fround (41779201 / 196608) = (425 / 2) := by
  have h := fround_of_binade (41779201 / 196608) (1 / 65536) 7 (13926400) (by norm_num) (by norm_num)
    (by norm_num [abs_of_nonneg, abs_of_neg]) (by norm_num [abs_of_nonneg, abs_of_neg])
    (by norm_num) (by norm_num)
  rw [h]
  norm_num

theorem fround_low_5 : fround (25589759 / 196608) = (4165 / 32) := by
  have h := fround_of_binade (25589759 / 196608) (1 / 65536) 7 (8529920) (by norm_num) (by norm_num)
    (by norm_num [abs_of_nonneg, abs_of_neg]) (by norm_num [abs_of_nonneg, abs_of_neg])
    (by norm_num) (by norm_num)
  rw [h]
  norm_num

theorem fround_low_6 : fround (-(85 / 96)) = (-(14854827 / 16777216)) := by
  have h := fround_of_binade (-(85 / 96)) (1 / 16777216) (-1) (-14854827) (by norm_num) (by norm_num)
    (by norm_num [abs_of_nonneg, abs_of_neg]) (by norm_num [abs_of_nonneg, abs_of_neg])
    (by norm_num) (by norm_num)
  rw [h]
  norm_num

theorem fround_low_7 : fround (680 / 3) = (14854827 / 65536) := by
  have h := fround_of_binade (680 / 3) (1 / 65536) 7 (14854827) (by norm_num) (by norm_num)
    (by norm_num [abs_of_nonneg, abs_of_neg]) (by norm_num [abs_of_nonneg, abs_of_neg])
    (by norm_num) (by norm_num)
  rw [h]
  norm_num

theorem fround_low_8 : fround (-(267386881 / 50331648)) = (-(85 / 16)) := by
  have h := fround_of_binade (-(267386881 / 50331648)) (1 / 2097152) 2 (-11141120) (by norm_num) (by norm_num)
    (by norm_num [abs_of_nonneg, abs_of_neg]) (by norm_num [abs_of_nonneg, abs_of_neg])
    (by norm_num) (by norm_num)
  rw [h]
  norm_num

theorem fround_low_9 : fround (-(255 / 32)) = (-(255 / 32)) := by
  have h := fround_of_binade (-(255 / 32)) (1 / 2097152) 2 (-16711680) (by norm_num) (by norm_num)
    (by norm_num [abs_of_nonneg, abs_of_neg]) (by norm_num [abs_of_nonneg, abs_of_neg])
    (by norm_num) (by norm_num)
  rw [h]
  norm_num

theorem fround_low_10 : fround (-(85 / 6)) = (-(14854827 / 1048576)) := by
  have h := fround_of_binade (-(85 / 6)) (1 / 1048576) 3 (-14854827) (by norm_num) (by norm_num)
    (by norm_num [abs_of_nonneg, abs_of_neg]) (by norm_num [abs_of_nonneg, abs_of_neg])
    (by norm_num) (by norm_num)
  rw [h]
  norm_num

theorem fround_low_11 : fround (-(85 / 3)) = (-(14854827 / 524288)) := by
  have h := fround_of_binade (-(85 / 3)) (1 / 524288) 4 (-14854827) (by norm_num) (by norm_num)
    (by norm_num [abs_of_nonneg, abs_of_neg]) (by norm_num [abs_of_nonneg, abs_of_neg])
    (by norm_num) (by norm_num)
  rw [h]
  norm_num

theorem fround_low_12 : fround (44564473 / 50331648) = (1856853 / 2097152) := by
  have h := fround_of_binade (44564473 / 50331648) (1 / 16777216) (-1) (14854824) (by norm_num) (by norm_num)
    (by norm_num [abs_of_nonneg, abs_of_neg]) (by norm_num [abs_of_nonneg, abs_of_neg])
    (by norm_num) (by norm_num)
  rw [h]
  norm_num

theorem quantize_low_0 : quantize (255 / 2) 10 = (425 / 3) := by
  unfold quantize jsRound
  have : ⌊((255 / 2) : ℚ) / (255 / (((10 : ℤ) : ℚ) - 1)) + 1 / 2⌋ = 5 := by
    rw [Int.floor_eq_iff]
    norm_num
  simp only [this]
  norm_num

theorem quantize_low_1 : quantize (425 / 2) 10 = (680 / 3) := by
  unfold quantize jsRound
  have : ⌊((425 / 2) : ℚ) / (255 / (((10 : ℤ) : ℚ) - 1)) + 1 / 2⌋ = 8 := by
    rw [Int.floor_eq_iff]
    norm_num
  simp only [this]
  norm_num

theorem quantize_low_2 : quantize (-(14854827 / 1048576)) 10 = (-(85 / 3)) := by
  unfold quantize jsRound
  have : ⌊((-(14854827 / 1048576)) : ℚ) / (255 / (((10 : ℤ) : ℚ) - 1)) + 1 / 2⌋ = -1 := by
    rw [Int.floor_eq_iff]
    norm_num
  simp only [this]
  norm_num

theorem quantize_low_3 : quantize (1856853 / 2097152) 10 = 0 := by
  unfold quantize jsRound
  have : ⌊((1856853 / 2097152) : ℚ) / (255 / (((10 : ℤ) : ℚ) - 1)) + 1 / 2⌋ = 0 := by
    rw [Int.floor_eq_iff]
    norm_num
  simp only [this]
  norm_num

theorem floyd_low_step_0 :
    floydStepF32 3 2 10 [(255 / 2), (14332587 / 65536), (14332587 / 65536), (8820053 / 65536), 0, 0] 0 0
      = [(9284267 / 65536), (425 / 2), (14332587 / 65536), (4165 / 32), (-(14854827 / 16777216)), 0] := by
  norm_num [floydStepF32, applyWritesF32, addAtF32, floydWrites, fround_zero,
    quantize_low_0, quantize_low_1, quantize_low_2, quantize_low_3, fround_low_0, fround_low_1,
    fround_low_2, fround_low_3, fround_low_4, fround_low_5, fround_low_6, fround_low_7,
    fround_low_8, fround_low_9, fround_low_10, fround_low_11, fround_low_12]

theorem floyd_low_step_1 :
    floydStepF32 3 2 10 [(9284267 / 65536), (425 / 2), (14332587 / 65536), (4165 / 32), (-(14854827 / 16777216)), 0] 1 0
      = [(9284267 / 65536), (14854827 / 65536), (425 / 2), (255 / 2), (-(85 / 16)), (-(14854827 / 16777216))] := by
  norm_num [floydStepF32, applyWritesF32, addAtF32, floydWrites, fround_zero,
    quantize_low_0, quantize_low_1, quantize_low_2, quantize_low_3, fround_low_0, fround_low_1,
    fround_low_2, fround_low_3, fround_low_4, fround_low_5, fround_low_6, fround_low_7,
    fround_low_8, fround_low_9, fround_low_10, fround_low_11, fround_low_12]

theorem floyd_low_step_2 :
    floydStepF32 3 2 10 [(9284267 / 65536), (14854827 / 65536), (425 / 2), (255 / 2), (-(85 / 16)), (-(14854827 / 16777216))] 2 0
      = [(9284267 / 65536), (14854827 / 65536), (14854827 / 65536), (255 / 2), (-(255 / 32)), (-(85 / 16))] := by
  norm_num [floydStepF32, applyWritesF32, addAtF32, floydWrites, fround_zero,
    quantize_low_0, quantize_low_1, quantize_low_2, quantize_low_3, fround_low_0, fround_low_1,
    fround_low_2, fround_low_3, fround_low_4, fround_low_5, fround_low_6, fround_low_7,
    fround_low_8, fround_low_9, fround_low_10, fround_low_11, fround_low_12]

theorem floyd_low_step_3 :
    floydStepF32 3 2 10 [(9284267 / 65536), (14854827 / 65536), (14854827 / 65536), (255 / 2), (-(255 / 32)), (-(85 / 16))] 0 1
      = [(9284267 / 65536), (14854827 / 65536), (14854827 / 65536), (9284267 / 65536), (-(14854827 / 1048576)), (-(85 / 16))] := by
  norm_num [floydStepF32, applyWritesF32, addAtF32, floydWrites, fround_zero,
    quantize_low_0, quantize_low_1, quantize_low_2, quantize_low_3, fround_low_0, fround_low_1,
    fround_low_2, fround_low_3, fround_low_4, fround_low_5, fround_low_6, fround_low_7,
    fround_low_8, fround_low_9, fround_low_10, fround_low_11, fround_low_12]

theorem floyd_low_step_4 :
    floydStepF32 3 2 10 [(9284267 / 65536), (14854827 / 65536), (14854827 / 65536), (9284267 / 65536), (-(14854827 / 1048576)), (-(85 / 16))] 1 1
      = [(9284267 / 65536), (14854827 / 65536), (14854827 / 65536), (9284267 / 65536), (-(14854827 / 524288)), (1856853 / 2097152)] := by
  norm_num [floydStepF32, applyWritesF32, addAtF32, floydWrites, fround_zero,
    quantize_low_0, quantize_low_1, quantize_low_2, quantize_low_3, fround_low_0, fround_low_1,
    fround_low_2, fround_low_3, fround_low_4, fround_low_5, fround_low_6, fround_low_7,
    fround_low_8, fround_low_9, fround_low_10, fround_low_11, fround_low_12]

theorem floyd_low_step_5 :
    floydStepF32 3 2 10 [(9284267 / 65536), (14854827 / 65536), (14854827 / 65536), (9284267 / 65536), (-(14854827 / 524288)), (1856853 / 2097152)] 2 1
      = [(9284267 / 65536), (14854827 / 65536), (14854827 / 65536), (9284267 / 65536), (-(14854827 / 524288)), 0] := by
  norm_num [floydStepF32, applyWritesF32, addAtF32, floydWrites, fround_zero,
    quantize_low_0, quantize_low_1, quantize_low_2, quantize_low_3, fround_low_0, fround_low_1,
    fround_low_2, fround_low_3, fround_low_4, fround_low_5, fround_low_6, fround_low_7,
    fround_low_8, fround_low_9, fround_low_10, fround_low_11, fround_low_12]

theorem floyd_low_run :
    ditherFloydF32 [(255 / 2), (14332587 / 65536), (14332587 / 65536), (8820053 / 65536), 0, 0] 3 2 10
      = [(9284267 / 65536), (14854827 / 65536), (14854827 / 65536), (9284267 / 65536), (-(14854827 / 524288)), 0] := by
  unfold ditherFloydF32
  simp only [List.map_cons, List.map_nil, fround_zero, forLoop_two, forLoop_three,
    fround_low_0, fround_low_1, fround_low_2, fround_low_3, fround_low_4, fround_low_5,
    fround_low_6, fround_low_7, fround_low_8, fround_low_9, fround_low_10, fround_low_11,
    fround_low_12]
  rw [floyd_low_step_0, floyd_low_step_1, floyd_low_step_2, floyd_low_step_3,
    floyd_low_step_4, floyd_low_step_5]

/-- On the `3 × 2` buffer below, whose values are binary32 numbers in `[0, 255]`, with
`N = 10` every residual that reaches pixel `(1, 1)` is `-step / 2 = -85/6`; the rounded stores
leave there the binary32 number next below `-85/6`, the rounded index is `-1`, and
`ditherFloydF32` returns the rounding of `-step`, a negative value. -/
theorem ditherFloydF32_below_zero :
    (∀ v ∈ ([(255 / 2), (14332587 / 65536), (14332587 / 65536), (8820053 / 65536), 0, 0] :
        List ℚ), 0 ≤ v ∧ v ≤ 255 ∧ fround v = v) ∧
    ditherFloydF32 [(255 / 2), (14332587 / 65536), (14332587 / 65536), (8820053 / 65536), 0, 0]
        3 2 10
      = [(9284267 / 65536), (14854827 / 65536), (14854827 / 65536), (9284267 / 65536),
          (-(14854827 / 524288)), 0] ∧
    (-(14854827 / 524288) : ℚ) = fround (((-1 : ℤ) : ℚ) * 255 / (((10 : ℤ) : ℚ) - 1)) ∧
    (-(14854827 / 524288) : ℚ) < 0 := by
  refine ⟨?_, floyd_low_run, ?_, by norm_num⟩
  · intro v hv
    simp only [List.mem_cons, List.mem_singleton, List.not_mem_nil, or_false] at hv
    rcases hv with h | h | h | h | h | h
    · rw [h]
      exact ⟨by norm_num, by norm_num, fround_low_0⟩
    · rw [h]
      exact ⟨by norm_num, by norm_num, fround_low_1⟩
    · rw [h]
      exact ⟨by norm_num, by norm_num, fround_low_1⟩
    · rw [h]
      exact ⟨by norm_num, by norm_num, fround_low_2⟩
    · rw [h]
      exact ⟨by norm_num, by norm_num, fround_zero⟩
    · rw [h]
      exact ⟨by norm_num, by norm_num, fround_zero⟩
  · have e : ((-1 : ℤ) : ℚ) * 255 / (((10 : ℤ) : ℚ) - 1) = -(85 / 3) := by norm_num
    rw [e, fround_low_11]

/-! ## Rounded stores keep multiples of the step -/

theorem length_addAtF32 (o : List ℚ) (k : ℕ) (e : ℚ) : (addAtF32 o k e).length = o.length := by
  simp [addAtF32]

theorem length_applyWritesF32 (ws : List (ℕ × ℚ)) (o : List ℚ) :
    (applyWritesF32 o ws).length = o.length := by
  induction ws generalizing o with
  | nil => rfl
  | cons t ws ih =>
    have : applyWritesF32 o (t :: ws) = applyWritesF32 (addAtF32 o t.1 t.2) ws := rfl
    rw [this, ih, length_addAtF32]

theorem getD_applyWritesF32_of_ne (ws : List (ℕ × ℚ)) (o : List ℚ) (j : ℕ)
    (h : ∀ t ∈ ws, t.1 ≠ j) : (applyWritesF32 o ws).getD j 0 = o.getD j 0 := by
  induction ws generalizing o with
  | nil => rfl
  | cons t ws ih =>
    have e : applyWritesF32 o (t :: ws) = applyWritesF32 (addAtF32 o t.1 t.2) ws := rfl
    have ht : t.1 ≠ j := h t (List.mem_cons_self _ _)
    rw [e, ih _ (fun u hu => h u (List.mem_cons_of_mem _ hu))]
    unfold addAtF32
    rw [getD_set_eq, if_neg (fun c => ht c.1.symm)]

/-- One step of an error-diffusion loop with rounded stores: the current pixel receives the
rounding of a multiple of the step, and the pixels before it are not written. -/
theorem rounded_step (N : ℤ) (out : List ℚ) (n p : ℕ) (ws : List (ℕ × ℚ))
    (hlen : out.length = n) (hp : p < n) (hws : ∀ t ∈ ws, p < t.1)
    (hinv : ∀ j, j < p → ∃ k : ℤ, out.getD j 0 = fround ((k : ℚ) * 255 / ((N : ℚ) - 1))) :
    (applyWritesF32 (out.set p (fround (quantize (out.getD p 0) N))) ws).length = n ∧
    ∀ j, j < p + 1 →
      ∃ k : ℤ, (applyWritesF32 (out.set p (fround (quantize (out.getD p 0) N))) ws).getD j 0
        = fround ((k : ℚ) * 255 / ((N : ℚ) - 1)) := by
  refine ⟨by rw [length_applyWritesF32, List.length_set, hlen], ?_⟩
  intro j hj
  rw [getD_applyWritesF32_of_ne _ _ _ (fun t ht => by have := hws t ht; omega), getD_set_eq]
  by_cases e : j = p
  · rw [if_pos ⟨e, by rw [hlen]; exact hp⟩]
    exact ⟨_, by rw [quantize_eq_mul]⟩
  · rw [if_neg (fun c => e c.1)]
    exact hinv j (by omega)

theorem ditherFloydF32_multiples (gray : List ℚ) (width height : ℕ) (N : ℤ)
    (hlen : gray.length = width * height) :
    (ditherFloydF32 gray width height N).length = gray.length ∧
    ∀ v ∈ ditherFloydF32 gray width height N,
      ∃ k : ℤ, v = fround ((k : ℚ) * 255 / ((N : ℚ) - 1)) := by
  have h := raster_inv width height (fun out x y => floydStepF32 width height N out x y)
    (fun p out => out.length = gray.length ∧
      ∀ j, j < p → ∃ k : ℤ, out.getD j 0 = fround ((k : ℚ) * 255 / ((N : ℚ) - 1)))
    (gray.map fround) ⟨by simp, fun j hj => by omega⟩ (by
      rintro x y t hx hy ⟨hl, hinv⟩
      have hp : y * width + x < gray.length := by
        rw [hlen]
        exact raster_lt width height x y hx hy
      exact rounded_step N t gray.length (y * width + x)
        (floydWrites width height x y
          (t.getD (y * width + x) 0 - quantize (t.getD (y * width + x) 0) N)) hl hp
        (fun u hu => (floydWrites_lt width height x y _ hx hy u hu).1) hinv)
  refine ⟨h.1, ?_⟩
  apply mem_of_forall_getD
  intro j hj
  have hj' : j < height * width := by
    have h1 : (ditherFloydF32 gray width height N).length = gray.length := h.1
    rw [h1, hlen, Nat.mul_comm] at hj
    exact hj
  exact h.2 j hj'

theorem ditherAtkinsonF32_multiples (gray : List ℚ) (width height : ℕ) (N : ℤ)
    (hlen : gray.length = width * height) :
    (ditherAtkinsonF32 gray width height N).length = gray.length ∧
    ∀ v ∈ ditherAtkinsonF32 gray width height N,
      ∃ k : ℤ, v = fround ((k : ℚ) * 255 / ((N : ℚ) - 1)) := by
  have h := raster_inv width height (fun out x y => atkinsonStepF32 width height N out x y)
    (fun p out => out.length = gray.length ∧
      ∀ j, j < p → ∃ k : ℤ, out.getD j 0 = fround ((k : ℚ) * 255 / ((N : ℚ) - 1)))
    (gray.map fround) ⟨by simp, fun j hj => by omega⟩ (by
      rintro x y t hx hy ⟨hl, hinv⟩
      have hp : y * width + x < gray.length := by
        rw [hlen]
        exact raster_lt width height x y hx hy
      exact rounded_step N t gray.length (y * width + x)
        (atkinsonWrites width height x y
          ((t.getD (y * width + x) 0 - quantize (t.getD (y * width + x) 0) N) / 8)) hl hp
        (fun u hu => (atkinsonWrites_lt width height x y _ hx hy u hu).1) hinv)
  refine ⟨h.1, ?_⟩
  apply mem_of_forall_getD
  intro j hj
  have hj' : j < height * width := by
    have h1 : (ditherAtkinsonF32 gray width height N).length = gray.length := h.1
    rw [h1, hlen, Nat.mul_comm] at hj
    exact hj
  exact h.2 j hj'

/-! ## Rounded stores stay within one step of the range -/

theorem roundHalfEven_error (y : ℚ) : |(roundHalfEven y : ℚ) - y| ≤ 1 / 2 := by
  have h1 := Int.floor_le y
  have h2 := Int.lt_floor_add_one y
  unfold roundHalfEven
  simp only
  rw [abs_le]
  split_ifs with a b c
  · constructor <;> linarith
  · push_cast
    constructor <;> linarith
  · constructor <;> linarith
  · push_cast
    constructor <;> linarith

theorem fround_error (x : ℚ) (hx : |x| < 512) : |fround x - x| ≤ 1 / 65536 := by
  unfold fround
  by_cases h0 : x = 0
  · rw [if_pos h0, h0]
    norm_num
  · rw [if_neg h0]
    simp only
    have hpos : 0 < |x| := abs_pos.mpr h0
    have hlog : Int.log 2 |x| ≤ 8 := by
      have h9 : |x| < ((2 : ℕ) : ℚ) ^ (9 : ℤ) := by
        norm_num
        exact hx
      have := (Int.lt_zpow_iff_log_lt (by norm_num) hpos).mp h9
      omega
    have he8 : max (Int.log 2 |x|) (-126) ≤ 8 := max_le hlog (by norm_num)
    generalize max (Int.log 2 |x|) (-126) = e at he8
    have hu : (0 : ℚ) < 2 ^ (e - 23) := by positivity
    have hu2 : (2 : ℚ) ^ (e - 23) ≤ 1 / 32768 := by
      have h := zpow_le_zpow_right₀ (show (1 : ℚ) ≤ 2 by norm_num) (show e - 23 ≤ -15 by omega)
      have e15 : (2 : ℚ) ^ (-15 : ℤ) = 1 / 32768 := by norm_num
      rw [e15] at h
      exact h
    have hr := roundHalfEven_error (x / 2 ^ (e - 23))
    have hrw : (roundHalfEven (x / 2 ^ (e - 23)) : ℚ) * 2 ^ (e - 23) - x
        = ((roundHalfEven (x / 2 ^ (e - 23)) : ℚ) - x / 2 ^ (e - 23)) * 2 ^ (e - 23) := by
      field_simp
    rw [hrw, abs_mul, abs_of_pos hu]
    calc |(roundHalfEven (x / 2 ^ (e - 23)) : ℚ) - x / 2 ^ (e - 23)| * 2 ^ (e - 23)
        ≤ 1 / 2 * 2 ^ (e - 23) := mul_le_mul_of_nonneg_right hr hu.le
      _ ≤ 1 / 65536 := by linarith

theorem wabs_nil (j : ℕ) : wabs [] j = 0 := rfl

theorem wabs_cons (t : ℕ × ℚ) (ws : List (ℕ × ℚ)) (j : ℕ) :
    wabs (t :: ws) j = (if t.1 = j then |t.2| + 1 / 65536 else 0) + wabs ws j := by
  unfold wabs
  by_cases h : t.1 = j
  · simp [List.filter_cons, h]
  · simp [List.filter_cons, h]

theorem wabs_append (ws₁ ws₂ : List (ℕ × ℚ)) (j : ℕ) :
    wabs (ws₁ ++ ws₂) j = wabs ws₁ j + wabs ws₂ j := by
  unfold wabs
  simp [List.filter_append]

theorem wabs_nonneg (ws : List (ℕ × ℚ)) (j : ℕ) : 0 ≤ wabs ws j := by
  induction ws with
  | nil => exact le_of_eq (wabs_nil j).symm
  | cons t ws ih =>
    rw [wabs_cons]
    have := abs_nonneg t.2
    split_ifs <;> linarith

theorem wabs_guard (c : Prop) [Decidable c] (k j : ℕ) (a : ℚ) :
    wabs (if c then [(k, a)] else []) j = if c ∧ k = j then |a| + 1 / 65536 else 0 := by
  by_cases h : c
  · rw [if_pos h, wabs_cons, wabs_nil]
    by_cases e : k = j
    · rw [if_pos e, if_pos ⟨h, e⟩, add_zero]
    · rw [if_neg e, if_neg (fun hh => e hh.2), add_zero]
  · rw [if_neg h, if_neg (fun hh => h hh.1), wabs_nil]

/-- A pixel that starts within `b` of `g` stays within `b` plus the room of the writes it
receives, as long as the sums stay below 512, where a store rounds by at most `2⁻¹⁶`. -/
theorem applyWritesF32_near (ws : List (ℕ × ℚ)) (o : List ℚ) (j : ℕ) (g b : ℚ)
    (h0 : |o.getD j 0 - g| ≤ b) (hmag : |g| + b + wabs ws j < 512) :
    |(applyWritesF32 o ws).getD j 0 - g| ≤ b + wabs ws j := by
  induction ws generalizing o b with
  | nil =>
    rw [wabs_nil, add_zero]
    exact h0
  | cons t ws ih =>
    have e : applyWritesF32 o (t :: ws) = applyWritesF32 (addAtF32 o t.1 t.2) ws := rfl
    rw [e, wabs_cons]
    rw [wabs_cons] at hmag
    have hn := wabs_nonneg ws j
    have key : |(addAtF32 o t.1 t.2).getD j 0 - g|
        ≤ b + (if t.1 = j then |t.2| + 1 / 65536 else 0) := by
      unfold addAtF32
      rw [getD_set_eq]
      by_cases c : j = t.1 ∧ t.1 < o.length
      · rw [if_pos c, if_pos c.1.symm, ← c.1]
        rw [if_pos c.1.symm] at hmag
        have a1 := abs_le.mp h0
        have a2 := le_abs_self t.2
        have a3 := neg_abs_le t.2
        have a4 := le_abs_self g
        have a5 := neg_abs_le g
        have hx : |o.getD j 0 + t.2| < 512 := by
          rw [abs_lt]
          constructor <;> linarith
        have fr := abs_le.mp (fround_error _ hx)
        rw [abs_le]
        constructor <;> linarith
      · rw [if_neg c]
        have : (0 : ℚ) ≤ if t.1 = j then |t.2| + 1 / 65536 else 0 := by
          have := abs_nonneg t.2
          split_ifs <;> linarith
        linarith
    have := ih (addAtF32 o t.1 t.2) (b + (if t.1 = j then |t.2| + 1 / 65536 else 0)) key
      (by linarith)
    linarith

theorem room_guard (c : Prop) [Decidable c] (A K n : ℚ) (h : A ≤ K * n) :
    (if c then A else 0) ≤ K * (if c then n else 0) := by
  by_cases hc : c
  · rw [if_pos hc, if_pos hc]
    exact h
  · rw [if_neg hc, if_neg hc, mul_zero]

theorem abs_share (err n : ℚ) (hn : 0 ≤ n) : |err * n / 16| = |err| * n / 16 := by
  rw [abs_div, abs_mul, abs_of_nonneg hn, abs_of_pos (show (0 : ℚ) < 16 by norm_num)]

theorem wabs_floydWrites_le (width height x y j : ℕ) (err : ℚ) :
    wabs (floydWrites width height x y err) j
      ≤ (|err| / 16 + 1 / 65536) * (floydWeight width height x y j : ℚ) := by
  unfold floydWrites floydWeight
  simp only [wabs_append, wabs_guard]
  have e : err / 16 = err * 1 / 16 := by ring
  rw [e]
  have h := abs_nonneg err
  push_cast
  rw [mul_add, mul_add, mul_add]
  refine add_le_add (add_le_add (add_le_add ?_ ?_) ?_) ?_
  · apply room_guard
    rw [abs_share err 7 (by norm_num)]
    linarith
  · apply room_guard
    rw [abs_share err 3 (by norm_num)]
    linarith
  · apply room_guard
    rw [abs_share err 5 (by norm_num)]
    linarith
  · apply room_guard
    rw [abs_share err 1 (by norm_num)]
    linarith

theorem wabs_atkinsonWrites_le (width height x y j : ℕ) (err : ℚ) :
    wabs (atkinsonWrites width height x y err) j
      ≤ (|err| + 1 / 65536) * (atkinsonWeight width height x y j : ℚ) := by
  unfold atkinsonWrites atkinsonWeight
  simp only [wabs_append, wabs_guard]
  push_cast
  rw [mul_add, mul_add, mul_add, mul_add, mul_add]
  refine add_le_add (add_le_add (add_le_add (add_le_add (add_le_add ?_ ?_) ?_) ?_) ?_) ?_ <;>
    (apply room_guard; linarith)

theorem jsRound_index_wide {v : ℚ} {N : ℤ} (hN : 2 ≤ N)
    (hlo : -(3 * (255 / ((N : ℚ) - 1) / 2)) ≤ v)
    (hhi : v < 255 + 3 * (255 / ((N : ℚ) - 1) / 2)) :
    -1 ≤ jsRound (v / (255 / ((N : ℚ) - 1))) ∧ jsRound (v / (255 / ((N : ℚ) - 1))) ≤ N := by
  have hs := step_pos hN
  have hN1 : (0 : ℚ) < (N : ℚ) - 1 := by
    have h : (2 : ℚ) ≤ (N : ℚ) := by exact_mod_cast hN
    linarith
  have hmul : ((N : ℚ) - 1) * (255 / ((N : ℚ) - 1)) = 255 := by
    field_simp
  unfold jsRound
  constructor
  · apply Int.le_floor.mpr
    have : -(3 / 2 : ℚ) ≤ v / (255 / ((N : ℚ) - 1)) := by
      rw [le_div_iff₀ hs]
      linarith
    push_cast
    linarith
  · have hlt : v / (255 / ((N : ℚ) - 1)) + 1 / 2 < ((N + 1 : ℤ) : ℚ) := by
      have : v / (255 / ((N : ℚ) - 1)) < (N : ℚ) - 1 + 3 / 2 := by
        rw [div_lt_iff₀ hs]
        have : ((N : ℚ) - 1 + 3 / 2) * (255 / ((N : ℚ) - 1))
            = 255 + 3 * (255 / ((N : ℚ) - 1) / 2) := by
          calc ((N : ℚ) - 1 + 3 / 2) * (255 / ((N : ℚ) - 1))
              = ((N : ℚ) - 1) * (255 / ((N : ℚ) - 1)) + 3 * (255 / ((N : ℚ) - 1) / 2) := by
                ring
            _ = 255 + 3 * (255 / ((N : ℚ) - 1) / 2) := by rw [hmul]
        linarith
      push_cast
      linarith
    have := Int.floor_lt.mpr hlt
    omega

/-- One step of an error-diffusion loop with rounded stores, for at most `65536` levels: the
current pixel, which is within half a step and `17 · 2⁻¹⁶` of its input tone, receives the
rounding of `k` steps with `-1 ≤ k ≤ N`, and every later pixel stays within its share `W` of
half a step plus the roundings of its stores. -/
theorem rounded_range_step (N : ℤ) (hN : 2 ≤ N) (hN' : N ≤ 65536) (gray out : List ℚ)
    (hg : ∀ j, j < gray.length → 0 ≤ gray.getD j 0 ∧ gray.getD j 0 ≤ 255)
    (p : ℕ) (hp : p < gray.length) (c : ℚ) (W W' wt : ℕ → ℕ) (ws : List (ℕ × ℚ))
    (hlen : out.length = gray.length)
    (hdone : ∀ j, j < p → ∃ k : ℤ, -1 ≤ k ∧ k ≤ N ∧
      out.getD j 0 = fround ((k : ℚ) * 255 / ((N : ℚ) - 1)))
    (hnear : ∀ j, p ≤ j → j < gray.length →
      |out.getD j 0 - gray.getD j 0| ≤ (W j : ℚ) * c + 1 / 65536)
    (hws : ∀ t ∈ ws, p < t.1)
    (hwabs : ∀ j, wabs ws j ≤ c * (wt j : ℚ))
    (hW : ∀ j, W j + wt j = W' j)
    (hc : 0 ≤ c)
    (hcap : ∀ j, (W' j : ℚ) * c ≤ 255 / ((N : ℚ) - 1) / 2 + 1 / 4096) :
    (applyWritesF32 (out.set p (fround (quantize (out.getD p 0) N))) ws).length = gray.length ∧
    (∀ j, j < p + 1 → ∃ k : ℤ, -1 ≤ k ∧ k ≤ N ∧
      (applyWritesF32 (out.set p (fround (quantize (out.getD p 0) N))) ws).getD j 0
        = fround ((k : ℚ) * 255 / ((N : ℚ) - 1))) ∧
    (∀ j, p + 1 ≤ j → j < gray.length →
      |(applyWritesF32 (out.set p (fround (quantize (out.getD p 0) N))) ws).getD j 0
        - gray.getD j 0| ≤ (W' j : ℚ) * c + 1 / 65536) := by
  have hs := step_pos hN
  have hN2 : (2 : ℚ) ≤ (N : ℚ) := by exact_mod_cast hN
  have hNq : (N : ℚ) ≤ 65536 := by exact_mod_cast hN'
  have hN1 : (0 : ℚ) < (N : ℚ) - 1 := by linarith
  have hbig : (17 : ℚ) / 65536 < 255 / ((N : ℚ) - 1) := by
    rw [lt_div_iff₀ hN1]
    linarith
  have hsmall : (255 : ℚ) / ((N : ℚ) - 1) ≤ 255 := div_le_self (by norm_num) (by linarith)
  have hsplit : ∀ j, (W' j : ℚ) * c = (W j : ℚ) * c + c * (wt j : ℚ) := by
    intro j
    have : ((W' j : ℕ) : ℚ) = (W j : ℚ) + (wt j : ℚ) := by exact_mod_cast (hW j).symm
    rw [this]
    ring
  have hwt : ∀ j, 0 ≤ c * (wt j : ℚ) := fun j => mul_nonneg hc (Nat.cast_nonneg _)
  refine ⟨by rw [length_applyWritesF32, List.length_set, hlen], ?_, ?_⟩
  · intro j hj
    rw [getD_applyWritesF32_of_ne _ _ _ (fun t ht => by have := hws t ht; omega), getD_set_eq]
    by_cases e : j = p
    · rw [if_pos ⟨e, by rw [hlen]; exact hp⟩]
      have hn := abs_le.mp (hnear p (le_refl p) hp)
      have hgp := hg p hp
      have h1 := hcap p
      have h2 := hsplit p
      have h3 := hwt p
      have hk := jsRound_index_wide hN (v := out.getD p 0) (by linarith) (by linarith)
      exact ⟨_, hk.1, hk.2, by rw [quantize_eq_mul]⟩
    · rw [if_neg (fun c => e c.1)]
      exact hdone j (by omega)
  · intro j hj hjl
    have hgj := hg j hjl
    have h1 := hcap j
    have h2 := hsplit j
    have h3 := hwabs j
    have h0 : |(out.set p (fround (quantize (out.getD p 0) N))).getD j 0 - gray.getD j 0|
        ≤ (W j : ℚ) * c + 1 / 65536 := by
      rw [getD_set_eq, if_neg (fun c => by have := c.1; omega)]
      exact hnear j (by omega) hjl
    have := applyWritesF32_near ws _ j (gray.getD j 0) _ h0 (by
      rw [abs_of_nonneg hgj.1]
      linarith)
    linarith

theorem getD_map_fround (gray : List ℚ) (j : ℕ) :
    (gray.map fround).getD j 0 = fround (gray.getD j 0) := by
  have h := List.getD_map (l := gray) (n := j) (d := (0 : ℚ)) fround
  rw [fround_zero] at h
  exact h

theorem ditherFloydF32_range (gray : List ℚ) (width height : ℕ) (N : ℤ) (hN : 2 ≤ N)
    (hN' : N ≤ 65536) (hlen : gray.length = width * height)
    (hg : ∀ j, j < gray.length → 0 ≤ gray.getD j 0 ∧ gray.getD j 0 ≤ 255) :
    ∀ v ∈ ditherFloydF32 gray width height N,
      ∃ k : ℤ, -1 ≤ k ∧ k ≤ N ∧ v = fround ((k : ℚ) * 255 / ((N : ℚ) - 1)) := by
  have hs := step_pos hN
  have hc : (0 : ℚ) ≤ 255 / ((N : ℚ) - 1) / 2 / 16 + 1 / 65536 := by linarith
  have h := raster_inv width height (fun out x y => floydStepF32 width height N out x y)
    (fun p out => out.length = gray.length ∧
      (∀ j, j < p → ∃ k : ℤ, -1 ≤ k ∧ k ≤ N ∧
        out.getD j 0 = fround ((k : ℚ) * 255 / ((N : ℚ) - 1))) ∧
      (∀ j, p ≤ j → j < gray.length → |out.getD j 0 - gray.getD j 0|
        ≤ (floydIncoming width height p j : ℚ) * (255 / ((N : ℚ) - 1) / 2 / 16 + 1 / 65536)
          + 1 / 65536))
    (gray.map fround) ⟨by simp, fun j hj => by omega, fun j _ hj => by
      have e : floydIncoming width height 0 j = 0 := by simp [floydIncoming]
      rw [e, getD_map_fround]
      have hgj := hg j hj
      have := fround_error (gray.getD j 0) (by
        rw [abs_of_nonneg hgj.1]
        linarith)
      simpa using this⟩ (by
      rintro x y t hx hy ⟨hl, hdone, hnear⟩
      have hp : y * width + x < gray.length := by
        rw [hlen]
        exact raster_lt width height x y hx hy
      obtain ⟨i1, i2⟩ := raster_index width x y hx
      have herr := quantize_err_range (t.getD (y * width + x) 0) N hN
      exact rounded_range_step N hN hN' gray t hg (y * width + x) hp
        (255 / ((N : ℚ) - 1) / 2 / 16 + 1 / 65536)
        (fun j => floydIncoming width height (y * width + x) j)
        (fun j => floydIncoming width height (y * width + x + 1) j)
        (fun j => floydWeight width height x y j)
        (floydWrites width height x y
          (t.getD (y * width + x) 0 - quantize (t.getD (y * width + x) 0) N)) hl hdone hnear
        (fun u hu => (floydWrites_lt width height x y _ hx hy u hu).1)
        (fun j => by
          have h1 := wabs_floydWrites_le width height x y j
            (t.getD (y * width + x) 0 - quantize (t.getD (y * width + x) 0) N)
          have h2 : |t.getD (y * width + x) 0 - quantize (t.getD (y * width + x) 0) N|
              ≤ 255 / ((N : ℚ) - 1) / 2 := abs_le.mpr ⟨herr.1, herr.2.le⟩
          have h3 : (0 : ℚ) ≤ (floydWeight width height x y j : ℚ) := Nat.cast_nonneg _
          have h4 := mul_le_mul_of_nonneg_right
            (show |t.getD (y * width + x) 0 - quantize (t.getD (y * width + x) 0) N| / 16
                + 1 / 65536 ≤ 255 / ((N : ℚ) - 1) / 2 / 16 + 1 / 65536 by linarith) h3
          linarith)
        (fun j => by
          show floydIncoming width height (y * width + x) j + floydWeight width height x y j
            = floydIncoming width height (y * width + x + 1) j
          unfold floydIncoming
          rw [Finset.sum_range_succ, i1, i2])
        hc
        (fun j => by
          have h16 : ((floydIncoming width height (y * width + x + 1) j : ℕ) : ℚ) ≤ 16 := by
            exact_mod_cast floydIncoming_le width height (y * width + x + 1) j
          have := mul_le_mul_of_nonneg_right h16 hc
          show (floydIncoming width height (y * width + x + 1) j : ℚ)
            * (255 / ((N : ℚ) - 1) / 2 / 16 + 1 / 65536) ≤ 255 / ((N : ℚ) - 1) / 2 + 1 / 4096
          linarith))
  apply mem_of_forall_getD
  intro j hj
  have hj' : j < height * width := by
    have h1 : (ditherFloydF32 gray width height N).length = gray.length := h.1
    rw [h1, hlen, Nat.mul_comm] at hj
    exact hj
  exact h.2.1 j hj'

theorem ditherAtkinsonF32_range (gray : List ℚ) (width height : ℕ) (N : ℤ) (hN : 2 ≤ N)
    (hN' : N ≤ 65536) (hlen : gray.length = width * height)
    (hg : ∀ j, j < gray.length → 0 ≤ gray.getD j 0 ∧ gray.getD j 0 ≤ 255) :
    ∀ v ∈ ditherAtkinsonF32 gray width height N,
      ∃ k : ℤ, -1 ≤ k ∧ k ≤ N ∧ v = fround ((k : ℚ) * 255 / ((N : ℚ) - 1)) := by
  have hs := step_pos hN
  have hc : (0 : ℚ) ≤ 255 / ((N : ℚ) - 1) / 2 / 8 + 1 / 65536 := by linarith
  have h := raster_inv width height (fun out x y => atkinsonStepF32 width height N out x y)
    (fun p out => out.length = gray.length ∧
      (∀ j, j < p → ∃ k : ℤ, -1 ≤ k ∧ k ≤ N ∧
        out.getD j 0 = fround ((k : ℚ) * 255 / ((N : ℚ) - 1))) ∧
      (∀ j, p ≤ j → j < gray.length → |out.getD j 0 - gray.getD j 0|
        ≤ (atkinsonIncoming width height p j : ℚ) * (255 / ((N : ℚ) - 1) / 2 / 8 + 1 / 65536)
          + 1 / 65536))
    (gray.map fround) ⟨by simp, fun j hj => by omega, fun j _ hj => by
      have e : atkinsonIncoming width height 0 j = 0 := by simp [atkinsonIncoming]
      rw [e, getD_map_fround]
      have hgj := hg j hj
      have := fround_error (gray.getD j 0) (by
        rw [abs_of_nonneg hgj.1]
        linarith)
      simpa using this⟩ (by
      rintro x y t hx hy ⟨hl, hdone, hnear⟩
      have hp : y * width + x < gray.length := by
        rw [hlen]
        exact raster_lt width height x y hx hy
      obtain ⟨i1, i2⟩ := raster_index width x y hx
      have herr := quantize_err_range (t.getD (y * width + x) 0) N hN
      exact rounded_range_step N hN hN' gray t hg (y * width + x) hp
        (255 / ((N : ℚ) - 1) / 2 / 8 + 1 / 65536)
        (fun j => atkinsonIncoming width height (y * width + x) j)
        (fun j => atkinsonIncoming width height (y * width + x + 1) j)
        (fun j => atkinsonWeight width height x y j)
        (atkinsonWrites width height x y
          ((t.getD (y * width + x) 0 - quantize (t.getD (y * width + x) 0) N) / 8))
        hl hdone hnear
        (fun u hu => (atkinsonWrites_lt width height x y _ hx hy u hu).1)
        (fun j => by
          have h1 := wabs_atkinsonWrites_le width height x y j
            ((t.getD (y * width + x) 0 - quantize (t.getD (y * width + x) 0) N) / 8)
          have h2 : |(t.getD (y * width + x) 0 - quantize (t.getD (y * width + x) 0) N) / 8|
              ≤ 255 / ((N : ℚ) - 1) / 2 / 8 := by
            rw [abs_div, abs_of_pos (show (0 : ℚ) < 8 by norm_num)]
            have := abs_le.mpr ⟨herr.1, herr.2.le⟩
            linarith
          have h3 : (0 : ℚ) ≤ (atkinsonWeight width height x y j : ℚ) := Nat.cast_nonneg _
          have h4 := mul_le_mul_of_nonneg_right
            (show |(t.getD (y * width + x) 0 - quantize (t.getD (y * width + x) 0) N) / 8|
                + 1 / 65536 ≤ 255 / ((N : ℚ) - 1) / 2 / 8 + 1 / 65536 by linarith) h3
          linarith)
        (fun j => by
          show atkinsonIncoming width height (y * width + x) j
              + atkinsonWeight width height x y j
            = atkinsonIncoming width height (y * width + x + 1) j
          unfold atkinsonIncoming
          rw [Finset.sum_range_succ, i1, i2])
        hc
        (fun j => by
          have h6 : ((atkinsonIncoming width height (y * width + x + 1) j : ℕ) : ℚ) ≤ 6 := by
            exact_mod_cast atkinsonIncoming_le width height (y * width + x + 1) j
          have := mul_le_mul_of_nonneg_right h6 hc
          show (atkinsonIncoming width height (y * width + x + 1) j : ℚ)
            * (255 / ((N : ℚ) - 1) / 2 / 8 + 1 / 65536) ≤ 255 / ((N : ℚ) - 1) / 2 + 1 / 4096
          linarith))
  apply mem_of_forall_getD
  intro j hj
  have hj' : j < height * width := by
    have h1 : (ditherAtkinsonF32 gray width height N).length = gray.length := h.1
    rw [h1, hlen, Nat.mul_comm] at hj
    exact hj
  exact h.2.1 j hj'

/-- The conversion to a signed 32-bit integer keeps the low 24 bits. -/
theorem low_bits_toInt32 (n : ℤ) :
    [(toInt32 (some n) / 65536) % 256, (toInt32 (some n) / 256) % 256, toInt32 (some n) % 256]
      = [n / 65536 % 256, n / 256 % 256, n % 256] := by
  have e : toInt32 (some n) = if n % 4294967296 ≥ 2147483648
      then n % 4294967296 - 4294967296 else n % 4294967296 := rfl
  rw [e]
  split_ifs
  · have c1 : (n % 4294967296 - 4294967296) / 65536 % 256 = n / 65536 % 256 := by omega
    have c2 : (n % 4294967296 - 4294967296) / 256 % 256 = n / 256 % 256 := by omega
    have c3 : (n % 4294967296 - 4294967296) % 256 = n % 256 := by omega
    rw [c1, c2, c3]
  · have c1 : n % 4294967296 / 65536 % 256 = n / 65536 % 256 := by omega
    have c2 : n % 4294967296 / 256 % 256 = n / 256 % 256 := by omega
    have c3 : n % 4294967296 % 256 = n % 256 := by omega
    rw [c1, c2, c3]

/-! ## Claims -/

/-- C1: quantization is idempotent, `quantize (quantize v N) N = quantize v N` for every value
`v` and every level count `N ≥ 2`. -/
theorem quantize_idempotent (v : ℚ) (N : ℤ) (hN : 2 ≤ N) :
    quantize (quantize v N) N = quantize v N := by
  have hne : (255 : ℚ) / ((N : ℚ) - 1) ≠ 0 := ne_of_gt (step_pos hN)
  have h : quantize v N / (255 / ((N : ℚ) - 1)) = (jsRound (v / (255 / ((N : ℚ) - 1))) : ℚ) := by
    unfold quantize
    simp only
    exact mul_div_cancel_right₀ _ hne
  unfold quantize at h ⊢
  simp only at h ⊢
  rw [h, jsRound_intCast]

theorem quantize_idempotent_witness :
    (2 : ℤ) ≤ 4 ∧ quantize (quantize 100 4) 4 = quantize 100 4 :=
  ⟨by decide, quantize_idempotent 100 4 (by decide)⟩

/-- C2 (as stated, refuted): `quantize 400 2 = 510`, which is none of the two steps `0`, `255`
and lies outside `[0, 255]`. -/
theorem quantize_out_of_range :
    quantize 400 2 = 510 ∧ ¬ IsStep 2 (quantize 400 2) ∧ ¬ (quantize 400 2 ≤ 255) := by
  have h : quantize 400 2 = 510 := by
    unfold quantize jsRound
    have : ⌊(400 : ℚ) / (255 / (((2 : ℤ) : ℚ) - 1)) + 1 / 2⌋ = 2 := by
      rw [Int.floor_eq_iff]
      norm_num
    simp only [this]
    norm_num
  refine ⟨h, ?_, ?_⟩
  · intro hs
    have := (isStep_bounds (by decide) hs).2
    rw [h] at this
    norm_num at this
  · rw [h]
    norm_num

/-- C2 (amended): for every `v` and `N ≥ 2`, `quantize v N` is an integer multiple of the step
`255 / (N - 1)`; when `0 ≤ v ≤ 255` it is one of the `N` steps `k * 255 / (N - 1)` with
`0 ≤ k ≤ N - 1` and lies in `[0, 255]`. -/
theorem quantize_step_of_clamped (v : ℚ) (N : ℤ) (hN : 2 ≤ N) :
    (∃ k : ℤ, quantize v N = (k : ℚ) * 255 / ((N : ℚ) - 1)) ∧
    (0 ≤ v → v ≤ 255 →
      IsStep N (quantize v N) ∧ 0 ≤ quantize v N ∧ quantize v N ≤ 255) := by
  refine ⟨⟨_, quantize_eq_mul v N⟩, ?_⟩
  intro h0 h255
  have hs := quantize_isStep_of_mem hN h0 h255
  exact ⟨hs, isStep_bounds hN hs⟩

theorem quantize_step_of_clamped_witness :
    (2 : ℤ) ≤ 4 ∧
    ((∃ k : ℤ, quantize 100 4 = (k : ℚ) * 255 / (((4 : ℤ) : ℚ) - 1)) ∧
    ((0 : ℚ) ≤ 100 → (100 : ℚ) ≤ 255 →
      IsStep 4 (quantize 100 4) ∧ 0 ≤ quantize 100 4 ∧ quantize 100 4 ≤ 255)) :=
  ⟨by decide, quantize_step_of_clamped 100 4 (by decide)⟩

/-- C3: for an RGBA buffer of `width * height` pixels with channels in `0..255`, any contrast
`C` and level count `N ≥ 2`, `toGrayArray` returns exactly `width * height` values, the `i`-th
being `quantize (clamp ((L_i - 128) * (C / 100) + 128)) N` with
`L_i = 0.299 R + 0.587 G + 0.114 B`, and each value is one of the `N` quantization steps and
lies in `[0, 255]`. -/
theorem toGrayArray_spec (img : ImageData) (C : ℚ) (N : ℤ) (hN : 2 ≤ N)
    (_hlen : img.data.length = 4 * (img.width * img.height))
    (_hbytes : ∀ b ∈ img.data, b ≤ 255) :
    (toGrayArray img C N).length = img.width * img.height ∧
    ∀ i, i < img.width * img.height →
      (toGrayArray img C N)[i]? = some (quantize (max 0 (min 255
        ((0.299 * (img.data.getD (4 * i) 0 : ℚ) + 0.587 * (img.data.getD (4 * i + 1) 0 : ℚ)
          + 0.114 * (img.data.getD (4 * i + 2) 0 : ℚ) - 128) * (C / 100) + 128))) N) ∧
      IsStep N ((toGrayArray img C N).getD i 0) ∧
      0 ≤ (toGrayArray img C N).getD i 0 ∧ (toGrayArray img C N).getD i 0 ≤ 255 := by
  obtain ⟨hl, hv⟩ := fill_loop (img.width * img.height) (fun i =>
    quantize (adjustContrast (luminance (img.data.getD (i * 4) 0) (img.data.getD (i * 4 + 1) 0)
      (img.data.getD (i * 4 + 2) 0)) C) N) 0
  have hdef : toGrayArray img C N = forLoop (img.width * img.height) (fun out i => out.set i
      (quantize (adjustContrast (luminance (img.data.getD (i * 4) 0)
        (img.data.getD (i * 4 + 1) 0) (img.data.getD (i * 4 + 2) 0)) C) N))
      (List.replicate (img.width * img.height) 0) := rfl
  rw [hdef]
  refine ⟨hl, ?_⟩
  intro i hi
  have hvi := hv i hi
  have hstep : IsStep N (quantize (adjustContrast (luminance (img.data.getD (i * 4) 0)
      (img.data.getD (i * 4 + 1) 0) (img.data.getD (i * 4 + 2) 0)) C) N) :=
    quantize_isStep_of_mem hN (adjustContrast_range _ _).1 (adjustContrast_range _ _).2
  refine ⟨?_, ?_, ?_⟩
  · have hlt : i < (forLoop (img.width * img.height) (fun out i => out.set i
        (quantize (adjustContrast (luminance (img.data.getD (i * 4) 0)
          (img.data.getD (i * 4 + 1) 0) (img.data.getD (i * 4 + 2) 0)) C) N))
        (List.replicate (img.width * img.height) 0)).length := by rw [hl]; exact hi
    rw [List.getD_eq_getElem _ _ hlt] at hvi
    rw [List.getElem?_eq_getElem hlt, hvi]
    simp only [adjustContrast, luminance, Nat.mul_comm i 4]
  · rw [hvi]
    exact hstep
  · rw [hvi]
    exact isStep_bounds hN hstep

theorem toGrayArray_spec_witness :
    (toGrayArray ⟨[255, 255, 255, 255], 1, 1⟩ 100 2).length = 1 * 1 ∧
    ∀ i, i < 1 * 1 →
      (toGrayArray ⟨[255, 255, 255, 255], 1, 1⟩ 100 2)[i]? = some (quantize (max 0 (min 255
        ((0.299 * (([255, 255, 255, 255] : List ℕ).getD (4 * i) 0 : ℚ)
          + 0.587 * (([255, 255, 255, 255] : List ℕ).getD (4 * i + 1) 0 : ℚ)
          + 0.114 * (([255, 255, 255, 255] : List ℕ).getD (4 * i + 2) 0 : ℚ) - 128)
            * (100 / 100) + 128))) 2) ∧
      IsStep 2 ((toGrayArray ⟨[255, 255, 255, 255], 1, 1⟩ 100 2).getD i 0) ∧
      0 ≤ (toGrayArray ⟨[255, 255, 255, 255], 1, 1⟩ 100 2).getD i 0 ∧
      (toGrayArray ⟨[255, 255, 255, 255], 1, 1⟩ 100 2).getD i 0 ≤ 255 :=
  toGrayArray_spec ⟨[255, 255, 255, 255], 1, 1⟩ 100 2 (by decide) (by decide) (by decide)

/-- In exact arithmetic (no store rounds) the buffers returned by `ditherFloyd` and
`ditherAtkinson` have the length of the input and hold only quantization steps. -/
theorem dither_exact_steps (gray : List ℚ) (width height : ℕ) (N : ℤ) (hN : 2 ≤ N)
    (hlen : gray.length = width * height) (hg : ∀ v ∈ gray, 0 ≤ v ∧ v ≤ 255) :
    (ditherFloyd gray width height N).length = gray.length ∧
    (∀ v ∈ ditherFloyd gray width height N, IsStep N v ∧ 0 ≤ v ∧ v ≤ 255) ∧
    (ditherAtkinson gray width height N).length = gray.length ∧
    (∀ v ∈ ditherAtkinson gray width height N, IsStep N v ∧ 0 ≤ v ∧ v ≤ 255) := by
  have hg' := forall_getD_of_mem gray (fun v => 0 ≤ v ∧ v ≤ 255) hg
  obtain ⟨f1, f2, _⟩ := ditherFloyd_inv gray width height N hN hlen hg'
  obtain ⟨a1, a2, _⟩ := ditherAtkinson_inv gray width height N hN hlen hg'
  have hl : gray.length = height * width := by rw [hlen, Nat.mul_comm]
  refine ⟨f1, ?_, a1, ?_⟩
  · apply mem_of_forall_getD
    intro j hj
    rw [f1] at hj
    have hs := f2 j (by omega) hj
    exact ⟨hs, isStep_bounds hN hs⟩
  · apply mem_of_forall_getD
    intro j hj
    rw [a1] at hj
    have hs := a2 j (by omega) hj
    exact ⟨hs, isStep_bounds hN hs⟩

/-- C4 (as stated, refuted): on the `3 × 2` buffer below, whose values are binary32 numbers in
`[0, 255]`, with `N = 2`, the `Float32Array` stores round the accumulated value of pixel
`(1, 1)` to exactly `382.5 = 255 + step / 2`; `Math.round(1.5)` is 2 and `ditherFloyd` returns
`510`, which is none of the two steps and lies above 255. -/
theorem ditherFloyd_float32_out_of_range :
    (∀ v ∈ ([(16711679 / 131072), (9400319 / 131072), (9400319 / 131072),
        (16711679 / 262144), 255, 0] : List ℚ), 0 ≤ v ∧ v ≤ 255 ∧ fround v = v) ∧
    ditherFloydF32 [(16711679 / 131072), (9400319 / 131072), (9400319 / 131072),
      (16711679 / 262144), 255, 0] 3 2 2 = [0, 0, 0, 0, 510, 0] ∧
    ¬ IsStep 2 510 ∧ ¬ ((510 : ℚ) ≤ 255) := by
  refine ⟨?_, floyd_trace_run, ?_, by norm_num⟩
  · intro v hv
    simp only [List.mem_cons, List.mem_singleton, List.not_mem_nil, or_false] at hv
    rcases hv with h | h | h | h | h | h
    · rw [h]
      exact ⟨by norm_num, by norm_num, fround_trace_0⟩
    · rw [h]
      exact ⟨by norm_num, by norm_num, fround_trace_1⟩
    · rw [h]
      exact ⟨by norm_num, by norm_num, fround_trace_1⟩
    · rw [h]
      exact ⟨by norm_num, by norm_num, fround_trace_2⟩
    · rw [h]
      exact ⟨by norm_num, by norm_num, fround_trace_3⟩
    · rw [h]
      exact ⟨by norm_num, by norm_num, fround_zero⟩
  · intro hs
    have := (isStep_bounds (by decide) hs).2
    norm_num at this

/-- C4 (amended): for every `width`, `height`, `N ≥ 2` and every tone buffer of length
`width * height` with values in `[0, 255]`, the buffers returned by `ditherFloyd` and
`ditherAtkinson`, with their `Float32Array` stores, have the length of the input and every
value is the float32 rounding of an integer multiple `k * 255 / (N - 1)` of the step; for
`N ≤ 65536` the multiple satisfies `-1 ≤ k ≤ N`: the value is one of the `N` quantization
steps, or one step below 0 or one step above 255. -/
theorem dither_diffusion_rounded (gray : List ℚ) (width height : ℕ) (N : ℤ) (hN : 2 ≤ N)
    (hlen : gray.length = width * height) (hg : ∀ v ∈ gray, 0 ≤ v ∧ v ≤ 255) :
    ((ditherFloydF32 gray width height N).length = gray.length ∧
      ∀ v ∈ ditherFloydF32 gray width height N,
        ∃ k : ℤ, (N ≤ 65536 → -1 ≤ k ∧ k ≤ N) ∧
          v = fround ((k : ℚ) * 255 / ((N : ℚ) - 1))) ∧
    ((ditherAtkinsonF32 gray width height N).length = gray.length ∧
      ∀ v ∈ ditherAtkinsonF32 gray width height N,
        ∃ k : ℤ, (N ≤ 65536 → -1 ≤ k ∧ k ≤ N) ∧
          v = fround ((k : ℚ) * 255 / ((N : ℚ) - 1))) := by
  have hg' := forall_getD_of_mem gray (fun v => 0 ≤ v ∧ v ≤ 255) hg
  have f := ditherFloydF32_multiples gray width height N hlen
  have a := ditherAtkinsonF32_multiples gray width height N hlen
  refine ⟨⟨f.1, ?_⟩, ⟨a.1, ?_⟩⟩
  · intro v hv
    by_cases hN' : N ≤ 65536
    · obtain ⟨k, h1, h2, h3⟩ := ditherFloydF32_range gray width height N hN hN' hlen hg' v hv
      exact ⟨k, fun _ => ⟨h1, h2⟩, h3⟩
    · obtain ⟨k, h3⟩ := f.2 v hv
      exact ⟨k, fun c => absurd c hN', h3⟩
  · intro v hv
    by_cases hN' : N ≤ 65536
    · obtain ⟨k, h1, h2, h3⟩ :=
        ditherAtkinsonF32_range gray width height N hN hN' hlen hg' v hv
      exact ⟨k, fun _ => ⟨h1, h2⟩, h3⟩
    · obtain ⟨k, h3⟩ := a.2 v hv
      exact ⟨k, fun c => absurd c hN', h3⟩

theorem dither_diffusion_rounded_witness :
    ((2 : ℤ) ≤ 2 ∧ ([100, 200, 30, 255] : List ℚ).length = 2 * 2) ∧
    (∀ v ∈ ditherFloydF32 [100, 200, 30, 255] 2 2 2,
      ∃ k : ℤ, (-1 ≤ k ∧ k ≤ 2) ∧ v = fround ((k : ℚ) * 255 / (((2 : ℤ) : ℚ) - 1))) ∧
    (∀ v ∈ ditherAtkinsonF32 [100, 200, 30, 255] 2 2 2,
      ∃ k : ℤ, (-1 ≤ k ∧ k ≤ 2) ∧ v = fround ((k : ℚ) * 255 / (((2 : ℤ) : ℚ) - 1))) :=
  ⟨by decide,
   fun v hv =>
    Exists.elim ((dither_diffusion_rounded [100, 200, 30, 255] 2 2 2 (by decide) (by decide)
      (by intro v hv; simp only [List.mem_cons, List.mem_singleton, List.not_mem_nil,
            or_false] at hv; rcases hv with h | h | h | h <;> (rw [h]; norm_num))).1.2 v hv)
      (fun k hk => ⟨k, hk.1 (by decide), hk.2⟩),
   fun v hv =>
    Exists.elim ((dither_diffusion_rounded [100, 200, 30, 255] 2 2 2 (by decide) (by decide)
      (by intro v hv; simp only [List.mem_cons, List.mem_singleton, List.not_mem_nil,
            or_false] at hv; rcases hv with h | h | h | h <;> (rw [h]; norm_num))).2.2 v hv)
      (fun k hk => ⟨k, hk.1 (by decide), hk.2⟩)⟩

/-- C5: at an interior pixel (`1 ≤ x ≤ width - 2`, `y ≤ height - 2`) the step of `ditherFloyd`
stores the quantized value and adds 7/16, 3/16, 5/16 and 1/16 of the residual to the right,
bottom-left, bottom and bottom-right neighbours and changes nothing else; the four amounts
sum to the residual, so the sum of the working buffer is unchanged by the step. -/
theorem floyd_interior_conservation (out : List ℚ) (width height : ℕ) (N : ℤ) (x y : ℕ)
    (hlen : out.length = width * height)
    (hx1 : 1 ≤ x) (hx2 : x + 2 ≤ width) (hy : y + 2 ≤ height) :
    (floydStep width height N out x y).getD (y * width + x) 0 = quantize (out.getD (y * width + x) 0) N ∧
    (floydStep width height N out x y).getD (y * width + x + 1) 0 = out.getD (y * width + x + 1) 0 + 7 / 16 * (out.getD (y * width + x) 0 - quantize (out.getD (y * width + x) 0) N) ∧
    (floydStep width height N out x y).getD (y * width + x + width - 1) 0 = out.getD (y * width + x + width - 1) 0 + 3 / 16 * (out.getD (y * width + x) 0 - quantize (out.getD (y * width + x) 0) N) ∧
    (floydStep width height N out x y).getD (y * width + x + width) 0 = out.getD (y * width + x + width) 0 + 5 / 16 * (out.getD (y * width + x) 0 - quantize (out.getD (y * width + x) 0) N) ∧
    (floydStep width height N out x y).getD (y * width + x + width + 1) 0 = out.getD (y * width + x + width + 1) 0 + 1 / 16 * (out.getD (y * width + x) 0 - quantize (out.getD (y * width + x) 0) N) ∧
    (∀ j, j ≠ y * width + x → j ≠ y * width + x + 1 → j ≠ y * width + x + width - 1 → j ≠ y * width + x + width →
      j ≠ y * width + x + width + 1 → (floydStep width height N out x y).getD j 0 = out.getD j 0) ∧
    7 / 16 * (out.getD (y * width + x) 0 - quantize (out.getD (y * width + x) 0) N) + 3 / 16 * (out.getD (y * width + x) 0 - quantize (out.getD (y * width + x) 0) N) + 5 / 16 * (out.getD (y * width + x) 0 - quantize (out.getD (y * width + x) 0) N) + 1 / 16 * (out.getD (y * width + x) 0 - quantize (out.getD (y * width + x) 0) N)
      = (out.getD (y * width + x) 0 - quantize (out.getD (y * width + x) 0) N) ∧
    (floydStep width height N out x y).sum = out.sum :=
  floydStep_interior out width height N x y hlen hx1 hx2 hy

theorem floyd_interior_conservation_witness :
    (1 ≤ 1 ∧ 1 + 2 ≤ 3 ∧ 0 + 2 ≤ 2) ∧
    (floydStep 3 2 2 [10, 20, 30, 40, 50, 60] 1 0).sum
      = ([10, 20, 30, 40, 50, 60] : List ℚ).sum :=
  ⟨by decide, (floyd_interior_conservation [10, 20, 30, 40, 50, 60] 3 2 2 1 0 (by decide)
    (by decide) (by decide) (by decide)).2.2.2.2.2.2.2⟩

/-- C6: at an interior pixel (`x ≥ 1`, `x + 2 < width`, `y + 2 < height`) the step of
`ditherAtkinson` stores the quantized value and adds residual/8 to each of exactly six
neighbours (right, right+1, bottom-left, bottom, bottom-right, two rows below) and changes
nothing else; the total is 3/4 of the residual, so the sum of the working buffer changes by
exactly `-residual/4`. -/
theorem atkinson_interior_three_quarters (out : List ℚ) (width height : ℕ) (N : ℤ) (x y : ℕ)
    (hlen : out.length = width * height)
    (hx1 : 1 ≤ x) (hx2 : x + 2 < width) (hy : y + 2 < height) :
    (atkinsonStep width height N out x y).getD (y * width + x) 0 = quantize (out.getD (y * width + x) 0) N ∧
    (atkinsonStep width height N out x y).getD (y * width + x + 1) 0 = out.getD (y * width + x + 1) 0 + (out.getD (y * width + x) 0 - quantize (out.getD (y * width + x) 0) N) / 8 ∧
    (atkinsonStep width height N out x y).getD (y * width + x + 2) 0 = out.getD (y * width + x + 2) 0 + (out.getD (y * width + x) 0 - quantize (out.getD (y * width + x) 0) N) / 8 ∧
    (atkinsonStep width height N out x y).getD (y * width + x + width - 1) 0 = out.getD (y * width + x + width - 1) 0 + (out.getD (y * width + x) 0 - quantize (out.getD (y * width + x) 0) N) / 8 ∧
    (atkinsonStep width height N out x y).getD (y * width + x + width) 0 = out.getD (y * width + x + width) 0 + (out.getD (y * width + x) 0 - quantize (out.getD (y * width + x) 0) N) / 8 ∧
    (atkinsonStep width height N out x y).getD (y * width + x + width + 1) 0 = out.getD (y * width + x + width + 1) 0 + (out.getD (y * width + x) 0 - quantize (out.getD (y * width + x) 0) N) / 8 ∧
    (atkinsonStep width height N out x y).getD (y * width + x + width * 2) 0 = out.getD (y * width + x + width * 2) 0 + (out.getD (y * width + x) 0 - quantize (out.getD (y * width + x) 0) N) / 8 ∧
    (∀ j, j ≠ y * width + x → j ≠ y * width + x + 1 → j ≠ y * width + x + 2 → j ≠ y * width + x + width - 1 → j ≠ y * width + x + width →
      j ≠ y * width + x + width + 1 → j ≠ y * width + x + width * 2 → (atkinsonStep width height N out x y).getD j 0 = out.getD j 0) ∧
    6 * ((out.getD (y * width + x) 0 - quantize (out.getD (y * width + x) 0) N) / 8) = 0.75 * (out.getD (y * width + x) 0 - quantize (out.getD (y * width + x) 0) N) ∧
    (atkinsonStep width height N out x y).sum = out.sum - (out.getD (y * width + x) 0 - quantize (out.getD (y * width + x) 0) N) / 4 :=
  atkinsonStep_interior out width height N x y hlen hx1 hx2 hy

theorem atkinson_interior_three_quarters_witness :
    (1 ≤ 1 ∧ 1 + 2 < 4 ∧ 0 + 2 < 3) ∧
    (atkinsonStep 4 3 2 [10, 20, 30, 40, 50, 60, 70, 80, 90, 100, 110, 120] 1 0).sum
      = ([10, 20, 30, 40, 50, 60, 70, 80, 90, 100, 110, 120] : List ℚ).sum
        - (([10, 20, 30, 40, 50, 60, 70, 80, 90, 100, 110, 120] : List ℚ).getD (0 * 4 + 1) 0
          - quantize (([10, 20, 30, 40, 50, 60, 70, 80, 90, 100, 110, 120] : List ℚ).getD
              (0 * 4 + 1) 0) 2) / 4 :=
  ⟨by decide, (atkinson_interior_three_quarters
    [10, 20, 30, 40, 50, 60, 70, 80, 90, 100, 110, 120] 4 3 2 1 0 (by decide) (by decide)
    (by decide) (by decide)).2.2.2.2.2.2.2.2.2⟩

/-- C7: error is diffused only to in-bounds neighbours, with no wraparound.  Every index that
`ditherFloyd` or `ditherAtkinson` reads or writes is below `width * height`; while processing
pixel `(x, y)` the neighbour writes are exactly the writes to the grid positions
`(x + dx, y + dy)`, at index `(y + dy) * width + (x + dx)`, for those stated offsets whose
position lies in the grid (`0 ≤ x + dx < width`, `0 ≤ y + dy < height`), and the
contributions to positions outside the grid are dropped. -/
theorem diffusion_writes_in_grid (width height x y : ℕ) (err : ℚ)
    (hx : x < width) (hy : y < height) :
    (∀ j ∈ floydAccesses width height, j < width * height) ∧
    (∀ j ∈ atkinsonAccesses width height, j < width * height) ∧
    y * width + x < width * height ∧
    (∀ t ∈ floydWrites width height x y err, t.1 < width * height) ∧
    (∀ t ∈ atkinsonWrites width height x y err, t.1 < width * height) ∧
    floydWrites width height x y err = specWrites width height x y
      [(1, 0, err * 7 / 16), (-1, 1, err * 3 / 16), (0, 1, err * 5 / 16), (1, 1, err / 16)] ∧
    atkinsonWrites width height x y err = specWrites width height x y
      [(1, 0, err), (2, 0, err), (-1, 1, err), (0, 1, err), (1, 1, err), (0, 2, err)] :=
  ⟨fun j hj => floydAccesses_lt width height j hj,
   fun j hj => atkinsonAccesses_lt width height j hj,
   raster_lt width height x y hx hy,
   fun t ht => (floydWrites_lt width height x y err hx hy t ht).2,
   fun t ht => (atkinsonWrites_lt width height x y err hx hy t ht).2,
   floydWrites_eq_spec width height x y err hx hy,
   atkinsonWrites_eq_spec width height x y err hx hy⟩

theorem diffusion_writes_in_grid_witness :
    (2 < 3 ∧ 0 < 2) ∧
    (∀ j ∈ floydAccesses 3 2, j < 3 * 2) ∧
    (∀ j ∈ atkinsonAccesses 3 2, j < 3 * 2) ∧
    0 * 3 + 2 < 3 * 2 ∧
    (∀ t ∈ floydWrites 3 2 2 0 16, t.1 < 3 * 2) ∧
    (∀ t ∈ atkinsonWrites 3 2 2 0 16, t.1 < 3 * 2) ∧
    floydWrites 3 2 2 0 16 = specWrites 3 2 2 0
      [(1, 0, 16 * 7 / 16), (-1, 1, 16 * 3 / 16), (0, 1, 16 * 5 / 16), (1, 1, 16 / 16)] ∧
    atkinsonWrites 3 2 2 0 16 = specWrites 3 2 2 0
      [(1, 0, 16), (2, 0, 16), (-1, 1, 16), (0, 1, 16), (1, 1, 16), (0, 2, 16)] :=
  ⟨by decide, diffusion_writes_in_grid 3 2 2 0 16 (by decide) (by decide)⟩

/-- The last pixel of a row has no right neighbour: at `(2, 0)` of a `3 × 2` grid
`ditherFloyd` writes only to the bottom-left index 4 and the bottom index 5, never to index 3
(the first pixel of the next row). -/
theorem floydWrites_row_end : (floydWrites 3 2 2 0 16).map Prod.fst = [4, 5] := by
  decide

/-- C8 (as stated, refuted): with `N = 10` the `1 × 1` buffer `[0]` is dithered to
`-85/3 = -1 * 255 / 9`, which is none of the ten steps and lies below 0. -/
theorem ditherBayer_out_of_range :
    ditherBayer [0] 1 1 10 = [-85 / 3] ∧ ¬ IsStep 10 (-85 / 3) := by
  constructor
  · have h := (ditherBayer_getD [0] 1 1 10).2 0 0 (by decide) (by decide)
    have hl := (ditherBayer_getD [0] 1 1 10).1
    have hq : quantize (([0] : List ℚ).getD (0 * 1 + 0) 0 + bayerThreshold 0 0) 10 = -85 / 3 := by
      unfold quantize jsRound bayerThreshold bayer4
      have : ⌊((([0] : List ℚ).getD (0 * 1 + 0) 0 +
          (((([[0, 8, 2, 10], [12, 4, 14, 6], [3, 11, 1, 9], [15, 7, 13, 5]] :
            List (List ℚ)).getD (0 % 4) []).getD (0 % 4) 0 + 0.5) / 16 - 0.5) * 32)
          / (255 / (((10 : ℤ) : ℚ) - 1))) + 1 / 2⌋ = -1 := by
        rw [Int.floor_eq_iff]
        norm_num
      simp only [this]
      norm_num
    rw [hq] at h
    match hd : ditherBayer [0] 1 1 10, hl, h with
    | [v], _, h =>
      simp only [List.getD_cons_zero, Nat.zero_mul, Nat.add_zero] at h
      rw [h]
  · intro hs
    have := (isStep_bounds (by decide) hs).1
    norm_num at this

/-- C8 (amended): for every `width`, `height`, `N ≥ 2` and every tone buffer of length
`width * height` with values in `[0, 255]`, `ditherBayer` returns a buffer of the same
dimensions whose value at `(x, y)` is
`quantize (gray[y * width + x] + ((bayer4[y % 4][x % 4] + 0.5) / 16 - 0.5) * 32) N`; every such
value is an integer multiple of the step `255 / (N - 1)`, and it is one of the `N` steps
`k * 255 / (N - 1)`, `0 ≤ k ≤ N - 1`, whenever `N ≤ 9`. -/
theorem ditherBayer_spec (gray : List ℚ) (width height : ℕ) (N : ℤ) (hN : 2 ≤ N)
    (hlen : gray.length = width * height) (hg : ∀ v ∈ gray, 0 ≤ v ∧ v ≤ 255) :
    (ditherBayer gray width height N).length = width * height ∧
    ∀ x y, x < width → y < height →
      (ditherBayer gray width height N)[y * width + x]? = some (quantize
        (gray.getD (y * width + x) 0
          + (((bayer4.getD (y % 4) []).getD (x % 4) 0 + 0.5) / 16 - 0.5) * 32) N) ∧
      (∃ k : ℤ, (ditherBayer gray width height N).getD (y * width + x) 0
        = (k : ℚ) * 255 / ((N : ℚ) - 1)) ∧
      (N ≤ 9 → IsStep N ((ditherBayer gray width height N).getD (y * width + x) 0)) := by
  obtain ⟨hl, hv⟩ := ditherBayer_getD gray width height N
  refine ⟨hl, ?_⟩
  intro x y hx hy
  have hb := raster_lt width height x y hx hy
  have hval := hv x y hx hy
  have hlt : y * width + x < (ditherBayer gray width height N).length := by
    rw [hl]
    exact hb
  refine ⟨?_, ?_, ?_⟩
  · rw [List.getD_eq_getElem _ _ hlt] at hval
    rw [List.getElem?_eq_getElem hlt, hval]
    rfl
  · rw [hval]
    exact ⟨_, quantize_eq_mul _ N⟩
  · intro h9
    rw [hval]
    obtain ⟨g0, g255⟩ := forall_getD_of_mem gray (fun v => 0 ≤ v ∧ v ≤ 255) hg
      (y * width + x) (by rw [hlen]; exact hb)
    obtain ⟨t0, t15⟩ := bayerThreshold_range x y
    have hN1 : (0 : ℚ) < (N : ℚ) - 1 := by
      have h : (2 : ℚ) ≤ (N : ℚ) := by exact_mod_cast hN
      linarith
    have hN9 : (N : ℚ) ≤ 9 := by exact_mod_cast h9
    have hstep : (30 : ℚ) < 255 / ((N : ℚ) - 1) := by
      rw [lt_div_iff₀ hN1]
      linarith
    apply quantize_isStep_of_range hN
    · linarith
    · linarith

theorem ditherBayer_spec_witness :
    ((2 : ℤ) ≤ 4 ∧ ([100, 200, 30, 255] : List ℚ).length = 2 * 2) ∧
    (ditherBayer [100, 200, 30, 255] 2 2 4).length = 2 * 2 :=
  ⟨by decide, (ditherBayer_spec [100, 200, 30, 255] 2 2 4 (by decide) (by decide)
    (by intro v hv; simp only [List.mem_cons, List.mem_singleton, List.not_mem_nil,
          or_false] at hv; rcases hv with h | h | h | h <;> (rw [h]; norm_num))).1⟩

/-- C9 (as stated, refuted): with a loaded `1 × 1` white image and contrast 100 the tone stage
signals no error for `N = 1` (it returns the buffer `[NaN]`) nor for `N = 0` (it returns
`[255]`). -/
theorem processImageTone_accepts_low_levels :
    processImageTone (some ⟨[255, 255, 255, 255], 1, 1⟩) 100 1 = Except.ok [none] ∧
    processImageTone (some ⟨[255, 255, 255, 255], 1, 1⟩) 100 0 = Except.ok [some 255] := by
  have h1 := (toGrayArrayNum_getD ⟨[255, 255, 255, 255], 1, 1⟩ 100 1)
  have h0 := (toGrayArrayNum_getD ⟨[255, 255, 255, 255], 1, 1⟩ 100 0)
  have q : adjustContrast (luminance ((255 : ℕ) : ℚ) ((255 : ℕ) : ℚ) ((255 : ℕ) : ℚ)) 100
      = 255 := by
    unfold adjustContrast luminance
    norm_num
  have q0 : quantizeNum 255 0 = some 255 := by
    unfold quantizeNum quantize jsRound
    have : ⌊(255 : ℚ) / (255 / (((0 : ℤ) : ℚ) - 1)) + 1 / 2⌋ = -1 := by
      rw [Int.floor_eq_iff]
      norm_num
    simp only [this]
    norm_num
  have q1 : quantizeNum 255 1 = none := by
    unfold quantizeNum
    simp
  constructor
  · show Except.ok (toGrayArrayNum ⟨[255, 255, 255, 255], 1, 1⟩ 100 1) = Except.ok [none]
    have hv := h1.2 0 (by decide)
    simp only [List.getD_cons_zero, List.getD_cons_succ, Nat.zero_mul, Nat.zero_add] at hv
    rw [q, q1] at hv
    match hd : toGrayArrayNum ⟨[255, 255, 255, 255], 1, 1⟩ 100 1, h1.1, hv with
    | [v], _, hv =>
      simp only [List.getElem?_cons_zero, Option.some.injEq] at hv
      rw [hv]
  · show Except.ok (toGrayArrayNum ⟨[255, 255, 255, 255], 1, 1⟩ 100 0) = Except.ok [some 255]
    have hv := h0.2 0 (by decide)
    simp only [List.getD_cons_zero, List.getD_cons_succ, Nat.zero_mul, Nat.zero_add] at hv
    rw [q, q0] at hv
    match hd : toGrayArrayNum ⟨[255, 255, 255, 255], 1, 1⟩ 100 0, h0.1, hv with
    | [v], _, hv =>
      simp only [List.getElem?_cons_zero, Option.some.injEq] at hv
      rw [hv]

/-- C9 (amended): the tone pipeline rejects no level count.  The only input it rejects is a
missing source image; for every loaded image, every contrast and every integer level count
`N`, `N < 2` included, it signals no error and returns a tone buffer of `width * height`
entries, the `i`-th being `quantize (adjustContrast L_i C) N` when `N ≠ 1` and `NaN` (the
result of `0 * Infinity`) when `N = 1`. -/
theorem processImageTone_total (img : ImageData) (C : ℚ) (N : ℤ) :
    processImageTone none C N = Except.error "Select an input image first." ∧
    processImageTone (some img) C N = Except.ok (toGrayArrayNum img C N) ∧
    (toGrayArrayNum img C N).length = img.width * img.height ∧
    ∀ i, i < img.width * img.height →
      (toGrayArrayNum img C N)[i]? = some (if N = 1 then none else
        some (quantize (adjustContrast (luminance (img.data.getD (i * 4) 0)
          (img.data.getD (i * 4 + 1) 0) (img.data.getD (i * 4 + 2) 0)) C) N)) := by
  refine ⟨rfl, rfl, (toGrayArrayNum_getD img C N).1, ?_⟩
  intro i hi
  rw [(toGrayArrayNum_getD img C N).2 i hi]
  unfold quantizeNum
  by_cases h : N = 1
  · rw [if_pos h, if_pos (by omega)]
  · rw [if_neg h, if_neg (by omega)]

theorem processImageTone_total_witness :
    processImageTone (some ⟨[255, 255, 255, 255], 1, 1⟩) 100 1
      = Except.ok (toGrayArrayNum ⟨[255, 255, 255, 255], 1, 1⟩ 100 1) :=
  (processImageTone_total ⟨[255, 255, 255, 255], 1, 1⟩ 100 1).2.1

/-- C10: `hexToRgb` parses both hex forms, with or without a leading `#`.  For radix-16
digits `d1 … d6` the string `d1 d2 d3 d4 d5 d6` yields the three bytes `16 d1 + d2`,
`16 d3 + d4`, `16 d5 + d6`; for digits `a b c` the string `a b c` yields `17 a`, `17 b`,
`17 c` (each digit doubled).  In particular `"#fff"` and `"#ffffff"` yield `(255, 255, 255)`
and `"c74634"` yields `(199, 70, 52)`. -/
theorem hexToRgb_parses (d1 d2 d3 d4 d5 d6 : Char)
    (h1 : isHexDigit d1 = true) (h2 : isHexDigit d2 = true) (h3 : isHexDigit d3 = true)
    (h4 : isHexDigit d4 = true) (h5 : isHexDigit d5 = true) (h6 : isHexDigit d6 = true) :
    hexToRgb (String.mk [d1, d2, d3, d4, d5, d6]) = [((hexVal d1 * 16 + hexVal d2 : ℕ) : ℤ),
      ((hexVal d3 * 16 + hexVal d4 : ℕ) : ℤ), ((hexVal d5 * 16 + hexVal d6 : ℕ) : ℤ)] ∧
    hexToRgb (String.mk ['#', d1, d2, d3, d4, d5, d6]) = [((hexVal d1 * 16 + hexVal d2 : ℕ) : ℤ),
      ((hexVal d3 * 16 + hexVal d4 : ℕ) : ℤ), ((hexVal d5 * 16 + hexVal d6 : ℕ) : ℤ)] ∧
    hexToRgb (String.mk [d1, d2, d3]) = [((17 * hexVal d1 : ℕ) : ℤ), ((17 * hexVal d2 : ℕ) : ℤ),
      ((17 * hexVal d3 : ℕ) : ℤ)] ∧
    hexToRgb (String.mk ['#', d1, d2, d3]) = [((17 * hexVal d1 : ℕ) : ℤ),
      ((17 * hexVal d2 : ℕ) : ℤ), ((17 * hexVal d3 : ℕ) : ℤ)] ∧
    hexToRgb "#fff" = [255, 255, 255] ∧ hexToRgb "#ffffff" = [255, 255, 255] ∧
    hexToRgb "c74634" = [199, 70, 52] :=
  ⟨hexToRgb_six _ d1 d2 d3 d4 d5 d6 (removeFirstHash_six d1 d2 d3 d4 d5 d6 h1 h2 h3 h4 h5 h6)
      h1 h2 h3 h4 h5 h6,
   hexToRgb_six _ d1 d2 d3 d4 d5 d6 (removeFirstHash_hash _) h1 h2 h3 h4 h5 h6,
   hexToRgb_three _ d1 d2 d3 (removeFirstHash_three d1 d2 d3 h1 h2 h3) h1 h2 h3,
   hexToRgb_three _ d1 d2 d3 (removeFirstHash_hash _) h1 h2 h3,
   by decide, by decide, by decide⟩

theorem hexToRgb_parses_witness :
    (isHexDigit 'c' = true ∧ isHexDigit '7' = true ∧ isHexDigit '4' = true ∧
      isHexDigit '6' = true ∧ isHexDigit '3' = true ∧ isHexDigit '4' = true) ∧
    hexToRgb (String.mk ['#', 'c', '7', '4', '6', '3', '4'])
      = [((hexVal 'c' * 16 + hexVal '7' : ℕ) : ℤ), ((hexVal '4' * 16 + hexVal '6' : ℕ) : ℤ),
         ((hexVal '3' * 16 + hexVal '4' : ℕ) : ℤ)] :=
  ⟨by decide, (hexToRgb_parses 'c' '7' '4' '6' '3' '4' (by decide) (by decide) (by decide)
    (by decide) (by decide) (by decide)).2.1⟩

/-- C11 (as stated, refuted): the malformed strings `""`, `"#12"`, `"#12345"` and `"zzzzzz"`
are not rejected; `hexToRgb` returns an RGB triple for each. -/
theorem hexToRgb_accepts_malformed :
    hexToRgb "" = [0, 0, 0] ∧ hexToRgb "#12" = [0, 0, 18] ∧
    hexToRgb "#12345" = [1, 35, 69] ∧ hexToRgb "zzzzzz" = [0, 0, 0] :=
  ⟨by decide, by decide, by decide, by decide⟩

/-- C11 (amended): `hexToRgb` rejects no string.  For every string it returns an RGB triple of
bytes and signals no error; a string in which `parseInt` finds no radix-16 digit (its result
is `NaN`) is silently mapped to `(0, 0, 0)`, and otherwise the triple is made of the low 24
bits of the parsed number `n`: bits 16-23, 8-15 and 0-7.  So `""` and `"zzzzzz"` give
`(0, 0, 0)`, `"#12"` gives `(0, 0, 18)` and `"#12345"` gives `(1, 35, 69)`. -/
theorem hexToRgb_total (hex : String) :
    (∃ r g b : ℤ, hexToRgb hex = [r, g, b] ∧
      0 ≤ r ∧ r ≤ 255 ∧ 0 ≤ g ∧ g ≤ 255 ∧ 0 ≤ b ∧ b ≤ 255) ∧
    (parseInt16 (if utf16Length (removeFirstHash hex.toList) = 3
        then (removeFirstHash hex.toList).flatMap (fun n => [n, n])
        else removeFirstHash hex.toList) = none → hexToRgb hex = [0, 0, 0]) ∧
    (∀ n : ℤ, parseInt16 (if utf16Length (removeFirstHash hex.toList) = 3
        then (removeFirstHash hex.toList).flatMap (fun n => [n, n])
        else removeFirstHash hex.toList) = some n →
      hexToRgb hex = [n / 65536 % 256, n / 256 % 256, n % 256]) ∧
    hexToRgb "" = [0, 0, 0] ∧ hexToRgb "zzzzzz" = [0, 0, 0] ∧
    hexToRgb "#12" = [0, 0, 18] ∧ hexToRgb "#12345" = [1, 35, 69] := by
  refine ⟨hexToRgb_bytes hex, ?_, ?_, by decide, by decide, by decide, by decide⟩
  · intro h
    unfold hexToRgb
    simp only [h]
    rfl
  · intro n h
    unfold hexToRgb
    simp only [h]
    exact low_bits_toInt32 n

theorem hexToRgb_total_witness :
    hexToRgb "#12345" = [(74565 : ℤ) / 65536 % 256, (74565 : ℤ) / 256 % 256,
      (74565 : ℤ) % 256] :=
  (hexToRgb_total "#12345").2.2.1 74565 (by decide)

/-- C12: `adjustContrast L C = clamp ((L - 128) * (C / 100) + 128) 0 255` always lies in
`[0, 255]`, and for `L` in `[0, 255]`: `C = 100` is neutral, `0 ≤ C ≤ 100` never moves the
value away from mid-gray, and `C ≥ 100` never moves it toward mid-gray. -/
theorem adjustContrast_spec (L C : ℚ) :
    adjustContrast L C = max 0 (min 255 ((L - 128) * (C / 100) + 128)) ∧
    0 ≤ adjustContrast L C ∧ adjustContrast L C ≤ 255 ∧
    (0 ≤ L → L ≤ 255 →
      adjustContrast L 100 = L ∧
      (0 ≤ C → C ≤ 100 → |adjustContrast L C - 128| ≤ |L - 128|) ∧
      (100 ≤ C → |L - 128| ≤ |adjustContrast L C - 128|)) := by
  refine ⟨rfl, (adjustContrast_range L C).1, (adjustContrast_range L C).2, ?_⟩
  intro h0 h255
  refine ⟨?_, ?_, ?_⟩
  · unfold adjustContrast
    have e : (L - 128) * ((100 : ℚ) / 100) + 128 = L := by ring
    simp only [e]
    rw [min_eq_right h255, max_eq_right h0]
  · intro hC0 hC1
    have c0 : 0 ≤ C / 100 := by positivity
    have c1 : C / 100 ≤ 1 := by linarith
    unfold adjustContrast
    simp only
    rcases le_total 128 L with hL | hL
    · have r1 : 128 ≤ (L - 128) * (C / 100) + 128 := by nlinarith
      have r2 : (L - 128) * (C / 100) + 128 ≤ L := by nlinarith
      rw [min_eq_right (by linarith), max_eq_right (by linarith),
        abs_of_nonneg (by linarith), abs_of_nonneg (by linarith)]
      linarith
    · have r1 : (L - 128) * (C / 100) + 128 ≤ 128 := by nlinarith
      have r2 : L ≤ (L - 128) * (C / 100) + 128 := by nlinarith
      rw [min_eq_right (by linarith), max_eq_right (by linarith),
        abs_of_nonpos (by linarith), abs_of_nonpos (by linarith)]
      linarith
  · intro hC
    have c1 : 1 ≤ C / 100 := by linarith
    unfold adjustContrast
    simp only
    rcases le_total 128 L with hL | hL
    · have r2 : L ≤ (L - 128) * (C / 100) + 128 := by nlinarith
      have m : L ≤ min 255 ((L - 128) * (C / 100) + 128) := le_min h255 r2
      rw [max_eq_right (by linarith), abs_of_nonneg (by linarith),
        abs_of_nonneg (by linarith)]
      linarith
    · have r2 : (L - 128) * (C / 100) + 128 ≤ L := by nlinarith
      have m : min 255 ((L - 128) * (C / 100) + 128) ≤ L := le_trans (min_le_right _ _) r2
      have m2 : max 0 (min 255 ((L - 128) * (C / 100) + 128)) ≤ L := max_le h0 m
      rw [abs_of_nonpos (by linarith), abs_of_nonpos (by linarith)]
      linarith

theorem adjustContrast_spec_witness :
    ((0 : ℚ) ≤ 200 ∧ (200 : ℚ) ≤ 255 ∧ (100 : ℚ) ≤ 110) ∧
    |(200 : ℚ) - 128| ≤ |adjustContrast 200 110 - 128| :=
  ⟨by norm_num, (adjustContrast_spec 200 110).2.2.2 (by norm_num) (by norm_num) |>.2.2
    (by norm_num)⟩

/-- C13: for integer `width, height ≥ 1` and integer `targetMax ≥ 1`, both dimensions returned
by `fitToPixels` lie in `[1, targetMax]`; if both source dimensions are at most `targetMax` the
size is returned unchanged; and if the larger source dimension exceeds `targetMax`, the larger
returned dimension is exactly `targetMax`. -/
theorem fitToPixels_spec (w h t : ℕ) (hw : 1 ≤ w) (hh : 1 ≤ h) (ht : 1 ≤ t) :
    1 ≤ (fitToPixels w h t).1 ∧ (fitToPixels w h t).1 ≤ t ∧
    1 ≤ (fitToPixels w h t).2 ∧ (fitToPixels w h t).2 ≤ t ∧
    (w ≤ t → h ≤ t → fitToPixels w h t = ((w : ℤ), (h : ℤ))) ∧
    (t < max w h → max (fitToPixels w h t).1 (fitToPixels w h t).2 = t) := by
  have hwq : (0 : ℚ) < (w : ℚ) := by exact_mod_cast hw
  have hhq : (0 : ℚ) < (h : ℚ) := by exact_mod_cast hh
  have htq : (1 : ℚ) ≤ (t : ℚ) := by exact_mod_cast ht
  have ht1 : (1 : ℤ) ≤ (t : ℤ) := by exact_mod_cast ht
  have rw_le : (w : ℚ) * min (min ((t : ℚ) / w) ((t : ℚ) / h)) 1 ≤ (t : ℚ) := by
    have h1 : min (min ((t : ℚ) / w) ((t : ℚ) / h)) 1 ≤ (t : ℚ) / w :=
      le_trans (min_le_left _ _) (min_le_left _ _)
    have h2 := mul_le_mul_of_nonneg_left h1 (le_of_lt hwq)
    have h3 : (w : ℚ) * ((t : ℚ) / w) = t := by field_simp
    linarith
  have rh_le : (h : ℚ) * min (min ((t : ℚ) / w) ((t : ℚ) / h)) 1 ≤ (t : ℚ) := by
    have h1 : min (min ((t : ℚ) / w) ((t : ℚ) / h)) 1 ≤ (t : ℚ) / h :=
      le_trans (min_le_left _ _) (min_le_right _ _)
    have h2 := mul_le_mul_of_nonneg_left h1 (le_of_lt hhq)
    have h3 : (h : ℚ) * ((t : ℚ) / h) = t := by field_simp
    linarith
  have jw := jsRound_le_of_le _ (t : ℤ) (by push_cast; exact rw_le)
  have jh := jsRound_le_of_le _ (t : ℤ) (by push_cast; exact rh_le)
  have e1 : (fitToPixels w h t).1
      = max 1 (jsRound ((w : ℚ) * min (min ((t : ℚ) / w) ((t : ℚ) / h)) 1)) := rfl
  have e2 : (fitToPixels w h t).2
      = max 1 (jsRound ((h : ℚ) * min (min ((t : ℚ) / w) ((t : ℚ) / h)) 1)) := rfl
  refine ⟨?_, ?_, ?_, ?_, ?_, ?_⟩
  · rw [e1]
    exact le_max_left _ _
  · rw [e1]
    exact max_le ht1 jw
  · rw [e2]
    exact le_max_left _ _
  · rw [e2]
    exact max_le ht1 jh
  · intro hwt hht
    have a : (1 : ℚ) ≤ (t : ℚ) / w := by
      rw [le_div_iff₀ hwq]
      have : (w : ℚ) ≤ (t : ℚ) := by exact_mod_cast hwt
      linarith
    have b : (1 : ℚ) ≤ (t : ℚ) / h := by
      rw [le_div_iff₀ hhq]
      have : (h : ℚ) ≤ (t : ℚ) := by exact_mod_cast hht
      linarith
    have r : min (min ((t : ℚ) / w) ((t : ℚ) / h)) 1 = 1 := min_eq_right (le_min a b)
    apply Prod.ext
    · rw [e1, r, mul_one, jsRound_natCast]
      exact max_eq_right (by exact_mod_cast hw)
    · rw [e2, r, mul_one, jsRound_natCast]
      exact max_eq_right (by exact_mod_cast hh)
  · intro hlt
    rcases le_total h w with hhw | hwh
    · have hmax : max w h = w := max_eq_left hhw
      rw [hmax] at hlt
      have hlq : (t : ℚ) < (w : ℚ) := by exact_mod_cast hlt
      have hhwq : (h : ℚ) ≤ (w : ℚ) := by exact_mod_cast hhw
      have a : (t : ℚ) / w ≤ (t : ℚ) / h :=
        div_le_div_of_nonneg_left (by linarith) hhq hhwq
      have b : (t : ℚ) / w ≤ 1 := by
        rw [div_le_iff₀ hwq]
        linarith
      have r : min (min ((t : ℚ) / w) ((t : ℚ) / h)) 1 = (t : ℚ) / w := by
        rw [min_eq_left a, min_eq_left b]
      have v : (fitToPixels w h t).1 = t := by
        rw [e1, r]
        have : (w : ℚ) * ((t : ℚ) / w) = (t : ℚ) := by field_simp
        rw [this, jsRound_natCast]
        exact max_eq_right ht1
      rw [v]
      apply max_eq_left
      rw [e2]
      exact max_le ht1 jh
    · have hmax : max w h = h := max_eq_right hwh
      rw [hmax] at hlt
      have hlq : (t : ℚ) < (h : ℚ) := by exact_mod_cast hlt
      have hwhq : (w : ℚ) ≤ (h : ℚ) := by exact_mod_cast hwh
      have a : (t : ℚ) / h ≤ (t : ℚ) / w :=
        div_le_div_of_nonneg_left (by linarith) hwq hwhq
      have b : (t : ℚ) / h ≤ 1 := by
        rw [div_le_iff₀ hhq]
        linarith
      have r : min (min ((t : ℚ) / w) ((t : ℚ) / h)) 1 = (t : ℚ) / h := by
        rw [min_eq_right a, min_eq_left b]
      have v : (fitToPixels w h t).2 = t := by
        rw [e2, r]
        have : (h : ℚ) * ((t : ℚ) / h) = (t : ℚ) := by field_simp
        rw [this, jsRound_natCast]
        exact max_eq_right ht1
      rw [v]
      apply max_eq_right
      rw [e1]
      exact max_le ht1 jw

theorem fitToPixels_spec_witness :
    (1 ≤ 520 ∧ 1 ≤ 100 ∧ 1 ≤ 260 ∧ 260 < max 520 100) ∧
    max (fitToPixels (520 : ℕ) (100 : ℕ) (260 : ℕ)).1 (fitToPixels (520 : ℕ) (100 : ℕ)
      (260 : ℕ)).2 = (260 : ℕ) :=
  ⟨by decide, (fitToPixels_spec 520 100 260 (by decide) (by decide) (by decide)).2.2.2.2.2
    (by decide)⟩

/-- C14: the all-white scenario, for every size.  For a `w × h` image whose pixels are all
`(255, 255, 255, 255)`, contrast 100 and any level count `N ≥ 2`, `toGrayArray` yields a tone
buffer of all 255, threshold dithering (the algorithm of the dot style) yields all 255, every
pixel has darkness 0 and dot radius 0, and `renderRoundDot` draws no circle: the output surface
has size `(w * scale) × (h * scale)` and holds only the white background fill. -/
theorem all_white_scenario (w h : ℕ) (N : ℤ) (hN : 2 ≤ N) (scale t : ℚ) (colorMode : String)
    (themeRgb : List ℤ) :
    toGrayArray ⟨List.replicate (4 * (w * h)) 255, w, h⟩ 100 N = List.replicate (w * h) 255 ∧
    ditherThreshold (List.replicate (w * h) 255) N = List.replicate (w * h) 255 ∧
    selectDither "dot" (List.replicate (w * h) 255) w h N = List.replicate (w * h) 255 ∧
    (∀ i, i < w * h → darknessAt (List.replicate (w * h) 255) i = 0 ∧
      dotRadius (darknessAt (List.replicate (w * h) 255) i) scale N t = 0) ∧
    renderRoundDot (List.replicate (w * h) 255) w h scale N colorMode
        (List.replicate (4 * (w * h)) 255) themeRgb t =
      { width := w * scale
        height := h * scale
        ops := [DrawOp.fillRect 0 0 (w * scale) (h * scale) white 1] } := by
  have hth : ditherThreshold (List.replicate (w * h) 255) N = List.replicate (w * h) 255 := by
    obtain ⟨hl, hv⟩ := ditherThreshold_getD (List.replicate (w * h) 255) N
    apply eq_replicate_of_getD _ _ _ (by rw [hl, List.length_replicate])
    intro i hi
    rw [hv i (by rw [List.length_replicate]; exact hi), getD_replicate_lt _ _ _ _ hi,
      quantize_255 N hN]
  have hd : ∀ i, i < w * h → darknessAt (List.replicate (w * h) 255) i = 0 := by
    intro i hi
    exact darknessAt_of_255 _ _ (getD_replicate_lt _ _ _ _ hi)
  refine ⟨?_, hth, ?_, ?_, ?_⟩
  · obtain ⟨hl, hv⟩ := fill_loop (w * h) (fun i =>
      quantize (adjustContrast (luminance
        (((List.replicate (4 * (w * h)) 255 : List ℕ).getD (i * 4) 0 : ℕ) : ℚ)
        (((List.replicate (4 * (w * h)) 255 : List ℕ).getD (i * 4 + 1) 0 : ℕ) : ℚ)
        (((List.replicate (4 * (w * h)) 255 : List ℕ).getD (i * 4 + 2) 0 : ℕ) : ℚ)) 100) N) 0
    apply eq_replicate_of_getD _ _ _ hl
    intro i hi
    have hvi := hv i hi
    rw [getD_replicate_lt _ _ _ _ (by omega), getD_replicate_lt _ _ _ _ (by omega),
      getD_replicate_lt _ _ _ _ (by omega)] at hvi
    have e : adjustContrast (luminance ((255 : ℕ) : ℚ) ((255 : ℕ) : ℚ) ((255 : ℕ) : ℚ)) 100
        = 255 := by
      unfold adjustContrast luminance
      norm_num
    rw [e, quantize_255 N hN] at hvi
    exact hvi
  · have : selectDither "dot" (List.replicate (w * h) 255) w h N
        = ditherThreshold (List.replicate (w * h) 255) N := by
      unfold selectDither
      rw [if_neg (by decide), if_neg (by decide), if_neg (by decide)]
    rw [this, hth]
  · intro i hi
    rw [hd i hi]
    exact ⟨rfl, dotRadius_zero scale N t⟩
  · unfold renderRoundDot
    apply renderCells_empty
    intro x y hx hy
    unfold roundDotCell
    simp only
    rw [hd _ (raster_lt w h x y hx hy), dotRadius_zero, if_pos (by norm_num)]

theorem all_white_scenario_witness :
    (2 : ℤ) ≤ 2 ∧
    renderRoundDot (List.replicate (2 * 2) 255) 2 2 8 2 "mono"
        (List.replicate (4 * (2 * 2)) 255) [199, 70, 52] (55 / 100) =
      { width := (2 : ℕ) * 8
        height := (2 : ℕ) * 8
        ops := [DrawOp.fillRect 0 0 ((2 : ℕ) * 8) ((2 : ℕ) * 8) white 1] } :=
  ⟨by decide, (all_white_scenario 2 2 2 (by decide) 8 (55 / 100) "mono" [199, 70, 52]).2.2.2.2⟩

theorem quantize_zero (N : ℤ) : quantize 0 N = 0 := by
  unfold quantize jsRound
  simp only [zero_div, zero_add]
  have : ⌊(1 : ℚ) / 2⌋ = 0 := by
    rw [Int.floor_eq_iff]
    norm_num
  rw [this]
  simp

/-- C15: the black-pixel scenario.  For the `1 × 1` image `(0, 0, 0, 255)`, levels 2, contrast
100, monochrome mode, dot style and scale 8, the tone is 0, the quantized value is 0, the
darkness is 1, and for every texture intensity in `[0, 1]` `renderRoundDot` draws exactly one
filled circle, of colour `(17, 17, 17)`, centred at `(4, 4)`, with radius
`darkness * scale * 0.45 * N * textureBoost / max (N - 1) 1`, `textureBoost = 0.6 + texture * 0.9`;
the radius is `10.8` when `textureBoost = 1.5`, and `textureBoost = 1.095` at the default
texture `0.55`. -/
theorem black_pixel_scenario (t : ℚ) (ht0 : 0 ≤ t) (_ht1 : t ≤ 1) (themeRgb : List ℤ) :
    toGrayArray ⟨[0, 0, 0, 255], 1, 1⟩ 100 2 = [0] ∧
    selectDither "dot" [0] 1 1 2 = [0] ∧
    darknessAt [0] 0 = 1 ∧
    renderRoundDot [0] 1 1 8 2 "mono" [0, 0, 0, 255] themeRgb t =
      { width := 8
        height := 8
        ops := [DrawOp.fillRect 0 0 8 8 white 1,
          DrawOp.fillArc 4 4 (1 * 8 * 0.45 * 2 * (0.6 + t * 0.9) / max (2 - 1) 1)
            [17, 17, 17]] } ∧
    dotRadius 1 8 2 t = 1 * 8 * 0.45 * 2 * (0.6 + t * 0.9) / max (2 - 1) 1 ∧
    (0.6 + t * 0.9 = 1.5 → dotRadius 1 8 2 t = 10.8) ∧
    (0.6 : ℚ) + 0.55 * 0.9 = 1.095 := by
  have hd : darknessAt [0] 0 = 1 := by
    unfold darknessAt
    norm_num
  have hr : dotRadius 1 8 2 t = 1 * 8 * 0.45 * 2 * (0.6 + t * 0.9) / max (2 - 1) 1 := by
    unfold dotRadius
    norm_num
  have hth : ditherThreshold [0] 2 = [0] := by
    obtain ⟨hl, hv⟩ := ditherThreshold_getD [0] 2
    have := eq_replicate_of_getD (ditherThreshold [0] 2) 1 0 hl (by
      intro i hi
      rw [hv i hi]
      have : i = 0 := by omega
      subst this
      exact quantize_zero 2)
    exact this
  refine ⟨?_, ?_, hd, ?_, hr, ?_, by norm_num⟩
  · obtain ⟨hl, hv⟩ := fill_loop (1 * 1) (fun i =>
      quantize (adjustContrast (luminance
        ((([0, 0, 0, 255] : List ℕ).getD (i * 4) 0 : ℕ) : ℚ)
        ((([0, 0, 0, 255] : List ℕ).getD (i * 4 + 1) 0 : ℕ) : ℚ)
        ((([0, 0, 0, 255] : List ℕ).getD (i * 4 + 2) 0 : ℕ) : ℚ)) 100) 2) 0
    have := eq_replicate_of_getD _ 1 0 hl (by
      intro i hi
      rw [hv i hi]
      have : i = 0 := by omega
      subst this
      have e : adjustContrast (luminance
          ((([0, 0, 0, 255] : List ℕ).getD (0 * 4) 0 : ℕ) : ℚ)
          ((([0, 0, 0, 255] : List ℕ).getD (0 * 4 + 1) 0 : ℕ) : ℚ)
          ((([0, 0, 0, 255] : List ℕ).getD (0 * 4 + 2) 0 : ℕ) : ℚ)) 100 = 0 := by
        unfold adjustContrast luminance
        norm_num
      rw [e]
      exact quantize_zero 2)
    exact this
  · have : selectDither "dot" [0] 1 1 2 = ditherThreshold [0] 2 := by
      unfold selectDither
      rw [if_neg (by decide), if_neg (by decide), if_neg (by decide)]
    rw [this, hth]
  · have hbig : ¬ (1 * 8 * 0.45 * 2 * (0.6 + t * 0.9) / max (2 - 1) 1 ≤ (0.2 : ℚ)) := by
      norm_num
      linarith
    have hcell : roundDotCell [0] 1 8 2 "mono" [0, 0, 0, 255] themeRgb t 0 0
        = [DrawOp.fillArc 4 4 (1 * 8 * 0.45 * 2 * (0.6 + t * 0.9) / max (2 - 1) 1)
            [17, 17, 17]] := by
      unfold roundDotCell
      simp only [Nat.zero_mul, Nat.add_zero, hd, hr, if_neg hbig]
      norm_num
    unfold renderRoundDot renderCells
    simp only [forLoop_one, hcell]
    norm_num
  · intro h15
    rw [hr, h15]
    norm_num

theorem black_pixel_scenario_witness :
    ((0 : ℚ) ≤ 1 ∧ (1 : ℚ) ≤ 1 ∧ (0.6 : ℚ) + 1 * 0.9 = 1.5) ∧ dotRadius 1 8 2 1 = 10.8 :=
  ⟨by norm_num, (black_pixel_scenario 1 (by norm_num) (by norm_num) []).2.2.2.2.2.1
    (by norm_num)⟩

/-- C16: the stipple hash is a function into the unit interval.  For all inputs,
`hashNoise x y s = t - ⌊t⌋` with
`t = sin ((x * 127.1 + y * 311.7 + s * 17.3) * 0.0174533) * 43758.5453`, so
`0 ≤ hashNoise x y s < 1`; being a function, it returns equal values on equal inputs. -/
theorem hashNoise_unit_interval (mathSin : ℚ → ℚ) (x y s : ℚ) :
    hashNoise mathSin x y s
      = mathSin ((x * 127.1 + y * 311.7 + s * 17.3) * 0.0174533) * 43758.5453
        - ⌊mathSin ((x * 127.1 + y * 311.7 + s * 17.3) * 0.0174533) * 43758.5453⌋ ∧
    0 ≤ hashNoise mathSin x y s ∧ hashNoise mathSin x y s < 1 ∧
    (∀ x' y' s' : ℚ, x' = x → y' = y → s' = s →
      hashNoise mathSin x' y' s' = hashNoise mathSin x y s) := by
  refine ⟨rfl, ?_, ?_, ?_⟩
  · unfold hashNoise
    simp only
    exact sub_nonneg.mpr (Int.floor_le _)
  · unfold hashNoise
    simp only
    have := Int.lt_floor_add_one
      (mathSin ((x * 127.1 + y * 311.7 + s * 17.3) * 0.0174533) * 43758.5453)
    linarith
  · intro x' y' s' hx hy hs
    rw [hx, hy, hs]

theorem hashNoise_unit_interval_witness :
    0 ≤ hashNoise (fun a => a / 2) 3 4 1 ∧ hashNoise (fun a => a / 2) 3 4 1 < 1 :=
  ⟨(hashNoise_unit_interval (fun a => a / 2) 3 4 1).2.1,
   (hashNoise_unit_interval (fun a => a / 2) 3 4 1).2.2.1⟩

/-- C17: error diffusion is a no-op on already-quantized input.  For `N ≥ 2` and a tone buffer
of length `width * height` whose values are all integer multiples of the step `255 / (N - 1)`,
every residual is 0, every step of `ditherFloyd` and of `ditherAtkinson` leaves the buffer
unchanged, and both return the buffer unchanged, exactly as `ditherThreshold` does; hence on
the output of `toGrayArray` (same `N`) the modes `floyd` and `atkinson` of `processImage`
produce the same quantized buffer as threshold quantization. -/
theorem diffusion_noop_on_quantized (gray : List ℚ) (width height : ℕ) (N : ℤ) (hN : 2 ≤ N)
    (hlen : gray.length = width * height)
    (hq : ∀ v ∈ gray, ∃ k : ℤ, v = (k : ℚ) * 255 / ((N : ℚ) - 1)) (img : ImageData) (C : ℚ) :
    (∀ v ∈ gray, v - quantize v N = 0) ∧
    (∀ x y, x < width → y < height →
      floydStep width height N gray x y = gray ∧ atkinsonStep width height N gray x y = gray) ∧
    ditherFloyd gray width height N = gray ∧
    ditherAtkinson gray width height N = gray ∧
    ditherThreshold gray N = gray ∧
    selectDither "floyd" (toGrayArray img C N) img.width img.height N
      = ditherThreshold (toGrayArray img C N) N ∧
    selectDither "atkinson" (toGrayArray img C N) img.width img.height N
      = ditherThreshold (toGrayArray img C N) N := by
  have hfix : ∀ v ∈ gray, quantize v N = v := by
    intro v hv
    obtain ⟨k, rfl⟩ := hq v hv
    exact quantize_multiple N hN k
  have hfix' := forall_getD_of_mem gray (fun v => quantize v N = v) hfix
  obtain ⟨f, a, t⟩ := dither_fixed gray width height N hlen hfix'
  obtain ⟨gl, gv⟩ := toGrayArray_getD img C N
  have gfix : ∀ i, i < (toGrayArray img C N).length →
      quantize ((toGrayArray img C N).getD i 0) N = (toGrayArray img C N).getD i 0 := by
    intro i hi
    rw [gv i (by rw [← gl]; exact hi)]
    have e := quantize_eq_mul (adjustContrast (luminance (img.data.getD (i * 4) 0)
      (img.data.getD (i * 4 + 1) 0) (img.data.getD (i * 4 + 2) 0)) C) N
    rw [e]
    exact quantize_multiple N hN _
  obtain ⟨gf, ga, gt⟩ := dither_fixed (toGrayArray img C N) img.width img.height N gl gfix
  refine ⟨?_, ?_, f, a, t, ?_, ?_⟩
  · intro v hv
    rw [hfix v hv, sub_self]
  · intro x y hx hy
    have hi := hfix' _ (by rw [hlen]; exact raster_lt width height x y hx hy)
    exact ⟨floydStep_fixed gray width height N x y hi,
      atkinsonStep_fixed gray width height N x y hi⟩
  · unfold selectDither
    rw [if_pos rfl, gf, gt]
  · unfold selectDither
    rw [if_neg (by decide), if_pos rfl, ga, gt]

theorem diffusion_noop_on_quantized_witness :
    ditherFloyd [0, 255, 255, 0] 2 2 2 = [0, 255, 255, 0] ∧
    ditherAtkinson [0, 255, 255, 0] 2 2 2 = [0, 255, 255, 0] :=
  ⟨(diffusion_noop_on_quantized [0, 255, 255, 0] 2 2 2 (by decide) (by decide)
      (by intro v hv
          simp only [List.mem_cons, List.mem_singleton, List.not_mem_nil, or_false] at hv
          rcases hv with h | h | h | h
          · exact ⟨0, by rw [h]; norm_num⟩
          · exact ⟨1, by rw [h]; norm_num⟩
          · exact ⟨1, by rw [h]; norm_num⟩
          · exact ⟨0, by rw [h]; norm_num⟩)
      ⟨[], 0, 0⟩ 100).2.2.1,
   (diffusion_noop_on_quantized [0, 255, 255, 0] 2 2 2 (by decide) (by decide)
      (by intro v hv
          simp only [List.mem_cons, List.mem_singleton, List.not_mem_nil, or_false] at hv
          rcases hv with h | h | h | h
          · exact ⟨0, by rw [h]; norm_num⟩
          · exact ⟨1, by rw [h]; norm_num⟩
          · exact ⟨1, by rw [h]; norm_num⟩
          · exact ⟨0, by rw [h]; norm_num⟩)
      ⟨[], 0, 0⟩ 100).2.2.2.1⟩

theorem crossHatchCell_eq (values : List ℚ) (width : ℕ) (scale : ℚ) (colorMode : String)
    (sourceRgba : List ℕ) (themeRgb : List ℤ) (t thickness : ℚ) (x y : ℕ)
    (hd : (0.06 : ℚ) ≤ darknessAt values (y * width + x)) :
    crossHatchCell values width scale colorMode sourceRgba themeRgb t thickness x y =
      [drawLine (x * scale + scale * 0.12) (y * scale + scale * 0.88)
        (x * scale + scale * 0.88) (y * scale + scale * 0.12)
        (getInkColor (y * width + x) colorMode sourceRgba themeRgb)
        (darknessAt values (y * width + x)) thickness] ++
      (if darknessAt values (y * width + x) > 0.3 - t * 0.12 then
        [drawLine (x * scale + scale * 0.12) (y * scale + scale * 0.12)
          (x * scale + scale * 0.88) (y * scale + scale * 0.88)
          (getInkColor (y * width + x) colorMode sourceRgba themeRgb)
          (darknessAt values (y * width + x) * 0.9) thickness] else []) ++
      (if darknessAt values (y * width + x) > 0.62 - t * 0.15 then
        [drawLine (x * scale + scale * 0.5) (y * scale + scale * 0.08)
          (x * scale + scale * 0.5) (y * scale + scale * 0.92)
          (getInkColor (y * width + x) colorMode sourceRgba themeRgb)
          (darknessAt values (y * width + x) * 0.8) thickness] else []) := by
  unfold crossHatchCell
  simp only
  rw [if_neg (not_lt.mpr hd)]

theorem crossHatchCell_length (values : List ℚ) (width : ℕ) (scale : ℚ) (colorMode : String)
    (sourceRgba : List ℕ) (themeRgb : List ℤ) (t thickness : ℚ) (x y : ℕ) :
    (crossHatchCell values width scale colorMode sourceRgba themeRgb t thickness x y).length =
      if darknessAt values (y * width + x) < 0.06 then 0
      else 1 + (if darknessAt values (y * width + x) > 0.3 - t * 0.12 then 1 else 0)
        + (if darknessAt values (y * width + x) > 0.62 - t * 0.15 then 1 else 0) := by
  by_cases hd : darknessAt values (y * width + x) < 0.06
  · rw [if_pos hd]
    unfold crossHatchCell
    simp only
    rw [if_pos hd]
    rfl
  · rw [if_neg hd, crossHatchCell_eq _ _ _ _ _ _ _ _ _ _ (not_lt.mp hd)]
    split_ifs <;> rfl

/-- C18: cross hatch has three nested density tiers.  For texture intensity in `[0, 1]` a
pixel with darkness below `0.06` gets no stroke; a pixel with darkness at least `0.06` gets
1, 2 or 3 strokes, the second diagonal being drawn iff `darkness > 0.3 - texture * 0.12` and
the vertical centre stroke iff `darkness > 0.62 - texture * 0.15`; the centre stroke is never
drawn without the second diagonal, and the stroke count is non-decreasing in darkness. -/
theorem crossHatch_tiers (values values' : List ℚ) (width : ℕ) (scale : ℚ)
    (colorMode : String) (sourceRgba : List ℕ) (themeRgb : List ℤ) (t thickness : ℚ) (x y : ℕ)
    (hs : 1 ≤ scale) (_ht0 : 0 ≤ t) (ht1 : t ≤ 1) :
    (darknessAt values (y * width + x) < 0.06 →
      crossHatchCell values width scale colorMode sourceRgba themeRgb t thickness x y = []) ∧
    (0.06 ≤ darknessAt values (y * width + x) →
      (crossHatchCell values width scale colorMode sourceRgba themeRgb t thickness x y).length
        = 1 + (if darknessAt values (y * width + x) > 0.3 - t * 0.12 then 1 else 0)
            + (if darknessAt values (y * width + x) > 0.62 - t * 0.15 then 1 else 0) ∧
      1 ≤ (crossHatchCell values width scale colorMode sourceRgba themeRgb t thickness
        x y).length ∧
      (crossHatchCell values width scale colorMode sourceRgba themeRgb t thickness
        x y).length ≤ 3 ∧
      (drawLine (x * scale + scale * 0.12) (y * scale + scale * 0.12)
          (x * scale + scale * 0.88) (y * scale + scale * 0.88)
          (getInkColor (y * width + x) colorMode sourceRgba themeRgb)
          (darknessAt values (y * width + x) * 0.9) thickness
        ∈ crossHatchCell values width scale colorMode sourceRgba themeRgb t thickness x y
        ↔ darknessAt values (y * width + x) > 0.3 - t * 0.12) ∧
      (drawLine (x * scale + scale * 0.5) (y * scale + scale * 0.08)
          (x * scale + scale * 0.5) (y * scale + scale * 0.92)
          (getInkColor (y * width + x) colorMode sourceRgba themeRgb)
          (darknessAt values (y * width + x) * 0.8) thickness
        ∈ crossHatchCell values width scale colorMode sourceRgba themeRgb t thickness x y
        ↔ darknessAt values (y * width + x) > 0.62 - t * 0.15) ∧
      (darknessAt values (y * width + x) > 0.62 - t * 0.15 →
        darknessAt values (y * width + x) > 0.3 - t * 0.12)) ∧
    (darknessAt values (y * width + x) ≤ darknessAt values' (y * width + x) →
      (crossHatchCell values width scale colorMode sourceRgba themeRgb t thickness x y).length
        ≤ (crossHatchCell values' width scale colorMode sourceRgba themeRgb t thickness
            x y).length) := by
  have hs0 : scale ≠ 0 := by
    intro e
    rw [e] at hs
    norm_num at hs
  refine ⟨?_, ?_, ?_⟩
  · intro hd
    unfold crossHatchCell
    simp only
    rw [if_pos hd]
  · intro hd
    have hlen := crossHatchCell_length values width scale colorMode sourceRgba themeRgb t
      thickness x y
    rw [if_neg (not_lt.mpr hd)] at hlen
    have heq := crossHatchCell_eq values width scale colorMode sourceRgba themeRgb t
      thickness x y hd
    have n1 : ¬ (y * scale + scale * 0.12 = y * scale + scale * 0.88) := by
      intro e
      apply hs0
      linarith
    have n2 : ¬ (x * scale + scale * 0.12 = x * scale + scale * 0.5) := by
      intro e
      apply hs0
      linarith
    have n3 : ¬ (x * scale + scale * 0.5 = x * scale + scale * 0.12) := fun e => n2 e.symm
    refine ⟨hlen, ?_, ?_, ?_, ?_, ?_⟩
    · rw [hlen]
      omega
    · rw [hlen]
      split_ifs <;> omega
    · rw [heq]
      by_cases c2 : darknessAt values (y * width + x) > 0.3 - t * 0.12 <;>
        by_cases c3 : darknessAt values (y * width + x) > 0.62 - t * 0.15 <;>
        simp [c2, c3, drawLine, n1, n2]
    · rw [heq]
      by_cases c2 : darknessAt values (y * width + x) > 0.3 - t * 0.12 <;>
        by_cases c3 : darknessAt values (y * width + x) > 0.62 - t * 0.15 <;>
        simp [c2, c3, drawLine, n3]
    · intro c3
      have : 0.3 - t * 0.12 ≤ 0.62 - t * 0.15 := by linarith
      exact lt_of_le_of_lt this c3
  · intro hle
    rw [crossHatchCell_length, crossHatchCell_length]
    split_ifs <;> first | omega | (exfalso; linarith)

theorem crossHatch_tiers_witness :
    ((1 : ℚ) ≤ 8 ∧ (0 : ℚ) ≤ 1 / 2 ∧ (1 / 2 : ℚ) ≤ 1 ∧ (0.06 : ℚ) ≤ darknessAt [0] (0 * 1 + 0)) ∧
    (crossHatchCell [0] 1 8 "mono" [] [] (1 / 2) 1 0 0).length ≤ 3 :=
  ⟨⟨by norm_num, by norm_num, by norm_num, by unfold darknessAt; norm_num⟩,
   ((crossHatch_tiers [0] [0] 1 8 "mono" [] [] (1 / 2) 1 0 0 (by norm_num) (by norm_num)
      (by norm_num)).2.1 (by unfold darknessAt; norm_num)).2.2.1⟩

theorem darknessAt_range (values : List ℚ) (i : ℕ) :
    0 ≤ darknessAt values i ∧ darknessAt values i ≤ 1 := by
  unfold darknessAt
  simp only
  have h0 : (0 : ℚ) ≤ max 0 (min 255 (values.getD i 0)) := le_max_left _ _
  have h1 : max 0 (min 255 (values.getD i 0)) ≤ (255 : ℚ) :=
    max_le (by norm_num) (min_le_left _ _)
  constructor
  · have : max 0 (min 255 (values.getD i 0)) / 255 ≤ 1 := by
      rw [div_le_one (by norm_num)]
      exact h1
    linarith
  · have : 0 ≤ max 0 (min 255 (values.getD i 0)) / 255 := by positivity
    linarith

theorem hatchLineCount_range (d t : ℚ) (hd0 : 0 ≤ d) (hd1 : d ≤ 1) (ht0 : 0 ≤ t)
    (ht1 : t ≤ 1) : 1 ≤ hatchLineCount d t ∧ hatchLineCount d t ≤ 6 := by
  unfold hatchLineCount
  have h0 : (0 : ℚ) ≤ d * (1.4 + t * 3.8) := by
    apply mul_nonneg hd0
    linarith
  have h1 : d * (1.4 + t * 3.8) < ((6 : ℤ) : ℚ) := by
    push_cast
    nlinarith
  have f0 := Int.floor_nonneg.mpr h0
  have f1 := Int.floor_lt.mpr h1
  omega

theorem horizontalHatchCell_eq (values : List ℚ) (width : ℕ) (scale : ℚ) (colorMode : String)
    (sourceRgba : List ℕ) (themeRgb : List ℤ) (t thickness : ℚ) (x y : ℕ)
    (hd : (0.06 : ℚ) ≤ darknessAt values (y * width + x)) :
    horizontalHatchCell values width scale colorMode sourceRgba themeRgb t thickness x y =
      (List.range (hatchLineCount (darknessAt values (y * width + x)) t).toNat).map (fun (k : ℕ) =>
        DrawOp.line (x * scale + scale * 0.1)
          (y * scale + ((k : ℚ) + 1) *
            (scale / ((hatchLineCount (darknessAt values (y * width + x)) t : ℚ) + 1)))
          (x * scale + scale * 0.9)
          (y * scale + ((k : ℚ) + 1) *
            (scale / ((hatchLineCount (darknessAt values (y * width + x)) t : ℚ) + 1)))
          (getInkColor (y * width + x) colorMode sourceRgba themeRgb)
          (darknessAt values (y * width + x)) thickness) := by
  unfold horizontalHatchCell
  simp only
  rw [if_neg (not_lt.mpr hd), forLoop_append_single, List.nil_append]
  rfl

theorem verticalHatchCell_eq (values : List ℚ) (width : ℕ) (scale : ℚ) (colorMode : String)
    (sourceRgba : List ℕ) (themeRgb : List ℤ) (t thickness : ℚ) (x y : ℕ)
    (hd : (0.06 : ℚ) ≤ darknessAt values (y * width + x)) :
    verticalHatchCell values width scale colorMode sourceRgba themeRgb t thickness x y =
      (List.range (hatchLineCount (darknessAt values (y * width + x)) t).toNat).map (fun (k : ℕ) =>
        DrawOp.line
          (x * scale + ((k : ℚ) + 1) *
            (scale / ((hatchLineCount (darknessAt values (y * width + x)) t : ℚ) + 1)))
          (y * scale + scale * 0.1)
          (x * scale + ((k : ℚ) + 1) *
            (scale / ((hatchLineCount (darknessAt values (y * width + x)) t : ℚ) + 1)))
          (y * scale + scale * 0.9)
          (getInkColor (y * width + x) colorMode sourceRgba themeRgb)
          (darknessAt values (y * width + x)) thickness) := by
  unfold verticalHatchCell
  simp only
  rw [if_neg (not_lt.mpr hd), forLoop_append_single, List.nil_append]
  rfl

/-- C19: hatch strokes are evenly spaced strictly inside the cell.  For `scale ≥ 1`, texture
intensity in `[0, 1]` and a pixel with darkness in `[0.06, 1]`, `renderHorizontalHatch` and
`renderVerticalHatch` each draw `lineCount = 1 + ⌊darkness * (1.4 + texture * 3.8)⌋` strokes,
`1 ≤ lineCount ≤ 6`; stroke `n = 1 .. lineCount` lies at offset `n * scale / (lineCount + 1)`
from the cell origin, strictly between 0 and `scale`, consecutive strokes being
`scale / (lineCount + 1)` apart; each stroke spans from 10% to 90% of the cell with alpha equal
to the darkness; and the vertical strokes are the horizontal ones with the two cell-relative
axes exchanged. -/
theorem hatch_strokes (values : List ℚ) (width : ℕ) (scale : ℚ) (colorMode : String)
    (sourceRgba : List ℕ) (themeRgb : List ℤ) (t thickness : ℚ) (x y : ℕ)
    (hs : 1 ≤ scale) (ht0 : 0 ≤ t) (ht1 : t ≤ 1)
    (hd : (0.06 : ℚ) ≤ darknessAt values (y * width + x)) :
    hatchLineCount (darknessAt values (y * width + x)) t
      = 1 + ⌊darknessAt values (y * width + x) * (1.4 + t * 3.8)⌋ ∧
    1 ≤ hatchLineCount (darknessAt values (y * width + x)) t ∧
    hatchLineCount (darknessAt values (y * width + x)) t ≤ 6 ∧
    horizontalHatchCell values width scale colorMode sourceRgba themeRgb t thickness x y =
      (List.range (hatchLineCount (darknessAt values (y * width + x)) t).toNat).map (fun (k : ℕ) =>
        DrawOp.line (x * scale + scale * 0.1)
          (y * scale + ((k : ℚ) + 1) *
            (scale / ((hatchLineCount (darknessAt values (y * width + x)) t : ℚ) + 1)))
          (x * scale + scale * 0.9)
          (y * scale + ((k : ℚ) + 1) *
            (scale / ((hatchLineCount (darknessAt values (y * width + x)) t : ℚ) + 1)))
          (getInkColor (y * width + x) colorMode sourceRgba themeRgb)
          (darknessAt values (y * width + x)) thickness) ∧
    verticalHatchCell values width scale colorMode sourceRgba themeRgb t thickness x y =
      (List.range (hatchLineCount (darknessAt values (y * width + x)) t).toNat).map (fun (k : ℕ) =>
        DrawOp.line
          (x * scale + ((k : ℚ) + 1) *
            (scale / ((hatchLineCount (darknessAt values (y * width + x)) t : ℚ) + 1)))
          (y * scale + scale * 0.1)
          (x * scale + ((k : ℚ) + 1) *
            (scale / ((hatchLineCount (darknessAt values (y * width + x)) t : ℚ) + 1)))
          (y * scale + scale * 0.9)
          (getInkColor (y * width + x) colorMode sourceRgba themeRgb)
          (darknessAt values (y * width + x)) thickness) ∧
    ((horizontalHatchCell values width scale colorMode sourceRgba themeRgb t thickness
        x y).length : ℤ) = hatchLineCount (darknessAt values (y * width + x)) t ∧
    ((verticalHatchCell values width scale colorMode sourceRgba themeRgb t thickness
        x y).length : ℤ) = hatchLineCount (darknessAt values (y * width + x)) t ∧
    (∀ n : ℤ, 1 ≤ n → n ≤ hatchLineCount (darknessAt values (y * width + x)) t →
      (n : ℚ) * (scale / ((hatchLineCount (darknessAt values (y * width + x)) t : ℚ) + 1))
        = (n : ℚ) * scale / ((hatchLineCount (darknessAt values (y * width + x)) t : ℚ) + 1) ∧
      0 < (n : ℚ) * scale / ((hatchLineCount (darknessAt values (y * width + x)) t : ℚ) + 1) ∧
      (n : ℚ) * scale / ((hatchLineCount (darknessAt values (y * width + x)) t : ℚ) + 1)
        < scale ∧
      ((n : ℚ) + 1) * scale / ((hatchLineCount (darknessAt values (y * width + x)) t : ℚ) + 1)
        - (n : ℚ) * scale / ((hatchLineCount (darknessAt values (y * width + x)) t : ℚ) + 1)
        = scale / ((hatchLineCount (darknessAt values (y * width + x)) t : ℚ) + 1)) ∧
    verticalHatchCell values width scale colorMode sourceRgba themeRgb t thickness x y =
      (horizontalHatchCell values width scale colorMode sourceRgba themeRgb t thickness
        x y).map (transposeInCell (x * scale) (y * scale)) := by
  obtain ⟨d0, d1⟩ := darknessAt_range values (y * width + x)
  obtain ⟨l1, l6⟩ := hatchLineCount_range _ t d0 d1 ht0 ht1
  have hh := horizontalHatchCell_eq values width scale colorMode sourceRgba themeRgb t
    thickness x y hd
  have hv := verticalHatchCell_eq values width scale colorMode sourceRgba themeRgb t
    thickness x y hd
  have hpos : (0 : ℚ) < (hatchLineCount (darknessAt values (y * width + x)) t : ℚ) + 1 := by
    have : (1 : ℚ) ≤ (hatchLineCount (darknessAt values (y * width + x)) t : ℚ) := by
      exact_mod_cast l1
    linarith
  have hs0 : (0 : ℚ) < scale := by linarith
  refine ⟨rfl, l1, l6, hh, hv, ?_, ?_, ?_, ?_⟩
  · rw [hh, List.length_map, List.length_range]
    exact Int.toNat_of_nonneg (by omega)
  · rw [hv, List.length_map, List.length_range]
    exact Int.toNat_of_nonneg (by omega)
  · intro n hn1 hn2
    have q1 : (1 : ℚ) ≤ (n : ℚ) := by exact_mod_cast hn1
    have q2 : (n : ℚ) ≤ (hatchLineCount (darknessAt values (y * width + x)) t : ℚ) := by
      exact_mod_cast hn2
    refine ⟨by ring, ?_, ?_, by ring⟩
    · apply div_pos _ hpos
      nlinarith
    · rw [div_lt_iff₀ hpos]
      nlinarith
  · rw [hh, hv, List.map_map]
    apply List.map_congr_left
    intro k _
    simp only [Function.comp, transposeInCell]
    congr 1 <;> ring

theorem hatch_strokes_witness :
    ((1 : ℚ) ≤ 8 ∧ (0 : ℚ) ≤ 1 / 2 ∧ (1 / 2 : ℚ) ≤ 1 ∧ (0.06 : ℚ) ≤ darknessAt [0] (0 * 1 + 0)) ∧
    hatchLineCount (darknessAt [0] (0 * 1 + 0)) (1 / 2) ≤ 6 :=
  ⟨⟨by norm_num, by norm_num, by norm_num, by unfold darknessAt; norm_num⟩,
   (hatch_strokes [0] 1 8 "mono" [] [] (1 / 2) 1 0 0 (by norm_num) (by norm_num)
      (by norm_num) (by unfold darknessAt; norm_num)).2.2.1⟩

theorem hashNoise_range (mathSin : ℚ → ℚ) (x y s : ℚ) :
    0 ≤ hashNoise mathSin x y s ∧ hashNoise mathSin x y s < 1 := by
  unfold hashNoise
  simp only
  constructor
  · exact sub_nonneg.mpr (Int.floor_le _)
  · have := Int.lt_floor_add_one
      (mathSin ((x * 127.1 + y * 311.7 + s * 17.3) * 0.0174533) * 43758.5453)
    linarith

theorem stippleCount_range (d t : ℚ) (hd0 : 0 ≤ d) (hd1 : d ≤ 1) (ht0 : 0 ≤ t)
    (ht1 : t ≤ 1) : 1 ≤ stippleCount d t ∧ stippleCount d t ≤ 10 := by
  unfold stippleCount
  have h0 : (0 : ℚ) ≤ d * (2.5 + t * 6.5) := by
    apply mul_nonneg hd0
    linarith
  have h1 : d * (2.5 + t * 6.5) < ((10 : ℤ) : ℚ) := by
    push_cast
    nlinarith
  have f0 := Int.floor_nonneg.mpr h0
  have f1 := Int.floor_lt.mpr h1
  omega

theorem stippleDotSize_range (scale t : ℚ) (hs : 1 ≤ scale) (_ht0 : 0 ≤ t) (ht1 : t ≤ 1) :
    1 ≤ stippleDotSize scale t ∧ stippleDotSize scale t ≤ scale := by
  unfold stippleDotSize
  constructor
  · exact le_max_left _ _
  · apply max_le hs
    nlinarith

theorem grainStippleCell_eq (mathSin : ℚ → ℚ) (values : List ℚ) (width : ℕ) (scale : ℚ)
    (colorMode : String) (sourceRgba : List ℕ) (themeRgb : List ℤ) (t : ℚ) (x y : ℕ)
    (hd : (0.05 : ℚ) ≤ darknessAt values (y * width + x)) :
    grainStippleCell mathSin values width scale colorMode sourceRgba themeRgb t x y =
      (List.range (stippleCount (darknessAt values (y * width + x)) t).toNat).map
        (fun (n : ℕ) => DrawOp.fillRect
          (x * scale + hashNoise mathSin x y ((n : ℚ) + 1)
            * (scale - stippleDotSize scale t))
          (y * scale + hashNoise mathSin y x ((n : ℚ) + 11)
            * (scale - stippleDotSize scale t))
          (stippleDotSize scale t) (stippleDotSize scale t)
          (getInkColor (y * width + x) colorMode sourceRgba themeRgb)
          (0.35 + darknessAt values (y * width + x) * 0.65)) := by
  unfold grainStippleCell
  simp only
  rw [if_neg (not_lt.mpr hd), forLoop_append_single, List.nil_append]

/-- C20: stipple marks never leave their pixel's cell.  For `scale ≥ 1`, texture intensity in
`[0, 1]` and a pixel `(x, y)` with darkness in `[0.05, 1]`, `renderGrainStipple` draws
`count = 1 + ⌊darkness * (2.5 + texture * 6.5)⌋` marks, `1 ≤ count ≤ 10`, each a square of side
`dotSize = max 1 (scale * (0.14 + texture * 0.2)) ≤ scale` whose top-left corner `(px, py)`
satisfies `x * scale ≤ px ≤ x * scale + scale - dotSize` and
`y * scale ≤ py ≤ y * scale + scale - dotSize`, so the square lies inside the cell
`[x * scale, (x + 1) * scale] × [y * scale, (y + 1) * scale]`. -/
theorem stipple_marks_in_cell (mathSin : ℚ → ℚ) (values : List ℚ) (width : ℕ) (scale : ℚ)
    (colorMode : String) (sourceRgba : List ℕ) (themeRgb : List ℤ) (t : ℚ) (x y : ℕ)
    (hs : 1 ≤ scale) (ht0 : 0 ≤ t) (ht1 : t ≤ 1)
    (hd : (0.05 : ℚ) ≤ darknessAt values (y * width + x)) :
    stippleCount (darknessAt values (y * width + x)) t
      = 1 + ⌊darknessAt values (y * width + x) * (2.5 + t * 6.5)⌋ ∧
    1 ≤ stippleCount (darknessAt values (y * width + x)) t ∧
    stippleCount (darknessAt values (y * width + x)) t ≤ 10 ∧
    stippleDotSize scale t = max 1 (scale * (0.14 + t * 0.2)) ∧
    stippleDotSize scale t ≤ scale ∧
    ((grainStippleCell mathSin values width scale colorMode sourceRgba themeRgb t
        x y).length : ℤ) = stippleCount (darknessAt values (y * width + x)) t ∧
    ∀ op ∈ grainStippleCell mathSin values width scale colorMode sourceRgba themeRgb t x y,
      ∃ px py : ℚ,
        op = DrawOp.fillRect px py (stippleDotSize scale t) (stippleDotSize scale t)
          (getInkColor (y * width + x) colorMode sourceRgba themeRgb)
          (0.35 + darknessAt values (y * width + x) * 0.65) ∧
        x * scale ≤ px ∧ px ≤ x * scale + scale - stippleDotSize scale t ∧
        y * scale ≤ py ∧ py ≤ y * scale + scale - stippleDotSize scale t ∧
        px + stippleDotSize scale t ≤ ((x : ℚ) + 1) * scale ∧
        py + stippleDotSize scale t ≤ ((y : ℚ) + 1) * scale := by
  obtain ⟨d0, d1⟩ := darknessAt_range values (y * width + x)
  obtain ⟨c1, c10⟩ := stippleCount_range _ t d0 d1 ht0 ht1
  obtain ⟨s1, s2⟩ := stippleDotSize_range scale t hs ht0 ht1
  have he := grainStippleCell_eq mathSin values width scale colorMode sourceRgba themeRgb t
    x y hd
  refine ⟨rfl, c1, c10, rfl, s2, ?_, ?_⟩
  · rw [he, List.length_map, List.length_range]
    exact Int.toNat_of_nonneg (by omega)
  · intro op hop
    rw [he, List.mem_map] at hop
    obtain ⟨n, _, rfl⟩ := hop
    obtain ⟨rx0, rx1⟩ := hashNoise_range mathSin x y ((n : ℚ) + 1)
    obtain ⟨ry0, ry1⟩ := hashNoise_range mathSin y x ((n : ℚ) + 11)
    have hgap : 0 ≤ scale - stippleDotSize scale t := by linarith
    refine ⟨_, _, rfl, ?_, ?_, ?_, ?_, ?_, ?_⟩
    · nlinarith
    · nlinarith
    · nlinarith
    · nlinarith
    · nlinarith
    · nlinarith

theorem stipple_marks_in_cell_witness :
    ((1 : ℚ) ≤ 8 ∧ (0 : ℚ) ≤ 1 / 2 ∧ (1 / 2 : ℚ) ≤ 1 ∧ (0.05 : ℚ) ≤ darknessAt [0] (0 * 1 + 0)) ∧
    stippleCount (darknessAt [0] (0 * 1 + 0)) (1 / 2) ≤ 10 :=
  ⟨⟨by norm_num, by norm_num, by norm_num, by unfold darknessAt; norm_num⟩,
   (stipple_marks_in_cell (fun a => a / 2) [0] 1 8 "mono" [] [] (1 / 2) 0 0 (by norm_num)
      (by norm_num) (by norm_num) (by unfold darknessAt; norm_num)).2.2.1⟩

end Dithering
